import Mathlib

/-!
# seeefs: metadata store, block assembler, block cache and read path

A shallow embedding of `src/main.go`.  Go values are modelled as follows.

* `uint64` / `uint` are `Nat`, reduced `% 2^64` wherever the Go operation can wrap.
* `[]byte` and `string` are `List Nat` (a list of byte values); the two conversions
  `[]rune(s)` and `string(runes)` are modelled by `runesOfString` and `stringOfRunes`.
* `rune` (`int32`) is `Int`.
* Slices are `List`; a Go index or slice expression that is out of range panics, which the
  fallible functions report as `GoError.panic` (or `none`).
* Go maps are partial functions `κ → Option Nat`.
* `log.Fatal` ends the process; `loadBytes` reports it as `GoError.decodeError`.
-/

namespace Seeefs

/-! ## Constants of `main.go` -/

def CACHE_LIMIT : Nat := 1099511627776
def MIN_BLOCK_SIZE : Nat := 67108864
def MAX_BLOCK_SIZE : Nat := 268435456 * 2
def NullId : Nat := 0xffffffffffffffff

/-- The number of values of a `uint64` (and of `uint` on a 64-bit platform). -/
def U64 : Nat := 2 ^ 64

/-- Constant `binary.MaxVarintLen64`. -/
def MaxVarintLen64 : Nat := 10

/-- Constant `sha512.Size`. -/
def sha512Size : Nat := 64

/-! ## `encoding/binary`: unsigned varints -/

/-- Loop of `binary.PutUvarint(buf, x)`: the bytes written into `buf`.  The first argument is
the room left in `buf`; `appendUvarint` hands over `MaxVarintLen64` bytes. -/
def putUvarintLoop : Nat → Nat → List Nat
  | 0, _ => []
  | room + 1, x =>
    if 0x80 ≤ x then ((x % 256) ||| 0x80) :: putUvarintLoop room (x >>> 7)
    else [x % 256]

/-- Function `appendUvarint(s, x)`: `s` followed by the bytes `binary.PutUvarint` writes. -/
def appendUvarint (s : List Nat) (x : Nat) : List Nat :=
  s ++ putUvarintLoop MaxVarintLen64 x

/-- Loop of `binary.Uvarint(buf)`: `x` is the value accumulated so far, `sh` the shift and `i`
the index of the head of the list in `buf`.  The result is the pair `(value, n)` of
`binary.Uvarint`, where `n ≤ 0` signals a short buffer (`0`) or an overflow (`-(i+1)`). -/
def uvarintLoop : List Nat → Nat → Nat → Nat → Nat × Int
  | [], _, _, _ => (0, 0)
  | b :: rest, x, sh, i =>
    if i = MaxVarintLen64 then (0, -((i : Int) + 1))
    else if b < 0x80 then
      if i = MaxVarintLen64 - 1 ∧ 1 < b then (0, -((i : Int) + 1))
      else ((x ||| (b <<< sh)) % U64, (i : Int) + 1)
    else uvarintLoop rest (x ||| ((b &&& 0x7f) <<< sh)) (sh + 7) (i + 1)

/-- Conversion `uint(b)` of an `int` on a 64-bit platform. -/
def uintOfInt (b : Int) : Nat := (b % (U64 : Int)).toNat

/-- Function `getUvarint(s)`: the value and the byte count of `binary.Uvarint`, the count
converted to `uint`. -/
def getUvarint (s : List Nat) : Nat × Nat :=
  let r := uvarintLoop s 0 0 0
  (r.1, uintOfInt r.2)

/-! ## Strings and runes -/

/-- Constant `utf8.RuneError`. -/
def RuneError : Int := 0xFFFD

/-- A UTF-8 continuation byte. -/
def isCont (b : Nat) : Bool := decide (0x80 ≤ b ∧ b ≤ 0xBF)

/-- The first rune of a string and its width in bytes, as the conversion `[]rune(s)` decodes
it: an ill-formed sequence yields `RuneError` and width 1. -/
def decodeRune : List Nat → Int × Nat
  | [] => (RuneError, 0)
  | b0 :: rest =>
    if b0 < 0x80 then ((b0 : Int), 1)
    else if 0xC2 ≤ b0 ∧ b0 ≤ 0xDF then
      match rest with
      | b1 :: _ =>
        if isCont b1 then ((((b0 % 32) * 64 + b1 % 64 : Nat) : Int), 2) else (RuneError, 1)
      | [] => (RuneError, 1)
    else if 0xE0 ≤ b0 ∧ b0 ≤ 0xEF then
      match rest with
      | b1 :: b2 :: _ =>
        if (if b0 = 0xE0 then 0xA0 else 0x80) ≤ b1 ∧ b1 ≤ (if b0 = 0xED then 0x9F else 0xBF)
            ∧ isCont b2 then
          ((((b0 % 16) * 4096 + (b1 % 64) * 64 + b2 % 64 : Nat) : Int), 3)
        else (RuneError, 1)
      | _ => (RuneError, 1)
    else if 0xF0 ≤ b0 ∧ b0 ≤ 0xF4 then
      match rest with
      | b1 :: b2 :: b3 :: _ =>
        if (if b0 = 0xF0 then 0x90 else 0x80) ≤ b1 ∧ b1 ≤ (if b0 = 0xF4 then 0x8F else 0xBF)
            ∧ isCont b2 ∧ isCont b3 then
          ((((b0 % 8) * 262144 + (b1 % 64) * 4096 + (b2 % 64) * 64 + b3 % 64 : Nat) : Int), 4)
        else (RuneError, 1)
      | _ => (RuneError, 1)
    else (RuneError, 1)

/-- Loop of the conversion `[]rune(s)`; the first argument bounds the number of runes by the
number of bytes. -/
def runesLoop : Nat → List Nat → List Int
  | 0, _ => []
  | k + 1, s =>
    match s with
    | [] => []
    | _ :: _ => (decodeRune s).1 :: runesLoop k (s.drop (decodeRune s).2)

/-- Conversion `[]rune(s)`. -/
def runesOfString (s : List Nat) : List Int := runesLoop s.length s

/-- The UTF-8 encoding of one rune as the conversion `string(runes)` writes it: a rune that
is negative, a surrogate or above U+10FFFF is written as U+FFFD. -/
def encodeRune (r : Int) : List Nat :=
  if r < 0 ∨ 0x10FFFF < r ∨ (0xD800 ≤ r ∧ r ≤ 0xDFFF) then [0xEF, 0xBF, 0xBD]
  else
    let c := r.toNat
    if c < 0x80 then [c]
    else if c < 0x800 then [0xC0 + c / 64, 0x80 + c % 64]
    else if c < 0x10000 then [0xE0 + c / 4096, 0x80 + (c / 64) % 64, 0x80 + c % 64]
    else [0xF0 + c / 262144, 0x80 + (c / 4096) % 64, 0x80 + (c / 64) % 64, 0x80 + c % 64]

/-- Conversion `string(ts)` of a rune slice. -/
def stringOfRunes (ts : List Int) : List Nat := (ts.map encodeRune).flatten

/-- Conversion `uint64(r)` of a rune (sign extension of an `int32`). -/
def uint64OfRune (r : Int) : Nat := (r % (U64 : Int)).toNat

/-- Conversion `rune(a)` of a `uint64` (truncation to `int32`). -/
def runeOfUint64 (a : Nat) : Int :=
  if a % 2 ^ 32 < 2 ^ 31 then ((a % 2 ^ 32 : Nat) : Int) else ((a % 2 ^ 32 : Nat) : Int) - 2 ^ 32

/-! ## Data model (`Dir`, `StorageInfo`, `File`, `Node` and the global variables) -/

/-- A Go `map[K]uint64`. -/
abbrev GoMap (κ : Type) := κ → Option Nat

/-- The empty map `make(map[K]uint64)`. -/
def GoMap.empty {κ : Type} : GoMap κ := fun _ => none

/-- The assignment `m[k] = v`. -/
def GoMap.insert {κ : Type} [DecidableEq κ] (m : GoMap κ) (k : κ) (v : Nat) : GoMap κ :=
  fun k' => if k' = k then some v else m k'

structure Dir where
  Name : List Nat
  Inode : Nat
  Child : List Nat
  Files : List Nat
  ChildMap : GoMap (List Nat)
  FilesMap : GoMap (List Nat)

structure StorageInfo where
  NodeId : Nat
  NodePos : Nat
  Nodes : List Nat
  deriving DecidableEq, Repr

structure File where
  Name : List Nat
  Inode : Nat
  Size : Nat
  SHA512 : List Nat
  Storage : StorageInfo
  deriving DecidableEq, Repr

structure Node where
  Size : Nat
  Source : List Nat
  deriving DecidableEq, Repr

/-- The global variables of `main.go`: the metadata (`Dirs`, `Files`, `Nodes`, `Inodes`,
`SHA512Lookup`) and the cache state. -/
structure FS where
  Dirs : List Dir
  Files : List File
  Nodes : List Node
  Inodes : Nat
  SHA512Lookup : GoMap (List Nat)
  NodesOpenCnt : List Nat
  NodesLastAccess : List Nat
  NodesCached : List Bool
  NodesRealCached : List Bool
  CachedNodes : List Nat
  CacheTotalSize : Nat

/-- The zero value `File{}` with a 64-byte zero hash. -/
def File.zero : File :=
  { Name := [], Inode := 0, Size := 0, SHA512 := List.replicate sha512Size 0,
    Storage := { NodeId := 0, NodePos := 0, Nodes := [] } }

/-- Function `clear()`; the cache arrays it does not assign keep their value. -/
def clear (old : FS) : FS :=
  { old with
    Dirs := [{ Name := [0x2F], Inode := 1, Child := [], Files := [],
               ChildMap := GoMap.empty, FilesMap := GoMap.empty }]
    Files := []
    Nodes := []
    Inodes := 1
    NodesOpenCnt := []
    NodesLastAccess := []
    SHA512Lookup := GoMap.empty }

/-- The state of the global variables when the program starts (all nil or zero). -/
def FS.init : FS :=
  { Dirs := [], Files := [], Nodes := [], Inodes := 0, SHA512Lookup := GoMap.empty,
    NodesOpenCnt := [], NodesLastAccess := [], NodesCached := [], NodesRealCached := [],
    CachedNodes := [], CacheTotalSize := 0 }

/-! ## `saveBytes` -/

/-- The loops `for j ... { res = appendUvarint(res, xs[j]) }`. -/
def appendUvarints (res : List Nat) (xs : List Nat) : List Nat :=
  xs.foldl appendUvarint res

/-- The length-prefixed list of ids written for `Child`, `Files` and `Storage.Nodes`. -/
def appendIds (res : List Nat) (xs : List Nat) : List Nat :=
  appendUvarints (appendUvarint res xs.length) xs

/-- A string is written as the number of its runes followed by one varint per rune. -/
def appendString (res : List Nat) (name : List Nat) : List Nat :=
  appendIds res ((runesOfString name).map uint64OfRune)

/-- Body of the first loop of `saveBytes`. -/
def appendDir (res : List Nat) (d : Dir) : List Nat :=
  let res := appendString res d.Name
  let res := appendUvarint res d.Inode
  let res := appendIds res d.Child
  appendIds res d.Files

/-- Body of the second loop of `saveBytes`. -/
def appendFile (res : List Nat) (f : File) : List Nat :=
  let res := appendString res f.Name
  let res := appendUvarint res f.Inode
  let res := appendUvarint res f.Size
  let res := appendUvarint res f.Storage.NodeId
  let res := appendUvarint res f.Storage.NodePos
  let res := res ++ f.SHA512
  appendIds res f.Storage.Nodes

/-- Body of the third loop of `saveBytes`. -/
def appendNode (res : List Nat) (nd : Node) : List Nat :=
  let res := appendUvarint res nd.Size
  appendString res nd.Source

/-- Function `saveBytes()`. -/
def saveBytes (M : FS) : List Nat :=
  let res := appendUvarint [] M.Dirs.length
  let res := M.Dirs.foldl appendDir res
  let res := appendUvarint res M.Files.length
  let res := M.Files.foldl appendFile res
  let res := appendUvarint res M.Nodes.length
  let res := M.Nodes.foldl appendNode res
  appendUvarint res M.Inodes

/-! ## `loadBytes` -/

/-- How a run of the Go code can end without a result: a run-time panic (an index or slice
bound out of range) or `log.Fatal("fs data decode error")`. -/
inductive GoError where
  | panic
  | decodeError
  deriving DecidableEq, Repr

/-- A reading step of `loadBytes`: from the input `s` and the cursor `n` to a value and the
new cursor, or to an error. -/
def Reader (α : Type) : Type := List Nat → Nat → Except GoError (α × Nat)

/-- A step that reads nothing. -/
def Reader.pure {α : Type} (v : α) : Reader α := fun _ n => .ok (v, n)

/-- Two steps in sequence; an error ends the run. -/
def Reader.bind {α β : Type} (rd : Reader α) (f : α → Reader β) : Reader β := fun s n =>
  match rd s n with
  | .error e => .error e
  | .ok (a, n1) => f a s n1

instance : Monad Reader where
  pure := Reader.pure
  bind := Reader.bind

/-- The statement pair `a, b = getUvarint(s[n:]); n += b`.  The slice expression panics when
`n > len(s)`; `n` is a `uint` and wraps. -/
def readUvarint : Reader Nat := fun s n =>
  if s.length < n then .error .panic
  else .ok ((getUvarint (s.drop n)).1, (n + (getUvarint (s.drop n)).2) % U64)

/-- A loop that fills a slice of `k` elements, reading one element per iteration. -/
def readMany {α : Type} (rd : Reader α) : Nat → Reader (List α)
  | 0 => pure []
  | k + 1 => do
    let x ← rd
    let xs ← readMany rd k
    pure (x :: xs)

/-- A length followed by that many varints. -/
def readIds : Reader (List Nat) := do
  let a ← readUvarint
  readMany readUvarint a

/-- A string: a length, that many varints converted by `rune(a)`, then `string(ts)`. -/
def readString : Reader (List Nat) := do
  let ts ← readIds
  pure (stringOfRunes (ts.map runeOfUint64))

/-- Body of the first loop of `loadBytes`; the maps are filled after the length check. -/
def readDir : Reader Dir := do
  let name ← readString
  let inode ← readUvarint
  let child ← readIds
  let files ← readIds
  pure { Name := name, Inode := inode, Child := child, Files := files,
         ChildMap := GoMap.empty, FilesMap := GoMap.empty }

/-- The statements `copy(Files[i].SHA512[:], s[n: n + sha512.Size]); n += sha512.Size`.  The
slice expression panics when its upper bound exceeds the slice (whose capacity is taken to
be its length). -/
def readHash : Reader (List Nat) := fun s n =>
  if s.length < n + sha512Size then .error .panic
  else .ok ((s.drop n).take sha512Size, (n + sha512Size) % U64)

/-- Body of the second loop of `loadBytes`, without the update of `SHA512Lookup`. -/
def readFile : Reader File := do
  let name ← readString
  let inode ← readUvarint
  let size ← readUvarint
  let nodeId ← readUvarint
  let nodePos ← readUvarint
  let hash ← readHash
  let nodes ← readIds
  pure { Name := name, Inode := inode, Size := size, SHA512 := hash,
         Storage := { NodeId := nodeId, NodePos := nodePos, Nodes := nodes } }

/-- Body of the third loop of `loadBytes`. -/
def readNode : Reader Node := do
  let size ← readUvarint
  let source ← readString
  pure { Size := size, Source := source }

/-- The part of `loadBytes` before the length check: the three tables and `Inodes`. -/
def readTables : Reader (List Dir × List File × List Node × Nat) := do
  let a ← readUvarint
  let dirs ← readMany readDir a
  let a ← readUvarint
  let files ← readMany readFile a
  let a ← readUvarint
  let nodes ← readMany readNode a
  let inodes ← readUvarint
  pure (dirs, files, nodes, inodes)

/-- The updates `SHA512Lookup[Files[i].SHA512] = uint64(i)` of the second loop, for the files
from index `i` on. -/
def rebuildLookup : List File → Nat → GoMap (List Nat) → GoMap (List Nat)
  | [], _, m => m
  | f :: fs, i, m => rebuildLookup fs (i + 1) (m.insert f.SHA512 i)

/-- The loop `for j ... { m[names[ids[j]]] = ids[j] }` that fills `ChildMap` (with the names
of `Dirs`) and `FilesMap` (with the names of `Files`); an id out of range panics. -/
def rebuildMap (names : List (List Nat)) : List Nat → GoMap (List Nat) → Option (GoMap (List Nat))
  | [], m => some m
  | c :: cs, m =>
    match names.get? c with
    | none => none
    | some name => rebuildMap names cs (m.insert name c)

/-- The loop over `Dirs` after the length check of `loadBytes`. -/
def rebuildDirs (dnames fnames : List (List Nat)) : List Dir → Option (List Dir)
  | [] => some []
  | d :: ds =>
    match rebuildMap dnames d.Child GoMap.empty, rebuildMap fnames d.Files GoMap.empty with
    | some cm, some fm =>
      match rebuildDirs dnames fnames ds with
      | some ds' => some ({ d with ChildMap := cm, FilesMap := fm } :: ds')
      | none => none
    | _, _ => none

/-- The statements `t := make([]T, n); if old != nil { copy(t, old) }`. -/
def resize {α : Type} (old : List α) (n : Nat) (zero : α) : List α :=
  old.take n ++ List.replicate (n - old.length) zero

/-- Conversion `int(n)` of a `uint` on a 64-bit platform. -/
def intOfUint (n : Nat) : Int :=
  if n % U64 < 2 ^ 63 then ((n % U64 : Nat) : Int) else ((n % U64 : Nat) : Int) - (U64 : Int)

/-- Function `loadBytes(s)`, run on the global state `old`.  `SHA512Lookup` is filled inside
the second loop of the source and here once the files are read, which gives the same map. -/
def loadBytes (old : FS) (s : List Nat) : Except GoError FS :=
  match readTables s 0 with
  | .error e => .error e
  | .ok ((dirs, files, nodes, inodes), n) =>
    if intOfUint n ≠ (s.length : Int) then .error .decodeError
    else
      match rebuildDirs (dirs.map (·.Name)) (files.map (·.Name)) dirs with
      | none => .error .panic
      | some dirs' =>
        .ok { Dirs := dirs'
              Files := files
              Nodes := nodes
              Inodes := inodes
              SHA512Lookup := rebuildLookup files 0 GoMap.empty
              NodesOpenCnt := resize old.NodesOpenCnt nodes.length 0
              NodesLastAccess := resize old.NodesLastAccess nodes.length 0
              NodesCached := resize old.NodesCached nodes.length false
              NodesRealCached := resize old.NodesRealCached nodes.length false
              CachedNodes := old.CachedNodes
              CacheTotalSize := old.CacheTotalSize }

/-- Whether a run ended with a result. -/
def isOk {ε α : Type} : Except ε α → Bool
  | .ok _ => true
  | .error _ => false

/-- Projection of a result through `f`, `none` on an error. -/
def okThen {ε α β : Type} (r : Except ε α) (f : α → β) : Option β :=
  match r with
  | .ok a => some (f a)
  | .error _ => none

/-- The error of a run, `none` on a result. -/
def errOf {ε α : Type} : Except ε α → Option ε
  | .ok _ => none
  | .error e => some e

/-! ## Read path (`FuseFileHandle`, `switchFile`, `readBytes`) -/

/-- A call that the read path makes into the block cache. -/
inductive CacheCall where
  | closeNodeFile (id : Nat)
  | getNodeFile (id : Nat)
  | preCache (id : Nat)
  deriving DecidableEq, Repr

/-- Type `FuseFileHandle`.  The `*os.File` field is modelled by the bytes of the open cache
file (`none` for `nil`) and by its file offset. -/
structure FuseFileHandle where
  Storage : StorageInfo
  Size : Nat
  Cur : Nat
  NodesSize : List Nat
  File : Option (List Nat)
  Offset : Nat
  deriving DecidableEq, Repr

/-- Method `switchFile(id)`.  `blocks id` is the content of the cache file that
`getNodeFile(id)` opens; the calls into the cache are returned in the order they are made. -/
def switchFile (blocks : Nat → List Nat) (f : FuseFileHandle) (id : Nat) :
    FuseFileHandle × List CacheCall :=
  if f.Cur = id then (f, [])
  else
    ({ f with File := some (blocks id), Offset := 0, Cur := id },
      (if f.Cur ≠ NullId then [CacheCall.closeNodeFile f.Cur] else [])
        ++ [CacheCall.getNodeFile id]
        ++ (match f.Storage.Nodes.get? ((id + 1) % U64) with
            | some nxt => [CacheCall.preCache nxt]
            | none => []))

/-- The call `f.File.Seek(int64(off), 0)`: a negative offset or a nil file is an error that
leaves the file offset as it is. -/
def seek (f : FuseFileHandle) (off : Nat) : FuseFileHandle :=
  if intOfUint off < 0 ∨ f.File = none then f else { f with Offset := off }

/-- The statements `buf := make([]byte, k); f.File.Read(buf)`: the buffer, zero where the
file has no more bytes, and the handle with the offset moved. -/
def readBuf (f : FuseFileHandle) (k : Nat) : List Nat × FuseFileHandle :=
  match f.File with
  | none => (List.replicate k 0, f)
  | some content =>
    let got := (content.drop f.Offset).take k
    (got ++ List.replicate (k - got.length) 0, { f with Offset := f.Offset + got.length })

/-- The loop of `readBytes` over the split list, from position `i` on, with the cursor `ul`
over the logical bytes and the output `res` collected so far. -/
def readLoop (blocks : Nat → List Nat) (l r : Nat) :
    List Nat → Nat → FuseFileHandle → Nat → List Nat → List CacheCall →
      Option (List Nat × FuseFileHandle × List CacheCall)
  | [], _, f, _, res, calls => some (res, f, calls)
  | id :: rest, i, f, ul, res, calls =>
    match f.NodesSize.get? i with
    | none => none
    | some sz =>
      let ur := (ul + sz) % U64
      let tl := if ul > l then ul else l
      let tr := if ur < r then ur else r
      if tl < tr then
        let sw := switchFile blocks f id
        let rd := readBuf (seek sw.1 ((tl + U64 - ul) % U64)) ((tr + U64 - tl) % U64)
        readLoop blocks l r rest (i + 1) rd.2 ur (res ++ rd.1) (calls ++ sw.2)
      else readLoop blocks l r rest (i + 1) f ur res calls

/-- Method `readBytes(l, r)`: the bytes returned, the handle afterwards and the calls made
into the cache; `none` when an index is out of range. -/
def readBytes (blocks : Nat → List Nat) (f : FuseFileHandle) (l r : Nat) :
    Option (List Nat × FuseFileHandle × List CacheCall) :=
  let r := if r > f.Size then f.Size else r
  if l ≥ r then some ([], f, [])
  else if f.Storage.Nodes.length = 0 then
    let sw := switchFile blocks f f.Storage.NodeId
    let rd := readBuf (seek sw.1 ((l + f.Storage.NodePos) % U64)) ((r + U64 - l) % U64)
    some (rd.1, rd.2, sw.2)
  else readLoop blocks l r f.Storage.Nodes 0 f 0 [] []

/-- The logical content of the file behind a handle: the bytes of its block from the offset
on for a Packed file, the listed blocks one after the other for a Split file. -/
def logicalContent (blocks : Nat → List Nat) (f : FuseFileHandle) : List Nat :=
  if f.Storage.Nodes.length = 0 then (blocks f.Storage.NodeId).drop f.Storage.NodePos
  else (f.Storage.Nodes.map blocks).flatten

/-- The bytes `[l, r)` of a byte sequence. -/
def byteRange (content : List Nat) (l r : Nat) : List Nat := (content.drop l).take (r - l)

/-- The open file of the handle is the cache file of its current block. -/
def FuseFileHandle.Consistent (blocks : Nat → List Nat) (f : FuseFileHandle) : Prop :=
  f.Cur = NullId ∨ f.File = some (blocks f.Cur)

/-- A handle as `Open` builds it for a file whose blocks are in place: the fields are values
of their Go types, a block id is never `NullId`, the recorded block sizes are the lengths of
the blocks and the blocks cover the file. -/
def FuseFileHandle.Covers (blocks : Nat → List Nat) (f : FuseFileHandle) : Prop :=
  f.Size < U64 ∧ f.Storage.NodeId < NullId ∧ f.Storage.NodePos < U64
    ∧ (∀ id ∈ f.Storage.Nodes, id < NullId)
    ∧ (if f.Storage.Nodes.length = 0 then
        f.Storage.NodePos + f.Size ≤ (blocks f.Storage.NodeId).length
          ∧ (blocks f.Storage.NodeId).length < 2 ^ 63
      else
        f.NodesSize = f.Storage.Nodes.map (fun id => (blocks id).length)
          ∧ f.Size ≤ (f.Storage.Nodes.map blocks).flatten.length
          ∧ (f.Storage.Nodes.map blocks).flatten.length < 2 ^ 63)

instance (blocks : Nat → List Nat) (f : FuseFileHandle) : Decidable (f.Consistent blocks) := by
  unfold FuseFileHandle.Consistent; infer_instance

instance (blocks : Nat → List Nat) (f : FuseFileHandle) : Decidable (f.Covers blocks) := by
  unfold FuseFileHandle.Covers; infer_instance

/-- Two blocks of 4 and 3 bytes, used in the examples. -/
def twoBlocks (id : Nat) : List Nat := if id = 0 then [10, 11, 12, 13] else [20, 21, 22]

/-- A freshly opened handle of a Split file of 7 bytes over the blocks 0 and 1. -/
def splitHandle : FuseFileHandle :=
  { Storage := { NodeId := 0, NodePos := 0, Nodes := [0, 1] }, Size := 7, Cur := NullId,
    NodesSize := [4, 3], File := none, Offset := 0 }

/-! ## Ingest (`addChild`, `addChildFile`, `linkExistsFile`, `makeBigFile`, `makeFiles`)

The functions run on the global state and return `none` when the Go code panics on an index
out of range.  Two parameters stand for what lies outside the program: `sha` is
`sha512.Sum512` (and `sha512OfFile`, which hashes the whole file), `disk` gives the content
of the source file at a path (`os.Open` is taken to succeed; a failure ends the process with
`log.Fatal`).  The upload that `go uploadNode(n)` starts is not part of these functions: it
fills `Nodes[n].Source` later. -/

/-- The zero value `Dir{}`. -/
def Dir.zero : Dir :=
  { Name := [], Inode := 0, Child := [], Files := [], ChildMap := GoMap.empty,
    FilesMap := GoMap.empty }

/-- Function `addChild(x, name)`: the new state and the index of the new directory.  The
directory `x` has to exist before the call: the zero value appended for the new directory has
a nil `ChildMap`, and an assignment into it panics. -/
def addChild (M : FS) (x : Nat) (name : List Nat) : Option (FS × Nat) :=
  let n := M.Dirs.length
  let dirs := M.Dirs ++ [Dir.zero]
  match M.Dirs.get? x with
  | none => none
  | some dx =>
    let dirs := dirs.set x
      { dx with Child := dx.Child ++ [n], ChildMap := dx.ChildMap.insert name n }
    match dirs.get? n with
    | none => none
    | some dn =>
      let inodes := (M.Inodes + 1) % U64
      let dn' : Dir :=
        { dn with
          Name := name
          Inode := inodes
          Child := []
          Files := []
          ChildMap := GoMap.empty
          FilesMap := GoMap.empty }
      some ({ M with Dirs := dirs.set n dn', Inodes := inodes }, n)

/-- Function `addChildFile(x, name)`: the new state and the index of the new file. -/
def addChildFile (M : FS) (x : Nat) (name : List Nat) : Option (FS × Nat) :=
  let n := M.Files.length
  let files := M.Files ++ [File.zero]
  match M.Dirs.get? x with
  | none => none
  | some dx =>
    let dx' : Dir := { dx with Files := dx.Files ++ [n], FilesMap := dx.FilesMap.insert name n }
    match files.get? n with
    | none => none
    | some fn =>
      let inodes := (M.Inodes + 1) % U64
      let fn' : File :=
        { fn with
          Name := name
          Inode := inodes
          Storage := { fn.Storage with Nodes := [] } }
      some ({ M with Files := files.set n fn', Dirs := M.Dirs.set x dx', Inodes := inodes }, n)

/-- Function `linkExistsFile(id)`: the new state and the boolean returned. -/
def linkExistsFile (M : FS) (id : Nat) : Option (FS × Bool) :=
  match M.Files.get? id with
  | none => none
  | some f =>
    match M.SHA512Lookup f.SHA512 with
    | some rid =>
      match M.Files.get? rid with
      | none => none
      | some rf =>
        some ({ M with Files := M.Files.set id { f with Storage := rf.Storage, Inode := rf.Inode } },
          true)
    | none => some (M, false)

/-- The loop of `makeBigFile` that cuts the file into `bc` blocks: `k` iterations are left,
`i` is the loop counter and `pos` the bytes consumed; every iteration appends a block to
`Nodes` and its id to the split list of the file. -/
def bigFileLoop (size bc : Nat) : Nat → Nat → Nat → List Node → List Nat → List Node × List Nat
  | 0, _, _, nodes, ids => (nodes, ids)
  | k + 1, i, pos, nodes, ids =>
    let bs := ((size + U64 - pos) % U64) / ((bc - i) % U64)
    bigFileLoop size bc k (i + 1) ((pos + bs) % U64)
      (nodes ++ [{ Size := bs, Source := [] }]) (ids ++ [nodes.length])

/-- The number of blocks `bc` that `makeBigFile` computes for a file of `size` bytes. -/
def blockCount (size : Nat) : Nat := ((size + MAX_BLOCK_SIZE - 1) % U64) / MAX_BLOCK_SIZE

/-- Function `makeBigFile(id, size, path, skipLink)`. -/
def makeBigFile (sha disk : List Nat → List Nat) (M : FS) (id size : Nat) (path : List Nat)
    (skipLink : Bool) : Option FS :=
  match M.Files.get? id with
  | none => none
  | some f0 =>
    let M1 := { M with Files := M.Files.set id { f0 with SHA512 := sha (disk path) } }
    match (if skipLink then some (M1, false) else linkExistsFile M1 id) with
    | none => none
    | some (M2, true) => some M2
    | some (M2, false) =>
      match M2.Files.get? id with
      | none => none
      | some f =>
        let bc := blockCount size
        let r := bigFileLoop size bc bc 0 0 M2.Nodes []
        let storage : StorageInfo :=
          if bc = 1 then { NodeId := r.2.headD 0, NodePos := 0, Nodes := [] }
          else { NodeId := 0, NodePos := 0, Nodes := r.2 }
        some { M2 with
               SHA512Lookup := M2.SHA512Lookup.insert f.SHA512 id
               Nodes := r.1
               Files := M2.Files.set id { f with Storage := storage } }

/-- The sizes `bs` that the loop of `makeBigFile` computes, in order. -/
def chunkSizes (size bc : Nat) : Nat → Nat → Nat → List Nat
  | 0, _, _ => []
  | k + 1, i, pos =>
    ((size + U64 - pos) % U64) / ((bc - i) % U64)
      :: chunkSizes size bc k (i + 1) ((pos + ((size + U64 - pos) % U64) / ((bc - i) % U64)) % U64)

/-- Type `NewFile`. -/
structure NewFile where
  Id : Nat
  Size : Nat
  Path : List Nat
  deriving DecidableEq, Repr

/-- The inner loop of `makeFiles` over `pending`: every pending file is given the block `n`
and the offset `pos`, and its hash is entered into `SHA512Lookup`. -/
def assignPending (n : Nat) : List NewFile → Nat → FS → Option FS
  | [], _, M => some M
  | p :: ps, pos, M =>
    match M.Files.get? p.Id with
    | none => none
    | some f =>
      assignPending n ps ((pos + p.Size) % U64)
        { M with
          Files := M.Files.set p.Id { f with Storage := { f.Storage with NodeId := n, NodePos := pos } }
          SHA512Lookup := M.SHA512Lookup.insert f.SHA512 p.Id }

/-- The block of `makeFiles` that writes the buffer as one block: the pending files are
assigned to the block `len(Nodes)`, then the block is appended to `Nodes`. -/
def flushPending (M : FS) (buf : List Nat) (pending : List NewFile) : Option FS :=
  match assignPending M.Nodes.length pending 0 M with
  | none => none
  | some M' => some { M' with Nodes := M'.Nodes ++ [{ Size := buf.length, Source := [] }] }

/-- The loop of `makeFiles` over the sorted slice, with the buffer `buf` and the list
`pending`; the result is the state and the value returned (the files still pending). -/
def makeFilesLoop (sha disk : List Nat → List Nat) (force skipLink : Bool) :
    List NewFile → FS → List Nat → List NewFile → Option (FS × List NewFile)
  | [], M, _, pending => some (M, pending)
  | x :: rest, M, buf, pending =>
    match M.Files.get? x.Id with
    | none => none
    | some f =>
      match (if skipLink then
              some ({ M with Files := M.Files.set x.Id { f with SHA512 := sha (disk x.Path) } }, false)
            else
              linkExistsFile
                { M with Files := M.Files.set x.Id { f with SHA512 := sha (disk x.Path) } } x.Id) with
      | none => none
      | some (M2, linked) =>
        let buf' := if linked then buf else buf ++ disk x.Path
        let pending' := if linked then pending else pending ++ [x]
        if MIN_BLOCK_SIZE ≤ buf'.length ∨ (rest = [] ∧ force = true ∧ 0 < pending'.length) then
          match flushPending M2 buf' pending' with
          | none => none
          | some M3 => makeFilesLoop sha disk force skipLink rest M3 [] []
        else makeFilesLoop sha disk force skipLink rest M2 buf' pending'

/-- Function `makeFiles(s, force, skipLink)`.  `sort.Sort` orders the slice by `Size`; it is
not stable, so the order of files of equal size is not determined by the source.  This
definition uses a stable insertion sort; the statements about `makeFilesLoop` hold for
every sorted order. -/
def makeFiles (sha disk : List Nat → List Nat) (M : FS) (s : List NewFile) (force skipLink : Bool) :
    Option (FS × List NewFile) :=
  makeFilesLoop sha disk force skipLink (s.insertionSort (fun a b => a.Size ≤ b.Size)) M [] []

/-- A stand-in for SHA-512 in the examples: the content cut or zero-padded to 64 bytes (it
tells apart the contents the examples use). -/
def toyHash (content : List Nat) : List Nat :=
  (content ++ List.replicate sha512Size 0).take sha512Size

/-- The state after `clear()` and `addChildFile(0, name)`. -/
def stateWithFile (name : List Nat) : FS :=
  match addChildFile (clear FS.init) 0 name with
  | some r => r.1
  | none => clear FS.init

/-- The statement `Files[t].Size = sz` that follows `addChildFile` in `getNewFiles`. -/
def setSize (M : FS) (t sz : Nat) : Option FS :=
  match M.Files.get? t with
  | none => none
  | some f => some { M with Files := M.Files.set t { f with Size := sz } }

/-- The file branch of `getNewFiles` for a list of source files `(name, size)`:
`addChildFile(0, name)` followed by `Files[t].Size = sz`. -/
def addFiles : List (List Nat × Nat) → FS → Option FS
  | [], M => some M
  | (name, sz) :: rest, M =>
    match addChildFile M 0 name with
    | none => none
    | some (M1, t) =>
      match setSize M1 t sz with
      | none => none
      | some M2 => addFiles rest M2

/-- A source directory with two files of the same content. -/
def diskTwins (_ : List Nat) : List Nat := [1, 2, 3]

/-- The state after `clear()` and the walk over the two files `a` and `b` of 3 bytes. -/
def twinsState : Option FS := addFiles [([0x61], 3), ([0x62], 3)] (clear FS.init)

/-- A 64-byte hash used in the examples. -/
def hashA : List Nat := List.replicate sha512Size 0xAA

/-- A metadata state with one Split file of 1 GiB over the blocks 0 and 1, as `makeBigFile`
and the uploads leave it. -/
def splitFileState : FS :=
  { FS.init with
    Dirs := [{ Name := [0x2F], Inode := 1, Child := [], Files := [0],
               ChildMap := GoMap.empty, FilesMap := GoMap.empty.insert [0x61] 0 }]
    Files := [{ Name := [0x61], Inode := 2, Size := 1073741824, SHA512 := hashA,
                Storage := { NodeId := 0, NodePos := 0, Nodes := [0, 1] } }]
    Nodes := [{ Size := 536870912, Source := [0x73, 0x30] },
              { Size := 536870912, Source := [0x73, 0x31] }]
    Inodes := 2
    SHA512Lookup := GoMap.empty.insert hashA 0 }

/-- The state in the middle of a second ingest of the same content: file `a` (3 bytes) was
ingested by `makeFiles` with `force`, then the walk added the record of a file `b`. -/
def secondIngestState : FS :=
  match (addFiles [([0x61], 3)] (clear FS.init)).bind
      (fun M => makeFiles toyHash diskTwins M [{ Id := 0, Size := 3, Path := [0x61] }] true false) with
  | none => clear FS.init
  | some r =>
    match addFiles [([0x62], 3)] r.1 with
    | none => clear FS.init
    | some M => M

/-- The record of file `a` in `secondIngestState`: packed at offset 0 of block 0. -/
def twinA : File :=
  { Name := [0x61], Inode := 2, Size := 3, SHA512 := toyHash [1, 2, 3],
    Storage := { NodeId := 0, NodePos := 0, Nodes := [] } }

/-- The record of file `b` in `secondIngestState`: fresh from `addChildFile`. -/
def twinB : File := { File.zero with Name := [0x62], Inode := 3, Size := 3 }

/-! ## Reachable metadata states -/

/-- One call of an operation that creates or fills records during ingest.  `makeFiles` is
represented by its loop on an arbitrary order of the batch, which covers every order that
`sort.Sort` can produce. -/
inductive IngestStep (sha disk : List Nat → List Nat) : FS → FS → Prop where
  | addChild (M M' : FS) (x n : Nat) (name : List Nat) :
      addChild M x name = some (M', n) → IngestStep sha disk M M'
  | addChildFile (M M' : FS) (x n : Nat) (name : List Nat) :
      addChildFile M x name = some (M', n) → IngestStep sha disk M M'
  | linkExistsFile (M M' : FS) (id : Nat) (b : Bool) :
      linkExistsFile M id = some (M', b) → IngestStep sha disk M M'
  | makeFiles (M M' : FS) (st pending : List NewFile) (force skipLink : Bool) :
      makeFilesLoop sha disk force skipLink st M [] [] = some (M', pending) →
      IngestStep sha disk M M'
  | makeBigFile (M M' : FS) (id size : Nat) (path : List Nat) (skipLink : Bool) :
      makeBigFile sha disk M id size path skipLink = some M' → IngestStep sha disk M M'

/-- The metadata states that ingest reaches from the initial state of `clear()`. -/
inductive Reachable (sha disk : List Nat → List Nat) : FS → Prop where
  | clear (old : FS) : Reachable sha disk (clear old)
  | step (M M' : FS) : Reachable sha disk M → IngestStep sha disk M M' → Reachable sha disk M'

/-- No two distinct records among all directories and files carry the same inode. -/
def InodesUnique (M : FS) : Prop :=
  (M.Dirs.map (·.Inode) ++ M.Files.map (·.Inode)).Nodup

instance (M : FS) : Decidable (InodesUnique M) := by
  unfold InodesUnique; infer_instance

/-- The operations between `M` and `M'` created no record and assigned no fresh inode:
directories and `Inodes` are the same and every file of `M'` carries the inode of a file of
`M`. -/
def SameInodes (M M' : FS) : Prop :=
  M'.Dirs = M.Dirs ∧ M'.Inodes = M.Inodes ∧ M'.Files.length = M.Files.length
    ∧ ∀ f' ∈ M'.Files, ∃ f ∈ M.Files, f'.Inode = f.Inode

/-- The inode invariant of ingest: `Inodes` counts the records, every inode in use lies in
`[1, Inodes]`, the directories carry pairwise distinct inodes and no file carries the inode
of a directory. -/
def InodeInv (M : FS) : Prop :=
  M.Inodes = M.Dirs.length + M.Files.length
    ∧ (M.Dirs.map (·.Inode)).Nodup
    ∧ (∀ v ∈ M.Dirs.map (·.Inode), 1 ≤ v ∧ v ≤ M.Inodes)
    ∧ (∀ v ∈ M.Files.map (·.Inode), 1 ≤ v ∧ v ≤ M.Inodes)
    ∧ (∀ v ∈ M.Dirs.map (·.Inode), v ∉ M.Files.map (·.Inode))

/-- The state after two ingests of the same 3 bytes: `addChildFile(0, "a")` and `makeFiles`
with `force`, then `addChildFile(0, "b")` and `makeFiles` with `force`. -/
def relinkedState : FS :=
  match addChildFile (clear FS.init) 0 [0x61] with
  | none => clear FS.init
  | some r1 =>
    match makeFilesLoop toyHash diskTwins true false [{ Id := r1.2, Size := 3, Path := [0x61] }]
        r1.1 [] [] with
    | none => clear FS.init
    | some r2 =>
      match addChildFile r2.1 0 [0x62] with
      | none => clear FS.init
      | some r3 =>
        match makeFilesLoop toyHash diskTwins true false
            [{ Id := r3.2, Size := 3, Path := [0x62] }] r3.1 [] [] with
        | none => clear FS.init
        | some r4 => r4.1

/-! ## Block cache (`cache`, `preCache`, `getNodeFile`, `closeNodeFile`, `realCache`)

The functions run on the global state under the two locks, so each is one atomic step;
`none` is a panic on an index out of range.  The clock value
`time.Now().UnixNano() / int64(time.Millisecond)` is the parameter `now`. -/

/-- The inner loop of `cache` over `CachedNodes` from position `i` on: `oldest` and `pos`
are the variables of the source (`pos = -1` is `none`). -/
def scanOldest (M : FS) : List Nat → Nat → Nat → Option Nat → Option (Option Nat)
  | [], _, _, pos => some pos
  | c :: cs, i, oldest, pos =>
    match M.NodesOpenCnt.get? c with
    | none => none
    | some cnt =>
      if cnt = 0 then
        match M.NodesLastAccess.get? c with
        | none => none
        | some la =>
          if la < oldest then scanOldest M cs (i + 1) la (some i)
          else scanOldest M cs (i + 1) oldest pos
      else scanOldest M cs (i + 1) oldest pos

/-- The removal of the entry at position `pos` from the cache: swap with the last entry,
shorten `CachedNodes`, clear the two flags of the removed block `rid` and subtract its size.
The result is the new state and `rid`. -/
def removeAt (M : FS) (pos : Nat) : Option (FS × Nat) :=
  let last := M.CachedNodes.length - 1
  match M.CachedNodes.get? pos, M.CachedNodes.get? last with
  | some a, some b =>
    let swapped := if pos ≠ last then (M.CachedNodes.set pos b).set last a else M.CachedNodes
    match swapped.get? last with
    | none => none
    | some rid =>
      if rid < M.NodesCached.length ∧ rid < M.NodesRealCached.length then
        match M.Nodes.get? rid with
        | none => none
        | some nd =>
          some ({ M with
                  CachedNodes := swapped.take last
                  NodesCached := M.NodesCached.set rid false
                  NodesRealCached := M.NodesRealCached.set rid false
                  CacheTotalSize := (M.CacheTotalSize + U64 - nd.Size % U64) % U64 }, rid)
      else none
  | _, _ => none

/-- One iteration of the loop `for CacheTotalSize > CACHE_LIMIT` once its condition holds:
`some none` is the `break` (no entry can be removed), `some (some (M', rid))` the removal
of the block `rid`. -/
def evictOne (M : FS) : Option (Option (FS × Nat)) :=
  match scanOldest M M.CachedNodes 0 NullId none with
  | none => none
  | some none => some none
  | some (some pos) =>
    match removeAt M pos with
    | none => none
    | some r => some (some r)

/-- The loop `for CacheTotalSize > CACHE_LIMIT`, with the removed blocks in order.  The
first argument bounds the number of iterations; every iteration but a `break` shortens
`CachedNodes`, so `len(CachedNodes) + 1` iterations are enough (`evictLoop_exit`). -/
def evictLoop : Nat → FS → Option (FS × List Nat)
  | 0, M => some (M, [])
  | fuel + 1, M =>
    if CACHE_LIMIT < M.CacheTotalSize then
      match evictOne M with
      | none => none
      | some none => some (M, [])
      | some (some (M', rid)) =>
        match evictLoop fuel M' with
        | none => none
        | some (M'', rids) => some (M'', rid :: rids)
    else some (M, [])

/-- The statement `NodesLastAccess[id] = now` that ends `cache`. -/
def setLastAccess (now : Nat) (M : FS) (id : Nat) : Option FS :=
  if id < M.NodesLastAccess.length then
    some { M with NodesLastAccess := M.NodesLastAccess.set id (now % U64) }
  else none

/-- Function `cache(id)` with the list of blocks it removed and whether it started a
download (`go realCache(id)`). -/
def cacheTrace (now : Nat) (M : FS) (id : Nat) : Option (FS × List Nat × Bool) :=
  match M.NodesCached.get? id with
  | none => none
  | some true =>
    match setLastAccess now M id with
    | none => none
    | some M' => some (M', [], false)
  | some false =>
    match evictLoop (M.CachedNodes.length + 1) M with
    | none => none
    | some (M1, rids) =>
      match M1.Nodes.get? id with
      | none => none
      | some nd =>
        if id < M1.NodesCached.length then
          match setLastAccess now
              { M1 with
                NodesCached := M1.NodesCached.set id true
                CachedNodes := M1.CachedNodes ++ [id]
                CacheTotalSize := (M1.CacheTotalSize + nd.Size) % U64 } id with
          | none => none
          | some M' => some (M', rids, true)
        else none

/-- Function `cache(id)`, also `preCache(id)`, which calls it under the locks. -/
def cache (now : Nat) (M : FS) (id : Nat) : Option FS :=
  (cacheTrace now M id).map (·.1)

/-- The locked section of `getNodeFile(id)`: `cache(id)` and `NodesOpenCnt[id]++`.  The
function then waits until `NodesRealCached[id]` is set and opens the cache file. -/
def getNodeFile (now : Nat) (M : FS) (id : Nat) : Option FS :=
  match cache now M id with
  | none => none
  | some M1 =>
    match M1.NodesOpenCnt.get? id with
    | none => none
    | some cnt => some { M1 with NodesOpenCnt := M1.NodesOpenCnt.set id ((cnt + 1) % U64) }

/-- Function `closeNodeFile(id, f)`: `NodesOpenCnt[id]--`. -/
def closeNodeFile (M : FS) (id : Nat) : Option FS :=
  match M.NodesOpenCnt.get? id with
  | none => none
  | some cnt => some { M with NodesOpenCnt := M.NodesOpenCnt.set id ((cnt + U64 - 1) % U64) }

/-- The end of `realCache(id)`, when the download is complete: `NodesRealCached[id] = true`. -/
def realCacheDone (M : FS) (id : Nat) : Option FS :=
  if id < M.NodesRealCached.length then
    some { M with NodesRealCached := M.NodesRealCached.set id true }
  else none

/-- One step of the block cache. -/
inductive CacheStep : FS → FS → Prop where
  | touch (M M' : FS) (now id : Nat) : cache now M id = some M' → CacheStep M M'
  | open (M M' : FS) (now id : Nat) : getNodeFile now M id = some M' → CacheStep M M'
  | close (M M' : FS) (id : Nat) : closeNodeFile M id = some M' → CacheStep M M'
  | downloaded (M M' : FS) (id : Nat) : realCacheDone M id = some M' → CacheStep M M'

/-- The cache when the program has loaded its metadata: nothing cached, nothing open, the
four arrays as long as `Nodes`. -/
def EmptyCache (M : FS) : Prop :=
  M.CachedNodes = [] ∧ M.CacheTotalSize = 0
    ∧ M.NodesCached = List.replicate M.Nodes.length false
    ∧ M.NodesRealCached = List.replicate M.Nodes.length false
    ∧ M.NodesOpenCnt = List.replicate M.Nodes.length 0
    ∧ M.NodesLastAccess.length = M.Nodes.length

/-- The cache states reachable from an empty cache. -/
inductive CacheReachable : FS → Prop where
  | empty (M : FS) : EmptyCache M → CacheReachable M
  | step (M M' : FS) : CacheReachable M → CacheStep M M' → CacheReachable M'

/-- The empty cache over `n` blocks of `size` bytes each. -/
def uniformCache (n size : Nat) : FS :=
  { FS.init with
    Nodes := List.replicate n { Size := size, Source := [0x73] }
    NodesOpenCnt := List.replicate n 0
    NodesLastAccess := List.replicate n 0
    NodesCached := List.replicate n false
    NodesRealCached := List.replicate n false }

/-- The calls `preCache(0)`, ..., `preCache(k - 1)` in this order, at the times 1, ..., k. -/
def touchFirst : Nat → FS → Option FS
  | 0, M => some M
  | k + 1, M =>
    match touchFirst k M with
    | none => none
    | some M' => cache (k + 1) M' k

/-- The cached block `c` is a candidate of the eviction scan: its open count is 0 and its
last access is `la`. -/
def Cand (M : FS) (c la : Nat) : Prop :=
  M.NodesOpenCnt.get? c = some 0 ∧ M.NodesLastAccess.get? c = some la

/-- The iterations of the eviction loop that remove a block, one after the other: from `M`
the blocks `rids` are removed in this order and the state is then `M'`. -/
inductive EvictRun : FS → List Nat → FS → Prop where
  | done (M : FS) : EvictRun M [] M
  | step (M M1 M' : FS) (rid : Nat) (rids : List Nat) :
      CACHE_LIMIT < M.CacheTotalSize → evictOne M = some (some (M1, rid)) →
      EvictRun M1 rids M' → EvictRun M (rid :: rids) M'

/-- The size of block `c` in the table `Nodes` (0 for an index out of range). -/
def nodeSize (M : FS) (c : Nat) : Nat :=
  match M.Nodes.get? c with
  | some nd => nd.Size
  | none => 0

/-- The invariant of the cache bookkeeping: the four arrays are as long as `Nodes`, every
cached id is an index of `Nodes`, and `CacheTotalSize` is the sum of the sizes of the cached
blocks (as a `uint64`). -/
def CacheInv (M : FS) : Prop :=
  M.NodesCached.length = M.Nodes.length ∧ M.NodesRealCached.length = M.Nodes.length
    ∧ M.NodesOpenCnt.length = M.Nodes.length ∧ M.NodesLastAccess.length = M.Nodes.length
    ∧ (∀ c ∈ M.CachedNodes, c < M.Nodes.length)
    ∧ M.CacheTotalSize = (M.CachedNodes.map (nodeSize M)).sum % U64

/-- The state of `uniformCache n size` after the first `j` blocks were touched in order at
the times 1, ..., j without any removal. -/
def touchedCache (n size j : Nat) : FS :=
  { uniformCache n size with
    NodesCached := (List.range n).map (fun i => decide (i < j))
    NodesLastAccess := (List.range n).map (fun i => if i < j then i + 1 else 0)
    CachedNodes := List.range j
    CacheTotalSize := j * size }

/-- A cache over 4 blocks of 512 GiB in which block 0 was opened at time 1 and is still
open, and the blocks 1 and 2 were touched at the times 2 and 3. -/
def pinnedCache : FS :=
  match getNodeFile 1 (uniformCache 4 549755813888) 0 with
  | none => FS.init
  | some M1 =>
    match cache 2 M1 1 with
    | none => FS.init
    | some M2 =>
      match cache 3 M2 2 with
      | none => FS.init
      | some M3 => M3

/-- The result of `cache(3)` at time 4 in `pinnedCache`: the state, the removed blocks and
the download flag. -/
def evictedTrace : FS × List Nat × Bool :=
  match cacheTrace 4 pinnedCache 3 with
  | some r => r
  | none => (FS.init, [], false)

/-- The state after `cache(3)` at time 4 in the cache over 4 blocks of 512 GiB whose blocks
0, 1 and 2 were touched at the times 1, 2 and 3. -/
def afterFourthTouch : FS :=
  match cache 4 (touchedCache 4 549755813888 3) 3 with
  | some M => M
  | none => FS.init

/-! ## Sequences of cache operations -/

/-- One operation on the cache: the locked section of `preCache(id)` or `getNodeFile(id)` at
clock value `now`, `closeNodeFile(id, f)`, or the end of the download `realCache(id)`. -/
inductive CacheOp where
  | preCache (now id : Nat)
  | getNodeFile (now id : Nat)
  | closeNodeFile (id : Nat)
  | realCacheDone (id : Nat)
  deriving DecidableEq, Repr

/-- What one operation did: the blocks it removed from the cache and the block whose download
it started (`go realCache(id)`), if any. -/
structure CacheEvent where
  removed : List Nat
  started : Option Nat
  deriving DecidableEq, Repr

/-- One operation with its event. -/
def opTrace (M : FS) : CacheOp → Option (FS × CacheEvent)
  | CacheOp.preCache now id =>
    match cacheTrace now M id with
    | none => none
    | some r => some (r.1, { removed := r.2.1, started := if r.2.2 then some id else none })
  | CacheOp.getNodeFile now id =>
    match cacheTrace now M id with
    | none => none
    | some r =>
      match r.1.NodesOpenCnt.get? id with
      | none => none
      | some cnt =>
        some ({ r.1 with NodesOpenCnt := r.1.NodesOpenCnt.set id ((cnt + 1) % U64) },
          { removed := r.2.1, started := if r.2.2 then some id else none })
  | CacheOp.closeNodeFile id =>
    match closeNodeFile M id with
    | none => none
    | some M' => some (M', { removed := [], started := none })
  | CacheOp.realCacheDone id =>
    match realCacheDone M id with
    | none => none
    | some M' => some (M', { removed := [], started := none })

/-- A sequence of operations with the list of their events. -/
def runOps : FS → List CacheOp → Option (FS × List CacheEvent)
  | M, [] => some (M, [])
  | M, op :: ops =>
    match opTrace M op with
    | none => none
    | some (M1, e) =>
      match runOps M1 ops with
      | none => none
      | some (M', es) => some (M', e :: es)

/-- The number of downloads of block `id` started in a list of events. -/
def downloadsOf (id : Nat) (es : List CacheEvent) : Nat :=
  (es.filter (fun e => decide (e.started = some id))).length

/-! ## Prefetch of the read path -/

/-- The blocks that a list of calls into the cache prefetches (the `preCache` calls). -/
def prefetched : List CacheCall → List Nat
  | [] => []
  | CacheCall.preCache id :: cs => id :: prefetched cs
  | _ :: cs => prefetched cs

/-- A freshly opened handle of a Split file of 9 bytes over the blocks 1, 2 and 3: the file
was stored when block 0 existed already. -/
def laterSplitHandle : FuseFileHandle :=
  { Storage := { NodeId := 0, NodePos := 0, Nodes := [1, 2, 3] }, Size := 9, Cur := NullId,
    NodesSize := [3, 3, 3], File := none, Offset := 0 }

/-! ## Path lookup (`getChild`, `getChildFile`, `getPath`) -/

/-- Function `getChild(id, name)`; `none` is the panic of `Dirs[id]` out of range. -/
def getChild (M : FS) (id : Nat) (name : List Nat) : Option Nat :=
  match M.Dirs.get? id with
  | none => none
  | some d =>
    match d.ChildMap name with
    | some val => some val
    | none => some NullId

/-- Function `getChildFile(id, name)`. -/
def getChildFile (M : FS) (id : Nat) (name : List Nat) : Option Nat :=
  match M.Dirs.get? id with
  | none => none
  | some d =>
    match d.FilesMap name with
    | some val => some val
    | none => some NullId

/-- The call `strings.Split(path, "/")` on the bytes of `path`. -/
def splitSlash : List Nat → List (List Nat)
  | [] => [[]]
  | c :: cs =>
    if c = 0x2F then [] :: splitSlash cs
    else
      match splitSlash cs with
      | [] => [[c]]
      | seg :: segs => (c :: seg) :: segs

/-- The loop of `getPath` over the segments `s[i], s[i+1], ...` with the variable `cur`. -/
def getPathLoop (M : FS) : List (List Nat) → Nat → Option (Nat × Nat)
  | [], cur => some (cur, 0)
  | seg :: rest, cur =>
    match getChildFile M cur seg with
    | none => none
    | some t =>
      if t ≠ NullId then some (NullId, 2)
      else
        match getChild M cur seg with
        | none => none
        | some t => if t = NullId then some (NullId, 1) else getPathLoop M rest t

/-- Function `getPath(path)`: the pair of the directory id and the status. -/
def getPath (M : FS) (path : List Nat) : Option (Nat × Nat) :=
  getPathLoop M ((splitSlash path).drop 1) 0

/-- The path `/s1/.../sk` of the segments `s1, ..., sk`. -/
def pathOf (segs : List (List Nat)) : List Nat :=
  (segs.map (fun s => 0x2F :: s)).flatten

/-- The segment `seg` names the child directory `t` of the directory `c`: `ChildMap` of `c`
has the entry `t` for it (`NullId` is no entry, as in `getChild`). -/
def NamesDir (M : FS) (c : Nat) (seg : List Nat) (t : Nat) : Prop :=
  ∃ d, M.Dirs.get? c = some d ∧ d.ChildMap seg = some t ∧ t ≠ NullId

/-- The segment `seg` names a file of the directory `c`. -/
def NamesFile (M : FS) (c : Nat) (seg : List Nat) : Prop :=
  ∃ d t, M.Dirs.get? c = some d ∧ d.FilesMap seg = some t ∧ t ≠ NullId

/-- Every segment in turn names a child directory of the directory reached so far: from `c`
the segments lead to the directory `d`. -/
inductive Resolves (M : FS) : Nat → List (List Nat) → Nat → Prop where
  | nil (c : Nat) : Resolves M c [] c
  | cons (c : Nat) (seg : List Nat) (rest : List (List Nat)) (t d : Nat) :
      NamesDir M c seg t → Resolves M t rest d → Resolves M c (seg :: rest) d

/-- As `Resolves`, and no segment names a file of the directory in which it is looked up. -/
inductive Descends (M : FS) : Nat → List (List Nat) → Nat → Prop where
  | nil (c : Nat) : Descends M c [] c
  | cons (c : Nat) (seg : List Nat) (rest : List (List Nat)) (t d : Nat) :
      ¬ NamesFile M c seg → NamesDir M c seg t → Descends M t rest d →
      Descends M c (seg :: rest) d

/-- No directory has a name that is both a file and a child directory of it. -/
def NoClash (M : FS) : Prop :=
  ∀ c seg t, NamesDir M c seg t → ¬ NamesFile M c seg

/-- The state after `addChildFile(0, "x")` and `addChild(0, "x")` on the initial state: the
root has a file and a child directory of the same name, as `dfsCheck` leaves it when the
source has a directory named like a file of the destination. -/
def clashState : FS :=
  match addChildFile (clear FS.init) 0 [0x78] with
  | none => clear FS.init
  | some r =>
    match addChild r.1 0 [0x78] with
    | none => clear FS.init
    | some r2 => r2.1

/-- The state after `addChild(0, "d")` and `addChildFile(1, "f")` on the initial state: the
tree `/d/f`. -/
def treeState : FS :=
  match addChild (clear FS.init) 0 [0x64] with
  | none => clear FS.init
  | some r =>
    match addChildFile r.1 r.2 [0x66] with
    | none => clear FS.init
    | some r2 => r2.1

/-! ## The varint format in the words of the specification -/

/-- The little-endian base-128 encoding of `x`: 7 value bits per byte, the least significant
group first, the high bit set on every byte except the last. -/
def leb128 (x : Nat) : List Nat :=
  if x < 128 then [x] else (x % 128 + 128) :: leb128 (x / 128)
termination_by x
decreasing_by omega

/-- The number that a list of bytes stands for when the low 7 bits of each byte are a base-128
digit, least significant first. -/
def leb128Value : List Nat → Nat
  | [] => 0
  | b :: bs => b % 128 + 128 * leb128Value bs

/-! ## Upload check (`checkUploaded`) -/

/-- The value of an `int` after an arithmetic operation with the mathematical result `v`
(64-bit two's complement). -/
def int64 (v : Int) : Int := (v + 9223372036854775808) % 18446744073709551616 - 9223372036854775808

/-- The statement `nodeUsed[id]++`; `none` is the panic of an index out of range. -/
def bump (used : List Int) (id : Nat) : Option (List Int) :=
  match used.get? id with
  | none => none
  | some v => some (used.set id (int64 (v + 1)))

/-- The loop `for j ... { nodeUsed[Files[i].Storage.Nodes[j]]++ }`. -/
def bumpAll : List Nat → List Int → Option (List Int)
  | [], used => some used
  | id :: ids, used =>
    match bump used id with
    | none => none
    | some u => bumpAll ids u

/-- The first loop of `checkUploaded` over the files. -/
def countRefs : List File → List Int → Option (List Int)
  | [], used => some used
  | f :: fs, used =>
    match (if f.Storage.Nodes.length = 0 then bump used f.Storage.NodeId
           else bumpAll f.Storage.Nodes used) with
    | none => none
    | some u => countRefs fs u

/-- The second loop of `checkUploaded` over the nodes from index `i` on, with the variable
`res`. -/
def scanNodes (used : List Int) : List Node → Nat → Bool → Option Bool
  | [], _, res => some res
  | nd :: rest, i, res =>
    if nd.Source = [] then
      match used.get? i with
      | none => none
      | some v => scanNodes used rest (i + 1) (if 0 < v then false else res)
    else scanNodes used rest (i + 1) res

/-- Function `checkUploaded(st, pr)` (the flag `pr` only prints).  A negative `st` makes
`Nodes[i]` panic in the first iteration of the second loop. -/
def checkUploaded (M : FS) (st : Int) : Option Bool :=
  match countRefs M.Files (List.replicate M.Nodes.length 0) with
  | none => none
  | some used =>
    if st < 0 then none
    else scanNodes used (M.Nodes.drop st.toNat) st.toNat true

/-- The block ids that the first loop of `checkUploaded` counts for the file `f`. -/
def fileRefs (f : File) : List Nat :=
  if f.Storage.Nodes.length = 0 then [f.Storage.NodeId] else f.Storage.Nodes

/-- The file `f` references the block `i`: as the block id of a Packed file (one with an
empty split list) or as a member of the split list. -/
def References (f : File) (i : Nat) : Prop :=
  (f.Storage.Nodes = [] ∧ f.Storage.NodeId = i) ∨ i ∈ f.Storage.Nodes

/-- A state with an uploaded block 0 that holds the file `a` and a block 1 without source:
`second` is the storage of the file `b`. -/
def uploadState (second : StorageInfo) : FS :=
  { FS.init with
    Files := [{ File.zero with Name := [0x61], Storage := { NodeId := 0, NodePos := 0, Nodes := [] } },
              { File.zero with Name := [0x62], Storage := second }]
    Nodes := [{ Size := 3, Source := [0x73] }, { Size := 3, Source := [] }] }

/-! ## The fix path (`dfsCheck`) -/

/-- The file branch of the loop of `dfsCheck(a, b, id)` for a source file `fn` of `sz` bytes;
`pathA` and `pathB` are `a + "/" + fn` and `b + "/" + fn`.  The result is the state and the
entries appended to `res`.  In the branch `t == NullId` the statement
`t := addChildFile(id, fn)` declares a new variable `t` for that block, so the `t` that
`makeBigFile` and `NewFile` receive below is the one assigned by `getChildFile`. -/
def dfsCheckFile (sha disk : List Nat → List Nat) (M : FS) (id : Nat) (fn : List Nat) (sz : Nat)
    (pathA pathB : List Nat) : Option (FS × List NewFile) :=
  match getChildFile M id fn with
  | none => none
  | some t =>
    match (if t = NullId then
            match addChildFile M id fn with
            | none => none
            | some (M1, t1) =>
              match setSize M1 t1 sz with
              | none => none
              | some M2 => some (M2, true)
          else some (M, decide (sha (disk pathA) ≠ sha (disk pathB)))) with
    | none => none
    | some (M2, flag) =>
      if flag then
        if MIN_BLOCK_SIZE ≤ sz then
          match makeBigFile sha disk M2 t sz pathB true with
          | none => none
          | some M3 => some (M3, [])
        else some (M2, [{ Id := t, Size := sz, Path := pathB }])
      else some (M2, [])

/-! ## The backend slot pool (`backend.go`: `CacheFile`, `MoveFile`, `WaitAll`)

The slice `servicesUsed` is the state; a call is taken on its own, with no other call
changing the pool while it runs.  `perm` is the permutation `rand.Perm(len(services))`. -/

/-- The outcome of a call on the slot pool: `returned used` when the call returns and leaves
`servicesUsed` as given, `waiting` when no slot is free (the call polls every 20 ms and does
not return while the pool stays as it is), `panicked` when the call panics. -/
inductive SlotResult where
  | returned (used : List Bool)
  | waiting
  | panicked
  deriving DecidableEq, Repr

/-- The loop `for i := 0; i < len(services); i++` over `ts`: the first `ts[i]` whose slot is
not in use (`some none` when there is none, `none` for an index out of range). -/
def findSlot (used : List Bool) : List Nat → Option (Option Nat)
  | [] => some none
  | t :: ts =>
    match used.get? t with
    | none => none
    | some false => some (some t)
    | some true => findSlot used ts

/-- Function `CacheFile(src, dst, sz)`.  With an empty `src` it creates the file and returns;
otherwise `download` cuts `src` at its first `|` (a panic when there is none), the download
is retried until it succeeds, and the slot is released. -/
def CacheFile (perm : List Nat) (used : List Bool) (src : List Nat) : SlotResult :=
  match findSlot used perm with
  | none => SlotResult.panicked
  | some none => SlotResult.waiting
  | some (some sid) =>
    if src = [] then SlotResult.returned (used.set sid true)
    else if 0x7C ∈ src then SlotResult.returned ((used.set sid true).set sid false)
    else SlotResult.panicked

/-- Function `MoveFile(src, id)`: the upload is retried until it succeeds, then the slot is
released. -/
def MoveFile (perm : List Nat) (used : List Bool) : SlotResult :=
  match findSlot used perm with
  | none => SlotResult.panicked
  | some none => SlotResult.waiting
  | some (some sid) => SlotResult.returned ((used.set sid true).set sid false)

/-- The exit condition of the loop of `WaitAll`: no slot is in use. -/
def WaitAllDone (used : List Bool) : Bool := !(used.any (fun b => b))

/-! ## Vocabulary of the round-trip statements -/

/-- The reader `rd` reads the value `v` from the bytes `enc`, wherever they stand in an input
shorter than `2^64` bytes, and leaves the cursor right behind them. -/
def Decodes {α : Type} (rd : Reader α) (enc : List Nat) (v : α) : Prop :=
  ∀ pre rest : List Nat, (pre ++ (enc ++ rest)).length < U64 →
    rd (pre ++ (enc ++ rest)) pre.length = .ok (v, pre.length + enc.length)

/-- A string that the conversions `[]rune(s)` and `string(runes)` give back unchanged, that
is, well-formed UTF-8. -/
def validString (s : List Nat) : Prop := stringOfRunes (runesOfString s) = s

instance (s : List Nat) : Decidable (validString s) := by
  unfold validString; infer_instance

/-- Every entry is a `uint64`. -/
def validIds (xs : List Nat) : Prop := ∀ x ∈ xs, x < U64

instance (xs : List Nat) : Decidable (validIds xs) := by
  unfold validIds; infer_instance

/-- The fields of a `Dir` are values of their Go types and its name is well-formed. -/
def Dir.Valid (d : Dir) : Prop :=
  validString d.Name ∧ d.Inode < U64 ∧ validIds d.Child ∧ validIds d.Files

instance (d : Dir) : Decidable d.Valid := by
  unfold Dir.Valid; infer_instance

/-- The fields of a `File` are values of their Go types (the hash has `sha512.Size` bytes)
and its name is well-formed. -/
def File.Valid (f : File) : Prop :=
  validString f.Name ∧ f.Inode < U64 ∧ f.Size < U64 ∧ f.Storage.NodeId < U64
    ∧ f.Storage.NodePos < U64 ∧ f.SHA512.length = sha512Size ∧ validIds f.Storage.Nodes

instance (f : File) : Decidable f.Valid := by
  unfold File.Valid; infer_instance

/-- The fields of a `Node` are values of their Go types and its source is well-formed. -/
def Node.Valid (nd : Node) : Prop := nd.Size < U64 ∧ validString nd.Source

instance (nd : Node) : Decidable nd.Valid := by
  unfold Node.Valid; infer_instance

/-- A metadata state that `saveBytes` can write and `loadBytes` can read back: every record
is valid, the children and files of every directory are indices of `Dirs` and `Files`, and
the encoding fits a Go slice. -/
def FS.Valid (M : FS) : Prop :=
  (∀ d ∈ M.Dirs, d.Valid ∧ (∀ c ∈ d.Child, c < M.Dirs.length) ∧ (∀ c ∈ d.Files, c < M.Files.length))
    ∧ (∀ f ∈ M.Files, f.Valid) ∧ (∀ nd ∈ M.Nodes, nd.Valid) ∧ M.Inodes < U64
    ∧ (saveBytes M).length < 2 ^ 63

instance (M : FS) : Decidable M.Valid := by
  unfold FS.Valid; infer_instance

/-- The persisted fields of a directory. -/
def Dir.record (d : Dir) : List Nat × Nat × List Nat × List Nat :=
  (d.Name, d.Inode, d.Child, d.Files)

/-- A directory as the first loop of `loadBytes` leaves it, with empty maps. -/
def Dir.bare (d : Dir) : Dir :=
  { d with ChildMap := GoMap.empty, FilesMap := GoMap.empty }

/-- The last entry of `ids` whose record, in the table with the names `names`, is called
`name`. -/
def lastNamed (names : List (List Nat)) (ids : List Nat) (name : List Nat) : Option Nat :=
  ids.reverse.find? (fun c => names.get? c = some name)

/-- The highest index of a file of `files` (numbered from `i`) whose hash is `h`. -/
def lastWithHash (files : List File) (i : Nat) (h : List Nat) : Option Nat :=
  ((files.enumFrom i).reverse.find? (fun p => p.2.SHA512 = h)).map (·.1)

/-- Equality of two metadata states in every component the round-trip property names: the
three tables, `Inodes`, the name maps of every directory and the hash index. -/
def SameMetadata (L M : FS) : Prop :=
  L.Dirs.map Dir.record = M.Dirs.map Dir.record
    ∧ L.Dirs.map (·.ChildMap) = M.Dirs.map (·.ChildMap)
    ∧ L.Dirs.map (·.FilesMap) = M.Dirs.map (·.FilesMap)
    ∧ L.Files = M.Files ∧ L.Nodes = M.Nodes ∧ L.Inodes = M.Inodes
    ∧ L.SHA512Lookup = M.SHA512Lookup

/-- A metadata state as ingest leaves it after two files `a` and `b` with the same content:
`b` was linked to `a` by `linkExistsFile` (same storage and inode) and the hash index, which
a link does not touch, still maps the hash to file 0. -/
def linkedState : FS :=
  { FS.init with
    Dirs := [{ Name := [0x2F], Inode := 1, Child := [], Files := [0, 1],
               ChildMap := GoMap.empty,
               FilesMap := (GoMap.empty.insert [0x61] 0).insert [0x62] 1 }]
    Files := [{ Name := [0x61], Inode := 2, Size := 3, SHA512 := hashA,
                Storage := { NodeId := 0, NodePos := 0, Nodes := [] } },
              { Name := [0x62], Inode := 2, Size := 3, SHA512 := hashA,
                Storage := { NodeId := 0, NodePos := 0, Nodes := [] } }]
    Nodes := [{ Size := 3, Source := [0x69, 0x64] }]
    Inodes := 3
    SHA512Lookup := GoMap.empty.insert hashA 0 }

/-! # Theorems -/

example : appendUvarint [] 300 = [0xAC, 0x02] := by decide
example : getUvarint [0xAC, 0x02, 7] = (300, 2) := by decide
example : getUvarint [] = (0, 0) := by decide
example : getUvarint [0x80] = (0, 0) := by decide
example : runesOfString [0x2F, 0xC3, 0xA9, 0xFF] = [0x2F, 0xE9, 0xFFFD] := by decide
example : stringOfRunes (runesOfString [0x2F, 0xC3, 0xA9, 0xFF]) = [0x2F, 0xC3, 0xA9, 0xEF, 0xBF, 0xBD] := by
  decide

example : saveBytes (clear FS.init) = [1, 1, 47, 1, 0, 0, 0, 0, 1] := by decide
example : okThen (loadBytes FS.init [1, 1, 47, 1, 0, 0, 0, 0, 1]) (·.Inodes) = some 1 := by decide
example : okThen (loadBytes FS.init [1, 1, 47, 1, 0, 0, 0, 0]) (·.Inodes) = some 0 := by decide
example : okThen (loadBytes FS.init [1, 1, 47, 1]) (·.Inodes) = some 0 := by decide
example : errOf (loadBytes FS.init [1, 1, 47, 1, 0, 0, 0, 0, 1, 0]) = some .decodeError := by decide
example : errOf (loadBytes FS.init [1, 1, 47, 1, 0, 0, 0, 0x80]) = some .decodeError := by decide

/-! ## The varint codec -/

theorem or_shiftLeft_eq_add (acc v sh : Nat) (h : acc < 2 ^ sh) :
    acc ||| (v <<< sh) = acc + v * 2 ^ sh := by
  rw [Nat.shiftLeft_eq, Nat.lor_comm, Nat.mul_comm, ← Nat.mul_add_lt_is_or h, Nat.add_comm]

set_option maxRecDepth 100000 in
theorem byte_or_and_aux : ∀ y, y < 256 → ((y ||| 0x80) &&& 0x7f = y % 128 ∧ 0x80 ≤ (y ||| 0x80)
    ∧ (y ||| 0x80) < 256) := by
  decide

theorem continuation_byte (x : Nat) :
    ((x % 256) ||| 0x80) &&& 0x7f = x % 128 ∧ 0x80 ≤ ((x % 256) ||| 0x80)
      ∧ ((x % 256) ||| 0x80) < 256 := by
  have h := byte_or_and_aux (x % 256) (Nat.mod_lt _ (by norm_num))
  refine ⟨?_, h.2.1, h.2.2⟩
  rw [h.1]
  omega

theorem putUvarintLoop_length_pos (room x : Nat) (h : 0 < room) :
    0 < (putUvarintLoop room x).length := by
  cases room with
  | zero => omega
  | succ r =>
    unfold putUvarintLoop
    split <;> simp

theorem putUvarintLoop_length_le (room x : Nat) : (putUvarintLoop room x).length ≤ room := by
  induction room generalizing x with
  | zero => simp [putUvarintLoop]
  | succ r ih =>
    unfold putUvarintLoop
    split
    · simp only [List.length_cons]
      have := ih (x >>> 7)
      omega
    · simp

theorem uvarintLoop_put (room : Nat) : ∀ (x acc i : Nat) (rest : List Nat),
    i + room = 10 → 0 < room → x < 2 ^ (64 - 7 * i) → acc < 2 ^ (7 * i) →
    uvarintLoop (putUvarintLoop room x ++ rest) acc (7 * i) i
      = (acc + x * 2 ^ (7 * i), ((i + (putUvarintLoop room x).length : Nat) : Int)) := by
  induction room with
  | zero => intro x acc i rest _ h; omega
  | succ r ih =>
    intro x acc i rest hi _ hx hacc
    have hi9 : i ≤ 9 := by omega
    unfold putUvarintLoop
    by_cases hge : 0x80 ≤ x
    · have hi8 : i ≤ 8 := by
        by_contra hc
        have : i = 9 := by omega
        subst this
        norm_num at hx
        omega
      obtain ⟨hb1, hb2, -⟩ := continuation_byte x
      rw [if_pos hge, List.cons_append, uvarintLoop, if_neg (by simp [MaxVarintLen64]; omega),
        if_neg (by omega), hb1, or_shiftLeft_eq_add _ _ _ hacc]
      have h7 : 7 * i + 7 = 7 * (i + 1) := by ring
      have hp : 2 ^ (7 * (i + 1)) = 2 ^ (7 * i) * 128 := by
        rw [← h7, pow_add]; norm_num
      have hq : 2 ^ (64 - 7 * i) = 2 ^ (64 - 7 * (i + 1)) * 128 := by
        have : 64 - 7 * i = (64 - 7 * (i + 1)) + 7 := by omega
        rw [this, pow_add]; norm_num
      rw [h7, ih (x >>> 7) _ (i + 1) rest (by omega) (by omega)]
      · rw [Nat.shiftRight_eq_div_pow, hp]
        simp only [List.length_cons, Prod.mk.injEq]
        constructor
        · have := Nat.div_add_mod x 128
          norm_num
          nlinarith [Nat.div_add_mod x 128]
        · push_cast; ring
      · rw [hq] at hx
        rw [Nat.shiftRight_eq_div_pow, Nat.div_lt_iff_lt_mul (by norm_num)]
        exact hx
      · rw [hp]
        have : x % 128 < 128 := Nat.mod_lt _ (by norm_num)
        nlinarith
    · have hx128 : x < 128 := by omega
      have hmod : x % 256 = x := Nat.mod_eq_of_lt (by omega)
      rw [if_neg hge, hmod, List.cons_append, uvarintLoop, if_neg (by simp [MaxVarintLen64]; omega),
        if_pos (by omega), if_neg, or_shiftLeft_eq_add _ _ _ hacc]
      · simp only [List.length_cons, List.length_nil, Prod.mk.injEq]
        refine ⟨Nat.mod_eq_of_lt ?_, by push_cast; ring⟩
        have hq : 2 ^ 64 = 2 ^ (64 - 7 * i) * 2 ^ (7 * i) := by
          rw [← pow_add]; congr 1; omega
        have : x + 1 ≤ 2 ^ (64 - 7 * i) := hx
        have h2 : (x + 1) * 2 ^ (7 * i) ≤ 2 ^ (64 - 7 * i) * 2 ^ (7 * i) :=
          Nat.mul_le_mul_right _ this
        unfold U64
        rw [hq]
        nlinarith
      · rintro ⟨h9, h1⟩
        simp [MaxVarintLen64] at h9
        subst h9
        norm_num at hx
        omega

theorem getUvarint_appendUvarint (x : Nat) (rest : List Nat) (hx : x < U64) :
    getUvarint (appendUvarint [] x ++ rest) = (x, (appendUvarint [] x).length) := by
  unfold getUvarint appendUvarint
  have h := uvarintLoop_put MaxVarintLen64 x 0 0 rest (by simp [MaxVarintLen64])
    (by simp [MaxVarintLen64]) (by simpa [U64] using hx) (by norm_num)
  simp only [Nat.mul_zero, pow_zero, Nat.mul_one, Nat.zero_add, List.nil_append] at h ⊢
  rw [h]
  simp only [uintOfInt, Prod.mk.injEq, true_and]
  have hl := putUvarintLoop_length_le MaxVarintLen64 x
  simp only [MaxVarintLen64] at hl ⊢
  have : ((putUvarintLoop 10 x).length : Int) % (U64 : Int) = (putUvarintLoop 10 x).length := by
    apply Int.emod_eq_of_lt
    · omega
    · simp only [U64]; push_cast; omega
  rw [this]
  simp

/-! ## Readers undo the writers -/

theorem Decodes.pure_nil {α : Type} (v : α) : Decodes (pure v : Reader α) [] v := by
  intro pre rest _
  show Reader.pure v _ _ = _
  simp [Reader.pure]

theorem Decodes.bind {α β : Type} {rd : Reader α} {f : α → Reader β} {e1 e2 : List Nat}
    {v1 : α} {v2 : β} (h1 : Decodes rd e1 v1) (h2 : Decodes (f v1) e2 v2) :
    Decodes (rd >>= f) (e1 ++ e2) v2 := by
  intro pre rest hlen
  show Reader.bind rd f _ _ = _
  unfold Reader.bind
  have a1 := h1 pre (e2 ++ rest) (by simpa [List.append_assoc] using hlen)
  have a2 := h2 (pre ++ e1) rest (by simpa [List.append_assoc] using hlen)
  simp only [List.append_assoc, List.length_append] at a1 a2 ⊢
  rw [a1]
  simp only [a2, Nat.add_assoc]

theorem Decodes.map {α β : Type} {rd : Reader α} {e : List Nat} {v : α} (g : α → β)
    (h : Decodes rd e v) : Decodes (rd >>= fun a => pure (g a)) e (g v) := by
  have := Decodes.bind (f := fun a => pure (g a)) h (Decodes.pure_nil (g v))
  simpa using this

theorem decodes_readUvarint (x : Nat) (hx : x < U64) :
    Decodes readUvarint (appendUvarint [] x) x := by
  intro pre rest hlen
  unfold readUvarint
  rw [if_neg (by simp), List.drop_left, getUvarint_appendUvarint x rest hx]
  simp only [Except.ok.injEq, Prod.mk.injEq, true_and]
  apply Nat.mod_eq_of_lt
  simp only [List.length_append] at hlen
  omega

theorem decodes_readMany {α β : Type} (rd : Reader β) (enc : α → List Nat) (g : α → β)
    (vs : List α) (h : ∀ v ∈ vs, Decodes rd (enc v) (g v)) :
    Decodes (readMany rd vs.length) (vs.map enc).flatten (vs.map g) := by
  induction vs with
  | nil => exact Decodes.pure_nil []
  | cons v vs ih =>
    simp only [List.length_cons, List.map_cons, List.flatten_cons]
    unfold readMany
    refine Decodes.bind (h v (by simp)) ?_
    have := Decodes.bind (f := fun xs => pure (g v :: xs)) (ih (fun w hw => h w (by simp [hw])))
      (Decodes.pure_nil (g v :: vs.map g))
    simpa using this

theorem appendUvarint_eq (res : List Nat) (x : Nat) :
    appendUvarint res x = res ++ appendUvarint [] x := by
  simp [appendUvarint]

theorem appendUvarint_length_pos (x : Nat) : 0 < (appendUvarint [] x).length := by
  simpa [appendUvarint] using putUvarintLoop_length_pos MaxVarintLen64 x (by simp [MaxVarintLen64])

theorem foldl_append_eq {α : Type} (f : List Nat → α → List Nat)
    (hf : ∀ res v, f res v = res ++ f [] v) (vs : List α) (res : List Nat) :
    vs.foldl f res = res ++ (vs.map (f [])).flatten := by
  induction vs generalizing res with
  | nil => simp
  | cons v vs ih =>
    simp only [List.foldl_cons, List.map_cons, List.flatten_cons]
    rw [ih, hf res v, List.append_assoc]

theorem length_le_flatten {α : Type} (f : α → List Nat) (vs : List α)
    (hf : ∀ v, 0 < (f v).length) : vs.length ≤ (vs.map f).flatten.length := by
  induction vs with
  | nil => simp
  | cons v vs ih =>
    simp only [List.length_cons, List.map_cons, List.flatten_cons, List.length_append]
    have := hf v
    omega

theorem appendUvarints_eq (res xs : List Nat) :
    appendUvarints res xs = res ++ (xs.map (appendUvarint [])).flatten :=
  foldl_append_eq appendUvarint appendUvarint_eq xs res

theorem appendIds_nil (xs : List Nat) :
    appendIds [] xs = appendUvarint [] xs.length ++ (xs.map (appendUvarint [])).flatten := by
  simp [appendIds, appendUvarints_eq]

theorem appendIds_eq (res xs : List Nat) : appendIds res xs = res ++ appendIds [] xs := by
  rw [appendIds_nil]
  simp only [appendIds]
  rw [appendUvarints_eq, appendUvarint_eq, List.append_assoc]

theorem length_le_appendIds (xs : List Nat) : xs.length ≤ (appendIds [] xs).length := by
  rw [appendIds_nil, List.length_append]
  have := length_le_flatten (appendUvarint []) xs appendUvarint_length_pos
  omega

theorem decodes_readIds (xs : List Nat) (h : ∀ x ∈ xs, x < U64) :
    Decodes readIds (appendIds [] xs) xs := by
  intro pre rest hlen
  have hl : xs.length < U64 := by
    have := length_le_appendIds xs
    simp only [List.length_append] at hlen
    omega
  rw [appendIds_nil] at hlen ⊢
  have hm := decodes_readMany readUvarint (appendUvarint []) id xs
    (fun x hx => decodes_readUvarint x (h x hx))
  rw [List.map_id] at hm
  exact Decodes.bind (decodes_readUvarint xs.length hl) hm pre rest hlen

theorem decodeRune_bound (s : List Nat) : 0 ≤ (decodeRune s).1 ∧ (decodeRune s).1 < 2 ^ 31 := by
  unfold decodeRune
  split
  · simp [RuneError]
  · (repeat' split) <;> simp only [RuneError] <;> omega

theorem runesLoop_bound (k : Nat) : ∀ (s : List Nat), ∀ r ∈ runesLoop k s, 0 ≤ r ∧ r < 2 ^ 31 := by
  induction k with
  | zero => intro s r hr; simp [runesLoop] at hr
  | succ k ih =>
    intro s r hr
    unfold runesLoop at hr
    split at hr
    · simp at hr
    · rcases List.mem_cons.1 hr with h | h
      · rw [h]; exact decodeRune_bound _
      · exact ih _ r h

theorem rune_roundtrip (r : Int) (h0 : 0 ≤ r) (h1 : r < 2 ^ 31) :
    uint64OfRune r < U64 ∧ runeOfUint64 (uint64OfRune r) = r := by
  have hr : r % (U64 : Int) = r := Int.emod_eq_of_lt h0 (by simp only [U64]; push_cast; omega)
  unfold uint64OfRune runeOfUint64
  rw [hr]
  have h2 : r.toNat % 2 ^ 32 = r.toNat := Nat.mod_eq_of_lt (by omega)
  refine ⟨by simp only [U64]; omega, ?_⟩
  rw [h2, if_pos (by omega)]
  omega

theorem appendString_eq (res s : List Nat) : appendString res s = res ++ appendString [] s := by
  simp only [appendString]; exact appendIds_eq _ _

theorem decodes_readString (s : List Nat) (h : validString s) :
    Decodes readString (appendString [] s) s := by
  have hb := runesLoop_bound s.length s
  have h1 : ∀ x ∈ (runesOfString s).map uint64OfRune, x < U64 := by
    intro x hx
    obtain ⟨r, hr, rfl⟩ := List.mem_map.1 hx
    exact (rune_roundtrip r (hb r hr).1 (hb r hr).2).1
  have h2 : ((runesOfString s).map uint64OfRune).map runeOfUint64 = runesOfString s := by
    rw [List.map_map]
    conv_rhs => rw [← List.map_id (runesOfString s)]
    apply List.map_congr_left
    intro r hr
    exact (rune_roundtrip r (hb r hr).1 (hb r hr).2).2
  have := Decodes.map (fun ts => stringOfRunes (ts.map runeOfUint64)) (decodes_readIds _ h1)
  simp only [h2] at this
  rw [h] at this
  exact this

theorem appendDir_nil (d : Dir) :
    appendDir [] d = appendString [] d.Name ++ (appendUvarint [] d.Inode
      ++ (appendIds [] d.Child ++ appendIds [] d.Files)) := by
  simp only [appendDir]
  rw [appendIds_eq, appendIds_eq, appendUvarint_eq]
  simp only [List.append_assoc]

theorem appendDir_eq (res : List Nat) (d : Dir) : appendDir res d = res ++ appendDir [] d := by
  rw [appendDir_nil]
  simp only [appendDir]
  rw [appendIds_eq, appendIds_eq, appendUvarint_eq, appendString_eq]
  simp only [List.append_assoc]

theorem decodes_readDir (d : Dir) (h : d.Valid) : Decodes readDir (appendDir [] d) d.bare := by
  obtain ⟨hn, hi, hc, hf⟩ := h
  rw [appendDir_nil]
  unfold readDir
  refine Decodes.bind (decodes_readString _ hn) ?_
  refine Decodes.bind (decodes_readUvarint _ hi) ?_
  refine Decodes.bind (decodes_readIds _ hc) ?_
  exact Decodes.map (fun files => Dir.mk d.Name d.Inode d.Child files GoMap.empty GoMap.empty)
    (decodes_readIds _ hf)

theorem decodes_readHash (h : List Nat) (hl : h.length = sha512Size) : Decodes readHash h h := by
  intro pre rest hlen
  unfold readHash
  simp only [List.length_append] at hlen
  rw [if_neg (by simp only [List.length_append]; omega), List.drop_left, ← hl, List.take_left]
  simp only [Except.ok.injEq, Prod.mk.injEq, true_and]
  exact Nat.mod_eq_of_lt (by omega)

theorem appendFile_nil (f : File) :
    appendFile [] f = appendString [] f.Name ++ (appendUvarint [] f.Inode
      ++ (appendUvarint [] f.Size ++ (appendUvarint [] f.Storage.NodeId
      ++ (appendUvarint [] f.Storage.NodePos ++ (f.SHA512 ++ appendIds [] f.Storage.Nodes))))) := by
  simp only [appendFile]
  rw [appendIds_eq, appendUvarint_eq, appendUvarint_eq (appendUvarint _ _),
    appendUvarint_eq (appendUvarint _ _), appendUvarint_eq (appendString _ _)]
  simp only [List.append_assoc]

theorem appendFile_eq (res : List Nat) (f : File) : appendFile res f = res ++ appendFile [] f := by
  rw [appendFile_nil]
  simp only [appendFile]
  rw [appendIds_eq, appendUvarint_eq, appendUvarint_eq (appendUvarint _ _),
    appendUvarint_eq (appendUvarint _ _), appendUvarint_eq (appendString _ _), appendString_eq]
  simp only [List.append_assoc]

theorem decodes_readFile (f : File) (h : f.Valid) : Decodes readFile (appendFile [] f) f := by
  obtain ⟨hn, hi, hs, hid, hpos, hh, hnodes⟩ := h
  rw [appendFile_nil]
  unfold readFile
  refine Decodes.bind (decodes_readString _ hn) ?_
  refine Decodes.bind (decodes_readUvarint _ hi) ?_
  refine Decodes.bind (decodes_readUvarint _ hs) ?_
  refine Decodes.bind (decodes_readUvarint _ hid) ?_
  refine Decodes.bind (decodes_readUvarint _ hpos) ?_
  refine Decodes.bind (decodes_readHash _ hh) ?_
  exact Decodes.map (fun nodes => File.mk f.Name f.Inode f.Size f.SHA512
    (StorageInfo.mk f.Storage.NodeId f.Storage.NodePos nodes)) (decodes_readIds _ hnodes)

theorem appendNode_nil (nd : Node) :
    appendNode [] nd = appendUvarint [] nd.Size ++ appendString [] nd.Source := by
  simp only [appendNode]
  rw [appendString_eq]

theorem appendNode_eq (res : List Nat) (nd : Node) : appendNode res nd = res ++ appendNode [] nd := by
  rw [appendNode_nil]
  simp only [appendNode]
  rw [appendString_eq, appendUvarint_eq, List.append_assoc]

theorem decodes_readNode (nd : Node) (h : nd.Valid) : Decodes readNode (appendNode [] nd) nd := by
  obtain ⟨hs, hsrc⟩ := h
  rw [appendNode_nil]
  unfold readNode
  refine Decodes.bind (decodes_readUvarint _ hs) ?_
  exact Decodes.map (fun source => Node.mk nd.Size source) (decodes_readString _ hsrc)

/-! ## `loadBytes` after `saveBytes` -/

theorem saveBytes_eq (M : FS) :
    saveBytes M = appendUvarint [] M.Dirs.length ++ ((M.Dirs.map (appendDir [])).flatten
      ++ (appendUvarint [] M.Files.length ++ ((M.Files.map (appendFile [])).flatten
      ++ (appendUvarint [] M.Nodes.length ++ ((M.Nodes.map (appendNode [])).flatten
      ++ appendUvarint [] M.Inodes))))) := by
  simp only [saveBytes]
  rw [appendUvarint_eq, foldl_append_eq appendNode appendNode_eq, appendUvarint_eq,
    foldl_append_eq appendFile appendFile_eq, appendUvarint_eq,
    foldl_append_eq appendDir appendDir_eq]
  simp only [List.append_assoc]

theorem appendDir_length_pos (d : Dir) : 0 < (appendDir [] d).length := by
  rw [appendDir_nil]
  have := appendUvarint_length_pos d.Inode
  simp only [List.length_append]
  omega

theorem appendFile_length_pos (f : File) : 0 < (appendFile [] f).length := by
  rw [appendFile_nil]
  have := appendUvarint_length_pos f.Inode
  simp only [List.length_append]
  omega

theorem appendNode_length_pos (nd : Node) : 0 < (appendNode [] nd).length := by
  rw [appendNode_nil]
  have := appendUvarint_length_pos nd.Size
  simp only [List.length_append]
  omega

theorem decodes_readTables (M : FS) (hd : ∀ d ∈ M.Dirs, d.Valid) (hf : ∀ f ∈ M.Files, f.Valid)
    (hn : ∀ nd ∈ M.Nodes, nd.Valid) (hi : M.Inodes < U64) (hlen : (saveBytes M).length < U64) :
    Decodes readTables (saveBytes M) (M.Dirs.map Dir.bare, M.Files, M.Nodes, M.Inodes) := by
  rw [saveBytes_eq] at hlen ⊢
  have l1 := length_le_flatten (appendDir []) M.Dirs appendDir_length_pos
  have l2 := length_le_flatten (appendFile []) M.Files appendFile_length_pos
  have l3 := length_le_flatten (appendNode []) M.Nodes appendNode_length_pos
  simp only [List.length_append] at hlen
  have m1 := decodes_readMany readDir (appendDir []) Dir.bare M.Dirs
    (fun d h => decodes_readDir d (hd d h))
  have m2 := decodes_readMany readFile (appendFile []) id M.Files
    (fun f h => decodes_readFile f (hf f h))
  have m3 := decodes_readMany readNode (appendNode []) id M.Nodes
    (fun nd h => decodes_readNode nd (hn nd h))
  rw [List.map_id] at m2 m3
  unfold readTables
  refine Decodes.bind (decodes_readUvarint _ (by omega)) ?_
  refine Decodes.bind m1 ?_
  refine Decodes.bind (decodes_readUvarint _ (by omega)) ?_
  refine Decodes.bind m2 ?_
  refine Decodes.bind (decodes_readUvarint _ (by omega)) ?_
  refine Decodes.bind m3 ?_
  exact Decodes.map (fun inodes => (M.Dirs.map Dir.bare, M.Files, M.Nodes, inodes))
    (decodes_readUvarint _ hi)

theorem rebuildMap_spec (names : List (List Nat)) (cs : List Nat) :
    ∀ m : GoMap (List Nat), (∀ c ∈ cs, c < names.length) →
      ∃ m', rebuildMap names cs m = some m' ∧
        ∀ name, m' name = (lastNamed names cs name).or (m name) := by
  induction cs with
  | nil => intro m _; exact ⟨m, rfl, fun name => by simp [lastNamed]⟩
  | cons c cs ih =>
    intro m h
    have hc : c < names.length := h c (by simp)
    obtain ⟨nm, hnm⟩ : ∃ nm, names.get? c = some nm := ⟨_, List.get?_eq_get hc⟩
    obtain ⟨m', h1, h2⟩ := ih (m.insert nm c) (fun x hx => h x (by simp [hx]))
    refine ⟨m', by simp only [rebuildMap, hnm, h1], fun name => ?_⟩
    rw [h2 name]
    simp only [lastNamed, List.reverse_cons, List.find?_append, List.find?_singleton, hnm,
      GoMap.insert]
    cases List.find? (fun c => decide (names.get? c = some name)) cs.reverse with
    | some x => simp
    | none =>
      simp only [Option.none_or, Option.some.injEq, decide_eq_true_eq]
      by_cases hname : name = nm
      · simp [hname]
      · have : ¬ nm = name := fun h => hname h.symm
        simp [hname, this]

theorem rebuildDirs_spec (dn fn : List (List Nat)) (ds : List Dir)
    (h : ∀ d ∈ ds, (∀ c ∈ d.Child, c < dn.length) ∧ (∀ c ∈ d.Files, c < fn.length)) :
    ∃ ds', rebuildDirs dn fn ds = some ds' ∧ ds'.map Dir.record = ds.map Dir.record ∧
      ∀ d ∈ ds', ∀ name, d.ChildMap name = lastNamed dn d.Child name
        ∧ d.FilesMap name = lastNamed fn d.Files name := by
  induction ds with
  | nil => exact ⟨[], rfl, rfl, by simp⟩
  | cons d ds ih =>
    obtain ⟨ds', h1, h2, h3⟩ := ih (fun x hx => h x (by simp [hx]))
    obtain ⟨cm, c1, c2⟩ := rebuildMap_spec dn d.Child GoMap.empty (h d (by simp)).1
    obtain ⟨fm, f1, f2⟩ := rebuildMap_spec fn d.Files GoMap.empty (h d (by simp)).2
    refine ⟨{ d with ChildMap := cm, FilesMap := fm } :: ds', by simp only [rebuildDirs, c1, f1, h1],
      by simpa [Dir.record] using h2, ?_⟩
    intro x hx name
    rcases List.mem_cons.1 hx with rfl | hx
    · simp only [c2 name, f2 name, GoMap.empty, Option.or_none, and_self]
    · exact h3 x hx name

theorem rebuildLookup_spec (files : List File) :
    ∀ (i : Nat) (m : GoMap (List Nat)) (h : List Nat),
      rebuildLookup files i m h = (lastWithHash files i h).or (m h) := by
  induction files with
  | nil => intro i m h; simp [rebuildLookup, lastWithHash]
  | cons f fs ih =>
    intro i m h
    simp only [rebuildLookup, ih, lastWithHash, List.enumFrom_cons, List.reverse_cons,
      List.find?_append, List.find?_singleton, GoMap.insert]
    cases List.find? (fun p => decide (p.2.SHA512 = h)) (List.enumFrom (i + 1) fs).reverse with
    | some x => simp
    | none =>
      simp only [Option.map_none', Option.none_or, decide_eq_true_eq]
      by_cases hh : h = f.SHA512
      · simp [hh]
      · have : ¬ f.SHA512 = h := fun e => hh e.symm
        simp [hh, this]

theorem intOfUint_of_lt (n : Nat) (h : n < 2 ^ 63) : intOfUint n = (n : Int) := by
  unfold intOfUint
  have : n % U64 = n := Nat.mod_eq_of_lt (by simp only [U64]; omega)
  rw [this, if_pos h]

theorem resize_length {α : Type} (old : List α) (n : Nat) (z : α) : (resize old n z).length = n := by
  simp only [resize, List.length_append, List.length_take, List.length_replicate]
  omega

theorem loadBytes_saveBytes_eq (old M : FS) (hM : M.Valid) :
    ∃ ds', loadBytes old (saveBytes M) = .ok (FS.mk ds' M.Files M.Nodes M.Inodes
        (rebuildLookup M.Files 0 GoMap.empty)
        (resize old.NodesOpenCnt M.Nodes.length 0) (resize old.NodesLastAccess M.Nodes.length 0)
        (resize old.NodesCached M.Nodes.length false)
        (resize old.NodesRealCached M.Nodes.length false) old.CachedNodes old.CacheTotalSize)
      ∧ ds'.map Dir.record = M.Dirs.map Dir.record
      ∧ ∀ d ∈ ds', ∀ name,
          d.ChildMap name = lastNamed (M.Dirs.map (·.Name)) d.Child name
            ∧ d.FilesMap name = lastNamed (M.Files.map (·.Name)) d.Files name := by
  obtain ⟨hd, hf, hn, hi, hlen⟩ := hM
  have hlen64 : (saveBytes M).length < U64 := by simp only [U64]; omega
  have ht := decodes_readTables M (fun d h => (hd d h).1) hf hn hi hlen64 [] []
    (by simpa using hlen64)
  simp only [List.nil_append, List.append_nil, List.length_nil, Nat.zero_add] at ht
  have hnames : (M.Dirs.map Dir.bare).map (·.Name) = M.Dirs.map (·.Name) := by
    simp [Dir.bare]
  obtain ⟨ds', r1, r2, r3⟩ := rebuildDirs_spec (M.Dirs.map (·.Name)) (M.Files.map (·.Name))
    (M.Dirs.map Dir.bare) (by
      intro d hd'
      obtain ⟨d0, hd0, rfl⟩ := List.mem_map.1 hd'
      simpa [Dir.bare] using (hd d0 hd0).2)
  have hrec : (M.Dirs.map Dir.bare).map Dir.record = M.Dirs.map Dir.record := by
    simp [Dir.bare, Dir.record]
  refine ⟨ds', ?_, by rw [r2, hrec], r3⟩
  unfold loadBytes
  rw [ht]
  simp only [intOfUint_of_lt _ hlen, ne_eq, not_true_eq_false, if_false, hnames, r1]

set_option maxRecDepth 1000000 in
theorem linkedState_valid : linkedState.Valid := by decide

/-- C1 (as amended): for every valid metadata state `M` (well-formed names and sources,
64-byte hashes, children and files that are indices of the tables, an encoding that fits a
slice), `loadBytes (saveBytes M)` returns a state with the same directory records (name,
inode, children, files), the same `Files`, `Nodes` and `Inodes`; its name maps and its hash
index are the ones rebuilt from the sequences (a name maps to the last listed entry that
carries it, a hash to the highest-numbered file that carries it), and the four cache arrays
have the length of `Nodes`. -/
theorem loadBytes_saveBytes_roundtrip (old M : FS) (hM : M.Valid) :
    ∃ L, loadBytes old (saveBytes M) = .ok L
      ∧ L.Dirs.map Dir.record = M.Dirs.map Dir.record
      ∧ L.Files = M.Files ∧ L.Nodes = M.Nodes ∧ L.Inodes = M.Inodes
      ∧ (∀ d ∈ L.Dirs, ∀ name,
          d.ChildMap name = lastNamed (M.Dirs.map (·.Name)) d.Child name
            ∧ d.FilesMap name = lastNamed (M.Files.map (·.Name)) d.Files name)
      ∧ (∀ h, L.SHA512Lookup h = lastWithHash M.Files 0 h)
      ∧ L.NodesOpenCnt.length = M.Nodes.length ∧ L.NodesLastAccess.length = M.Nodes.length
      ∧ L.NodesCached.length = M.Nodes.length ∧ L.NodesRealCached.length = M.Nodes.length := by
  obtain ⟨ds', h1, h2, h3⟩ := loadBytes_saveBytes_eq old M hM
  refine ⟨_, h1, h2, rfl, rfl, rfl, h3, fun h => ?_, ?_, ?_, ?_, ?_⟩
  · simp only [rebuildLookup_spec, GoMap.empty, Option.or_none]
  all_goals exact resize_length _ _ _

/-- Instance of `loadBytes_saveBytes_roundtrip` at the state `linkedState`. -/
theorem loadBytes_saveBytes_roundtrip_witness :
    linkedState.Valid ∧ ∃ L, loadBytes FS.init (saveBytes linkedState) = .ok L
      ∧ L.Dirs.map Dir.record = linkedState.Dirs.map Dir.record
      ∧ L.Files = linkedState.Files ∧ L.Nodes = linkedState.Nodes
      ∧ L.Inodes = linkedState.Inodes
      ∧ (∀ d ∈ L.Dirs, ∀ name,
          d.ChildMap name = lastNamed (linkedState.Dirs.map (·.Name)) d.Child name
            ∧ d.FilesMap name = lastNamed (linkedState.Files.map (·.Name)) d.Files name)
      ∧ (∀ h, L.SHA512Lookup h = lastWithHash linkedState.Files 0 h)
      ∧ L.NodesOpenCnt.length = linkedState.Nodes.length
      ∧ L.NodesLastAccess.length = linkedState.Nodes.length
      ∧ L.NodesCached.length = linkedState.Nodes.length
      ∧ L.NodesRealCached.length = linkedState.Nodes.length :=
  ⟨linkedState_valid, loadBytes_saveBytes_roundtrip FS.init linkedState linkedState_valid⟩

/-- C1 (as stated) fails at `linkedState`: the state that `loadBytes` returns for its
encoding maps the shared hash to file 1, the original state maps it to file 0, so the two
are not equal in the hash index. -/
theorem loadBytes_saveBytes_hash_index_differs :
    ¬ ∃ L, loadBytes FS.init (saveBytes linkedState) = .ok L ∧ SameMetadata L linkedState := by
  rintro ⟨L, hL, hs⟩
  obtain ⟨ds', h1, -, -⟩ := loadBytes_saveBytes_eq FS.init linkedState linkedState_valid
  rw [hL] at h1
  have hLM := hs.2.2.2.2.2.2
  have h0 : linkedState.SHA512Lookup hashA = some 0 := by decide
  have h2 : rebuildLookup linkedState.Files 0 GoMap.empty hashA = some 1 := by decide
  injection h1 with h1
  rw [h1] at hLM
  simp only at hLM
  rw [hLM, h0] at h2
  exact absurd h2 (by decide)

/-! ## The length check of `loadBytes` -/

theorem loadBytes_trailing_bytes (old M : FS) (extra : List Nat) (hM : M.Valid)
    (he : extra ≠ []) (hlen : (saveBytes M ++ extra).length < 2 ^ 63) :
    loadBytes old (saveBytes M ++ extra) = .error .decodeError := by
  obtain ⟨hd, hf, hn, hi, hl⟩ := hM
  have hlen64 : (saveBytes M).length < U64 := by simp only [U64]; omega
  have ht := decodes_readTables M (fun d h => (hd d h).1) hf hn hi hlen64 [] extra
    (by simp only [List.nil_append, U64]; omega)
  simp only [List.nil_append, List.length_nil, Nat.zero_add] at ht
  have hpos : 0 < extra.length := List.length_pos.2 he
  unfold loadBytes
  rw [ht]
  simp only [intOfUint_of_lt _ hl, List.length_append]
  rw [if_pos]
  push_cast
  omega

/-- C2 (the code at the failing input): the 8 bytes `[1, 1, 47, 1, 0, 0, 0, 0]` are a proper
prefix of `saveBytes` of the initial state, which is `[1, 1, 47, 1, 0, 0, 0, 0, 1]`;
`loadBytes` does not reject them but returns a state with one directory, no files, no nodes
and `Inodes = 0` (the state saved had `Inodes = 1`). -/
theorem loadBytes_accepts_truncated :
    saveBytes (clear FS.init) = [1, 1, 47, 1, 0, 0, 0, 0] ++ [1]
      ∧ isOk (loadBytes FS.init [1, 1, 47, 1, 0, 0, 0, 0]) = true
      ∧ okThen (loadBytes FS.init [1, 1, 47, 1, 0, 0, 0, 0]) (fun L => L.Dirs.map Dir.record)
        = some [([0x2F], 1, [], [])]
      ∧ okThen (loadBytes FS.init [1, 1, 47, 1, 0, 0, 0, 0]) (fun L => (L.Files, L.Nodes))
        = some ([], [])
      ∧ okThen (loadBytes FS.init [1, 1, 47, 1, 0, 0, 0, 0]) (fun L => L.Inodes) = some 0
      ∧ (clear FS.init).Inodes = 1 := by
  decide

/-! ## The read path -/

example : (readBytes (fun id => if id = 0 then [10, 11, 12, 13] else [20, 21, 22])
    { Storage := { NodeId := 0, NodePos := 0, Nodes := [0, 1] }, Size := 7, Cur := NullId,
      NodesSize := [4, 3], File := none, Offset := 0 } 2 6).map (·.1) = some [12, 13, 20, 21] := by
  decide

theorem byteRange_append (A B : List Nat) (l r : Nat) (hlr : l < r) :
    byteRange (A ++ B) l r = byteRange A l r ++
      (if (if A.length > l then A.length else l) < (if A.length + B.length < r then A.length + B.length else r)
        then (B.drop ((if A.length > l then A.length else l) - A.length)).take
          ((if A.length + B.length < r then A.length + B.length else r)
            - (if A.length > l then A.length else l))
        else []) := by
  unfold byteRange
  rw [List.drop_append_eq_append_drop, List.take_append_eq_append_take, List.length_drop]
  congr 1
  by_cases h1 : A.length > l
  · simp only [h1, if_true]
    have e1 : l - A.length = 0 := by omega
    rw [e1, List.drop_zero, Nat.sub_self, List.drop_zero]
    by_cases h2 : A.length + B.length < r
    · simp only [h2, if_true]
      by_cases h3 : A.length < A.length + B.length
      · rw [if_pos h3, List.take_of_length_le (by omega), List.take_of_length_le (by omega)]
      · have : B.length = 0 := by omega
        rw [if_neg h3, List.length_eq_zero.1 this]; simp
    · simp only [h2, if_false]
      by_cases h3 : A.length < r
      · rw [if_pos h3]; congr 1; omega
      · rw [if_neg h3]
        have : r - l - (A.length - l) = 0 := by omega
        rw [this, List.take_zero]
  · simp only [h1, if_false]
    have e1 : r - l - (A.length - l) = r - l := by omega
    rw [e1]
    by_cases h2 : A.length + B.length < r
    · simp only [h2, if_true]
      by_cases h3 : l < A.length + B.length
      · rw [if_pos h3, List.take_of_length_le (by simp only [List.length_drop]; omega),
          List.take_of_length_le (by simp only [List.length_drop]; omega)]
      · rw [if_neg h3, List.drop_of_length_le (by omega), List.take_nil]
    · simp only [h2, if_false, hlr, if_true]

theorem switch_read (blocks : Nat → List Nat) (f : FuseFileHandle) (id off k : Nat)
    (hc : f.Consistent blocks) (hid : id < NullId) (hlen : (blocks id).length < 2 ^ 63)
    (hk : off + k ≤ (blocks id).length) :
    (readBuf (seek (switchFile blocks f id).1 off) k).1 = ((blocks id).drop off).take k
      ∧ (readBuf (seek (switchFile blocks f id).1 off) k).2.Consistent blocks
      ∧ (readBuf (seek (switchFile blocks f id).1 off) k).2.Storage = f.Storage
      ∧ (readBuf (seek (switchFile blocks f id).1 off) k).2.Size = f.Size
      ∧ (readBuf (seek (switchFile blocks f id).1 off) k).2.NodesSize = f.NodesSize := by
  have hsw : (switchFile blocks f id).1.File = some (blocks id)
      ∧ (switchFile blocks f id).1.Cur = id
      ∧ (switchFile blocks f id).1.Storage = f.Storage
      ∧ (switchFile blocks f id).1.Size = f.Size
      ∧ (switchFile blocks f id).1.NodesSize = f.NodesSize := by
    unfold switchFile
    by_cases h : f.Cur = id
    · rw [if_pos h]
      refine ⟨?_, h, rfl, rfl, rfl⟩
      rcases hc with h0 | h0
      · omega
      · rw [h0, h]
    · rw [if_neg h]
      exact ⟨rfl, rfl, rfl, rfl, rfl⟩
  generalize switchFile blocks f id = sw at hsw
  obtain ⟨h1, h2, h3, h4, h5⟩ := hsw
  have hoff : ¬ (intOfUint off < 0 ∨ sw.1.File = none) := by
    rw [intOfUint_of_lt off (by omega), h1]
    simp
  have hlen2 : min k ((blocks id).length - off) = k := by omega
  have hseek : seek sw.1 off = { sw.1 with Offset := off } := by
    unfold seek; rw [if_neg hoff]
  rw [hseek]
  simp only [readBuf, h1, List.length_take, List.length_drop, hlen2,
    Nat.sub_self, List.replicate_zero, List.append_nil, FuseFileHandle.Consistent, h2, h3, h4, h5,
    or_true, and_self]

theorem readLoop_spec (blocks : Nat → List Nat) (l r : Nat) (hlr : l < r) (hr : r < U64) :
    ∀ (rest done : List Nat) (f : FuseFileHandle) (calls : List CacheCall),
      f.NodesSize = (done ++ rest).map (fun id => (blocks id).length) →
      f.Consistent blocks → (∀ id ∈ rest, id < NullId) →
      ((done ++ rest).map blocks).flatten.length < 2 ^ 63 →
      ∃ f' calls', readLoop blocks l r rest done.length f (done.map blocks).flatten.length
            (byteRange (done.map blocks).flatten l r) calls
          = some (byteRange ((done ++ rest).map blocks).flatten l r, f', calls')
        ∧ f'.Consistent blocks ∧ f'.Storage = f.Storage ∧ f'.Size = f.Size
        ∧ f'.NodesSize = f.NodesSize := by
  intro rest
  induction rest with
  | nil =>
    intro done f calls _ hc _ _
    exact ⟨f, calls, by simp [readLoop], hc, rfl, rfl, rfl⟩
  | cons id rest ih =>
    intro done f calls hsz hc hids hlen
    have hget : f.NodesSize.get? done.length = some (blocks id).length := by
      rw [hsz, List.map_append, List.get?_eq_getElem?,
        List.getElem?_append_right (by simp)]
      simp
    have hsplit : ((done ++ id :: rest).map blocks).flatten
        = (done.map blocks).flatten ++ (blocks id ++ (rest.map blocks).flatten) := by simp
    have hdone : ((done ++ [id]).map blocks).flatten = (done.map blocks).flatten ++ blocks id := by
      simp
    have hassoc : done ++ id :: rest = (done ++ [id]) ++ rest := by simp
    rw [hsplit] at hlen
    simp only [List.length_append] at hlen
    have hur : ((done.map blocks).flatten.length + (blocks id).length) % U64
        = (done.map blocks).flatten.length + (blocks id).length :=
      Nat.mod_eq_of_lt (by simp only [U64]; omega)
    have hrange := byteRange_append (done.map blocks).flatten (blocks id) l r hlr
    unfold readLoop
    simp only [hget, hur]
    by_cases hlt : (if (done.map blocks).flatten.length > l then (done.map blocks).flatten.length else l)
        < (if (done.map blocks).flatten.length + (blocks id).length < r
            then (done.map blocks).flatten.length + (blocks id).length else r)
    · rw [if_pos hlt] at hrange ⊢
      set tl := (if (done.map blocks).flatten.length > l then (done.map blocks).flatten.length else l)
        with htl
      set tr := (if (done.map blocks).flatten.length + (blocks id).length < r
        then (done.map blocks).flatten.length + (blocks id).length else r) with htr
      have htl1 : (done.map blocks).flatten.length ≤ tl := by rw [htl]; split <;> omega
      have htr1 : tr ≤ (done.map blocks).flatten.length + (blocks id).length := by
        rw [htr]; split <;> omega
      have htr2 : tr ≤ r := by rw [htr]; split <;> omega
      simp only [U64] at hr
      have e1 : (tl + U64 - (done.map blocks).flatten.length) % U64
          = tl - (done.map blocks).flatten.length := by
        simp only [U64]; omega
      have e2 : (tr + U64 - tl) % U64 = tr - tl := by
        simp only [U64]; omega
      rw [e1, e2]
      obtain ⟨s1, s2, s3, s4, s5⟩ := switch_read blocks f id
        (tl - (done.map blocks).flatten.length) (tr - tl) hc (hids id (by simp)) (by omega)
        (by omega)
      rw [s1, ← hrange, ← hdone]
      have hl : (done.map blocks).flatten.length + (blocks id).length
          = ((done ++ [id]).map blocks).flatten.length := by rw [hdone]; simp
      rw [hl]
      have hlen' : (done ++ [id]).length = done.length + 1 := by simp
      rw [← hlen']
      obtain ⟨f', calls', g1, g2, g3, g4, g5⟩ := ih (done ++ [id]) _
        (calls ++ (switchFile blocks f id).2) (by rw [s5, hsz, hassoc]) s2
        (fun x hx => hids x (by simp [hx])) (by rw [← hassoc, hsplit]; simpa using hlen)
      refine ⟨f', calls', ?_, g2, by rw [g3, s3], by rw [g4, s4], by rw [g5, s5]⟩
      rw [g1, hassoc]
    · rw [if_neg hlt] at hrange ⊢
      rw [List.append_nil] at hrange
      rw [← hrange, ← hdone]
      have hl : (done.map blocks).flatten.length + (blocks id).length
          = ((done ++ [id]).map blocks).flatten.length := by rw [hdone]; simp
      rw [hl]
      have hlen' : (done ++ [id]).length = done.length + 1 := by simp
      rw [← hlen']
      obtain ⟨f', calls', g1, g2, g3, g4, g5⟩ := ih (done ++ [id]) f calls
        (by rw [hsz, hassoc]) hc
        (fun x hx => hids x (by simp [hx])) (by rw [← hassoc, hsplit]; simpa using hlen)
      refine ⟨f', calls', ?_, g2, g3, g4, g5⟩
      rw [g1, hassoc]

theorem byteRange_straddle (A a b B : List Nat) (l r : Nat) (h1 : A.length ≤ l)
    (h2 : l ≤ A.length + a.length) (h3 : A.length + a.length ≤ r)
    (h4 : r ≤ A.length + a.length + b.length) :
    byteRange (A ++ (a ++ (b ++ B))) l r
      = a.drop (l - A.length) ++ b.take (r - (A.length + a.length)) := by
  unfold byteRange
  have hd : (A ++ (a ++ (b ++ B))).drop l = a.drop (l - A.length) ++ (b ++ B) := by
    have e : l = A.length + (l - A.length) := by omega
    rw [e, List.drop_append, List.drop_append_of_le_length (by omega)]
    simp
  have hl : (a.drop (l - A.length)).length = a.length - (l - A.length) := List.length_drop _ _
  rw [hd, List.take_append_eq_append_take, List.take_of_length_le (by omega),
    List.take_append_of_le_length (by omega)]
  congr 2
  omega

/-- C3: for a handle whose recorded block sizes are the lengths of its blocks and whose
blocks cover the file, `readBytes(l, r)` returns exactly the bytes `[l, min(r, size))` of the
logical content (the block from the offset on for a Packed file, the listed blocks in order
for a Split file), which is the empty sequence when `l ≥ min(r, size)`; a range that starts
in one block of a Split file and ends in the next is the tail of the first followed by the
head of the second.  The handle stays consistent, so the statement applies to every later
read through it. -/
theorem readBytes_returns_range (blocks : Nat → List Nat) (f : FuseFileHandle) (l r : Nat)
    (hr : r < U64) (hcov : f.Covers blocks) (hc : f.Consistent blocks) :
    (∃ f' calls, readBytes blocks f l r
        = some (byteRange (logicalContent blocks f) l (min r f.Size), f', calls)
      ∧ f'.Consistent blocks ∧ f'.Storage = f.Storage ∧ f'.Size = f.Size
      ∧ f'.NodesSize = f.NodesSize)
    ∧ (min r f.Size ≤ l → byteRange (logicalContent blocks f) l (min r f.Size) = [])
    ∧ (∀ pre a b post, f.Storage.Nodes = pre ++ a :: b :: post →
        (pre.map blocks).flatten.length ≤ l →
        l ≤ (pre.map blocks).flatten.length + (blocks a).length →
        (pre.map blocks).flatten.length + (blocks a).length ≤ min r f.Size →
        min r f.Size ≤ (pre.map blocks).flatten.length + (blocks a).length + (blocks b).length →
        byteRange (logicalContent blocks f) l (min r f.Size)
          = (blocks a).drop (l - (pre.map blocks).flatten.length)
            ++ (blocks b).take (min r f.Size
                - ((pre.map blocks).flatten.length + (blocks a).length))) := by
  obtain ⟨hsize, hnid, hpos, hids, hcase⟩ := hcov
  have hmin : (if r > f.Size then f.Size else r) = min r f.Size := by
    split <;> omega
  refine ⟨?_, ?_, ?_⟩
  · unfold readBytes
    simp only [hmin]
    by_cases hl : l ≥ min r f.Size
    · rw [if_pos hl]
      refine ⟨f, [], ?_, hc, rfl, rfl, rfl⟩
      simp only [byteRange, Nat.sub_eq_zero_of_le hl, List.take_zero]
    · rw [if_neg hl]
      have hr' : min r f.Size < U64 := by omega
      by_cases hp : f.Storage.Nodes.length = 0
      · rw [if_pos hp] at hcase ⊢
        obtain ⟨hfit, hblen⟩ := hcase
        have e1 : (l + f.Storage.NodePos) % U64 = l + f.Storage.NodePos :=
          Nat.mod_eq_of_lt (by simp only [U64]; omega)
        have e2 : (min r f.Size + U64 - l) % U64 = min r f.Size - l := by
          simp only [U64] at hr' ⊢; omega
        rw [e1, e2]
        obtain ⟨s1, s2, s3, s4, s5⟩ := switch_read blocks f f.Storage.NodeId
          (l + f.Storage.NodePos) (min r f.Size - l) hc hnid hblen (by omega)
        refine ⟨(readBuf (seek (switchFile blocks f f.Storage.NodeId).1 (l + f.Storage.NodePos))
          (min r f.Size - l)).2, (switchFile blocks f f.Storage.NodeId).2, ?_, s2, s3, s4, s5⟩
        rw [s1]
        simp only [logicalContent, hp, if_true, byteRange, List.drop_drop]
        rw [Nat.add_comm]
      · rw [if_neg hp] at hcase ⊢
        obtain ⟨hsz, hfit, hblen⟩ := hcase
        obtain ⟨f', calls', g1, g2, g3, g4, g5⟩ := readLoop_spec blocks l (min r f.Size)
          (by omega) hr' f.Storage.Nodes [] f [] (by simpa using hsz) hc hids (by simpa using hblen)
        refine ⟨f', calls', ?_, g2, g3, g4, g5⟩
        simp only [List.map_nil, List.flatten_nil, List.length_nil, List.nil_append, byteRange,
          List.drop_nil, List.take_nil] at g1
        simp only [logicalContent, hp, if_false]
        exact g1
  · intro hl
    simp only [byteRange, Nat.sub_eq_zero_of_le hl, List.take_zero]
  · intro pre a b post hn h1 h2 h3 h4
    have hne : ¬ f.Storage.Nodes.length = 0 := by rw [hn]; simp
    simp only [logicalContent]
    rw [if_neg hne]
    simp only [hn, List.map_append, List.map_cons, List.flatten_append, List.flatten_cons]
    exact byteRange_straddle _ _ _ _ l _ h1 h2 h3 h4

/-- Instance of `readBytes_returns_range`: the range `[2, 6)` of `splitHandle`. -/
theorem readBytes_returns_range_witness :
    (∃ f' calls, readBytes twoBlocks splitHandle 2 6
        = some (byteRange (logicalContent twoBlocks splitHandle) 2 (min 6 splitHandle.Size), f', calls)
      ∧ f'.Consistent twoBlocks ∧ f'.Storage = splitHandle.Storage ∧ f'.Size = splitHandle.Size
      ∧ f'.NodesSize = splitHandle.NodesSize)
    ∧ byteRange (logicalContent twoBlocks splitHandle) 2 (min 6 splitHandle.Size)
        = [12, 13, 20, 21] :=
  ⟨(readBytes_returns_range twoBlocks splitHandle 2 6 (by decide) (by decide) (by decide)).1,
    by decide⟩

/-! ## Splitting a large file -/

example : (bigFileLoop 1610612736 3 3 0 0 [] []).1.map (·.Size)
    = [536870912, 536870912, 536870912] := by decide

example : (bigFileLoop 10 3 3 0 0 [] []).1.map (·.Size) = [3, 3, 4] := by decide

theorem bigFileLoop_eq (size bc : Nat) : ∀ (k i pos : Nat) (nodes : List Node) (ids : List Nat),
    bigFileLoop size bc k i pos nodes ids
      = (nodes ++ (chunkSizes size bc k i pos).map (fun bs => { Size := bs, Source := [] }),
         ids ++ List.range' nodes.length k) := by
  intro k
  induction k with
  | zero => intro i pos nodes ids; simp [bigFileLoop, chunkSizes]
  | succ k ih =>
    intro i pos nodes ids
    simp only [bigFileLoop, chunkSizes, ih, List.map_cons, List.append_assoc, List.singleton_append,
      List.length_append, List.length_singleton, List.range'_succ]

theorem chunkSizes_spec (size bc q u : Nat) (hsize : size < U64) (hbc : bc < U64) :
    ∀ (k i pos : Nat), i + k = bc → pos ≤ size → q * k ≤ size - pos → size - pos ≤ u * k →
      (chunkSizes size bc k i pos).length = k
        ∧ (chunkSizes size bc k i pos).sum = size - pos
        ∧ ∀ b ∈ chunkSizes size bc k i pos, q ≤ b ∧ b ≤ u := by
  intro k
  induction k with
  | zero =>
    intro i pos _ _ _ h
    simp only [chunkSizes, List.length_nil, List.sum_nil, List.not_mem_nil, false_implies,
      implies_true, and_true, true_and]
    omega
  | succ k ih =>
    intro i pos hik hpos hlo hhi
    have e1 : (size + U64 - pos) % U64 = size - pos := by
      have : size + U64 - pos = (size - pos) + U64 := by omega
      rw [this, Nat.add_mod_right]
      exact Nat.mod_eq_of_lt (by omega)
    have e2 : (bc - i) % U64 = k + 1 := by
      have : bc - i = k + 1 := by omega
      rw [this]; exact Nat.mod_eq_of_lt (by omega)
    have hc1 : (size - pos) / (k + 1) * (k + 1) ≤ size - pos := Nat.div_mul_le_self _ _
    have hc2 : size - pos < (k + 1) * ((size - pos) / (k + 1) + 1) :=
      Nat.lt_mul_div_succ _ (by omega)
    have hq : q ≤ (size - pos) / (k + 1) := by
      rw [Nat.le_div_iff_mul_le (by omega)]; exact hlo
    have hu : (size - pos) / (k + 1) ≤ u := by
      apply Nat.div_le_of_le_mul
      rw [Nat.mul_comm]; exact hhi
    generalize hc : (size - pos) / (k + 1) = c at hc1 hc2 hq hu
    have hck : c * (k + 1) = c * k + c := by ring
    have hcle : c ≤ size - pos := by omega
    have e3 : (pos + c) % U64 = pos + c := Nat.mod_eq_of_lt (by omega)
    have hlo' : q * k ≤ size - (pos + c) := by
      have : q * k ≤ c * k := Nat.mul_le_mul_right _ hq
      omega
    have hhi' : size - (pos + c) ≤ u * k := by
      rcases Nat.lt_or_ge c u with h | h
      · have h1 : size - pos + 1 ≤ (k + 1) * (c + 1) := hc2
        have h2 : (c + 1) * k ≤ u * k := Nat.mul_le_mul_right _ h
        have h3 : (k + 1) * (c + 1) = (c + 1) * k + c + 1 := by ring
        omega
      · have : c = u := by omega
        subst this
        have h3 : c * (k + 1) = c * k + c := by ring
        omega
    obtain ⟨i1, i2, i3⟩ := ih (i + 1) (pos + c) (by omega) (by omega) hlo' hhi'
    simp only [chunkSizes, e1, e2, hc, e3, List.length_cons, List.sum_cons, List.mem_cons]
    refine ⟨by omega, by omega, ?_⟩
    rintro b (rfl | hb)
    · exact ⟨hq, hu⟩
    · exact i3 b hb

theorem blockCount_eq (size : Nat) (h : size + MAX_BLOCK_SIZE < U64) :
    blockCount size = (size + MAX_BLOCK_SIZE - 1) / MAX_BLOCK_SIZE := by
  unfold blockCount
  rw [Nat.mod_eq_of_lt (by omega)]

theorem chunkSizes_balanced (size : Nat) (h : size + MAX_BLOCK_SIZE < U64) :
    (chunkSizes size (blockCount size) (blockCount size) 0 0).length
        = (size + MAX_BLOCK_SIZE - 1) / MAX_BLOCK_SIZE
      ∧ (chunkSizes size (blockCount size) (blockCount size) 0 0).sum = size
      ∧ (∀ b ∈ chunkSizes size (blockCount size) (blockCount size) 0 0, b ≤ MAX_BLOCK_SIZE)
      ∧ (∀ a ∈ chunkSizes size (blockCount size) (blockCount size) 0 0,
          ∀ b ∈ chunkSizes size (blockCount size) (blockCount size) 0 0, a ≤ b + 1) := by
  have hbc := blockCount_eq size h
  have hMAX : MAX_BLOCK_SIZE = 536870912 := by decide
  have hU : U64 = 18446744073709551616 := by decide
  rw [hMAX, hU] at h
  rw [hMAX] at hbc ⊢
  have hceil1 : size ≤ 536870912 * blockCount size := by
    rw [hbc]
    have := Nat.lt_mul_div_succ (size + 536870912 - 1) (show 0 < 536870912 by norm_num)
    omega
  have hceil2 : 536870912 * blockCount size < size + 536870912 := by
    rw [hbc]
    have := Nat.mul_div_le (size + 536870912 - 1) 536870912
    omega
  generalize blockCount size = bc at hceil1 hceil2 hbc ⊢
  have hdm := Nat.div_add_mod size bc
  have hq1 : size / bc * bc ≤ size := Nat.div_mul_le_self _ _
  rcases Nat.eq_zero_or_pos bc with h0 | hpos
  · subst h0
    have hs : size = 0 := by omega
    subst hs
    simp [chunkSizes]
  have hmod : size % bc < bc := Nat.mod_lt _ hpos
  have hcomm : bc * (size / bc) = size / bc * bc := Nat.mul_comm _ _
  by_cases hr : size % bc = 0
  · have hqM : size / bc ≤ 536870912 := by
      apply Nat.div_le_of_le_mul
      rw [Nat.mul_comm]; exact hceil1
    obtain ⟨c1, c2, c3⟩ := chunkSizes_spec size bc (size / bc) (size / bc) (by omega) (by omega)
      bc 0 0 (by omega) (by omega) (by omega) (by omega)
    refine ⟨by omega, by omega, fun b hb => ?_, fun a ha b hb => ?_⟩
    · have := c3 b hb; omega
    · have := c3 a ha; have := c3 b hb; omega
  · have hqM : size / bc + 1 ≤ 536870912 := by
      by_contra hcon
      have h1 : 536870912 ≤ size / bc := by omega
      have h2 : 536870912 * bc ≤ size / bc * bc := Nat.mul_le_mul_right _ h1
      have h3 : 536870912 * bc = bc * 536870912 := Nat.mul_comm _ _
      omega
    have hup : size ≤ (size / bc + 1) * bc := by
      have : (size / bc + 1) * bc = size / bc * bc + bc := by ring
      omega
    obtain ⟨c1, c2, c3⟩ := chunkSizes_spec size bc (size / bc) (size / bc + 1) (by omega)
      (by omega) bc 0 0 (by omega) (by omega) (by omega) (by omega)
    refine ⟨by omega, by omega, fun b hb => ?_, fun a ha b hb => ?_⟩
    · have := c3 b hb; omega
    · have := c3 a ha; have := c3 b hb; omega

theorem chunkSizes_example :
    chunkSizes 1610612736 (blockCount 1610612736) (blockCount 1610612736) 0 0
      = [536870912, 536870912, 536870912] := by decide

theorem linkExistsFile_of_new (M : FS) (id : Nat) (f : File) (hf : M.Files.get? id = some f)
    (h : M.SHA512Lookup f.SHA512 = none) : linkExistsFile M id = some (M, false) := by
  simp only [linkExistsFile, hf, h]

theorem get?_set_self {α : Type} (l : List α) (i : Nat) (a : α) (h : i < l.length) :
    (l.set i a).get? i = some a := by
  rw [List.get?_eq_getElem?, List.getElem?_set_self (by simpa using h)]

theorem bigFile_storage_eq (bc n : Nat) (A : List Node) :
    (if bc = 1 then StorageInfo.mk ((A, [] ++ List.range' n bc).2.headD 0) 0 []
      else StorageInfo.mk 0 0 (A, [] ++ List.range' n bc).2)
    = (if bc = 1 then StorageInfo.mk n 0 [] else StorageInfo.mk 0 0 (List.range' n bc)) := by
  by_cases h1 : bc = 1
  · rw [if_pos h1, if_pos h1, h1]; rfl
  · rw [if_neg h1, if_neg h1]; rfl

/-- C4: when `makeBigFile` does not link the file to an existing one, it appends to `Nodes`
blocks whose sizes are the successive quotients `(size - pos) / (bc - i)`: there are
`⌈size / MAX_BLOCK_SIZE⌉` of them, they sum to `size`, none exceeds `MAX_BLOCK_SIZE`, any two
differ by at most 1, and for `size = 1.5 GiB` they are three blocks of 512 MiB.  The file
refers to exactly these blocks (as a Packed file at offset 0 when there is one block). -/
theorem makeBigFile_block_sizes (sha disk : List Nat → List Nat) (M : FS) (id size : Nat)
    (path : List Nat) (skipLink : Bool) (hid : id < M.Files.length)
    (hsize : size + MAX_BLOCK_SIZE < U64)
    (hnew : skipLink = true ∨ M.SHA512Lookup (sha (disk path)) = none) :
    ∃ M' sizes, makeBigFile sha disk M id size path skipLink = some M'
      ∧ sizes = chunkSizes size (blockCount size) (blockCount size) 0 0
      ∧ M'.Nodes = M.Nodes ++ sizes.map (fun bs => { Size := bs, Source := [] })
      ∧ sizes.length = (size + MAX_BLOCK_SIZE - 1) / MAX_BLOCK_SIZE
      ∧ sizes.sum = size
      ∧ (∀ b ∈ sizes, b ≤ MAX_BLOCK_SIZE)
      ∧ (∀ a ∈ sizes, ∀ b ∈ sizes, a ≤ b + 1)
      ∧ (size = 1610612736 → sizes = [536870912, 536870912, 536870912])
      ∧ (M'.Files.get? id).map (·.Storage)
          = some (if sizes.length = 1 then { NodeId := M.Nodes.length, NodePos := 0, Nodes := [] }
                  else { NodeId := 0, NodePos := 0,
                         Nodes := List.range' M.Nodes.length sizes.length }) := by
  obtain ⟨f0, hf0⟩ : ∃ f0, M.Files.get? id = some f0 := ⟨_, List.get?_eq_get hid⟩
  obtain ⟨b1, b2, b3, b4⟩ := chunkSizes_balanced size hsize
  have hbc := blockCount_eq size hsize
  have hget : ∀ g : File, (M.Files.set id g).get? id = some g := fun g => get?_set_self _ _ _ hid
  have hlink : (if skipLink then some
        ({ M with Files := M.Files.set id { f0 with SHA512 := sha (disk path) } }, false)
      else linkExistsFile
        { M with Files := M.Files.set id { f0 with SHA512 := sha (disk path) } } id)
      = some ({ M with Files := M.Files.set id { f0 with SHA512 := sha (disk path) } }, false) := by
    rcases hnew with h | h
    · rw [h]; rfl
    · cases skipLink
      · exact linkExistsFile_of_new _ id _ (hget _) h
      · rfl
  have hex : size = 1610612736 → chunkSizes size (blockCount size) (blockCount size) 0 0
      = [536870912, 536870912, 536870912] := fun h => by rw [h]; exact chunkSizes_example
  simp only [makeBigFile, hf0, hlink, hget]
  generalize blockCount size = bc at b1 b2 b3 b4 hbc hex ⊢
  refine ⟨_, chunkSizes size bc bc 0 0, rfl, rfl, ?_, b1, b2, b3, b4, hex, ?_⟩
  · rw [bigFileLoop_eq]
  · rw [get?_set_self _ _ _ (by simpa using hid), Option.map_some', bigFileLoop_eq, b1, ← hbc]
    exact congrArg some (bigFile_storage_eq bc _ _)

/-- Instance of `makeBigFile_block_sizes`: a new file of 1.5 GiB in the state after
`clear()` and `addChildFile(0, "b")`. -/
theorem makeBigFile_block_sizes_witness :
    ∃ M' sizes, makeBigFile toyHash (fun _ => []) (stateWithFile [0x62]) 0 1610612736 [0x62] false
        = some M'
      ∧ M'.Nodes = (stateWithFile [0x62]).Nodes ++ sizes.map (fun bs => { Size := bs, Source := [] })
      ∧ sizes = [536870912, 536870912, 536870912] := by
  obtain ⟨M', sizes, h1, -, h3, -, -, -, -, h8, -⟩ :=
    makeBigFile_block_sizes toyHash (fun _ => []) (stateWithFile [0x62]) 0 1610612736 [0x62] false
      (by decide) (by decide) (Or.inr (by decide))
  exact ⟨M', sizes, h1, h3, h8 rfl⟩

/-! ## Packing small files and deduplication -/

/-- C5 (the code at the failing input): `fix` re-ingests the file of `splitFileState`, whose
source now has the 3 bytes `[1, 2, 3]`, through `makeFiles(s, true, true)`.  The new block 2
of 3 bytes is written and the file gets `NodeId = 2`, `NodePos = 0`, but its split list
`[0, 1]` and its size of 1 GiB stay: the file is still a Split file over the old blocks. -/
theorem makeFiles_keeps_split_list :
    (makeFiles toyHash diskTwins splitFileState [{ Id := 0, Size := 3, Path := [0x61] }] true true).map
        (fun r => (r.1.Files.map (fun f => (f.Size, f.Storage)), r.1.Nodes.map (·.Size), r.2))
      = some ([(1073741824, { NodeId := 2, NodePos := 0, Nodes := [0, 1] })],
              [536870912, 536870912, 3], []) := by
  decide

/-- C6 (the code at the failing input): two source files `a` and `b` with the same 3 bytes
arrive in one `makeFiles` batch (`force = true`, `skipLink = false`).  In either order of
the two files of equal size, both are packed into the new block, one at offset 0 and one at
offset 3: the two records carry the same hash and different storage. -/
theorem makeFiles_twins_not_linked :
    (twinsState.bind (fun M => makeFilesLoop toyHash diskTwins true false
        [{ Id := 0, Size := 3, Path := [0x61] }, { Id := 1, Size := 3, Path := [0x62] }] M [] [])).map
        (fun r => (r.1.Files.map (fun f => (decide (f.SHA512 = toyHash [1, 2, 3]), f.Storage)),
                   r.1.Nodes.map (·.Size)))
      = some ([(true, { NodeId := 0, NodePos := 0, Nodes := [] }),
               (true, { NodeId := 0, NodePos := 3, Nodes := [] })], [6])
    ∧ (twinsState.bind (fun M => makeFilesLoop toyHash diskTwins true false
        [{ Id := 1, Size := 3, Path := [0x62] }, { Id := 0, Size := 3, Path := [0x61] }] M [] [])).map
        (fun r => (r.1.Files.map (fun f => (decide (f.SHA512 = toyHash [1, 2, 3]), f.Storage)),
                   r.1.Nodes.map (·.Size)))
      = some ([(true, { NodeId := 0, NodePos := 3, Nodes := [] }),
               (true, { NodeId := 0, NodePos := 0, Nodes := [] })], [6]) := by
  decide

theorem get?_set_ne' {α : Type} (l : List α) (i j : Nat) (a : α) (h : i ≠ j) :
    (l.set i a).get? j = l.get? j := by
  rw [List.get?_eq_getElem?, List.get?_eq_getElem?, List.getElem?_set_ne h]

theorem lt_length_of_get? {α : Type} {l : List α} {i : Nat} {a : α} (h : l.get? i = some a) :
    i < l.length := by
  rw [List.get?_eq_some] at h
  exact h.1

theorem linkExistsFile_of_key (M : FS) (id rid : Nat) (f rf : File)
    (hf : M.Files.get? id = some f) (hk : M.SHA512Lookup f.SHA512 = some rid)
    (hr : M.Files.get? rid = some rf) :
    linkExistsFile M id
      = some ({ M with Files := M.Files.set id { f with Storage := rf.Storage, Inode := rf.Inode } },
          true) := by
  simp only [linkExistsFile, hf, hk, hr]

theorem makeBigFile_linked (sha disk : List Nat → List Nat) (M : FS) (id size rid : Nat)
    (path : List Nat) (f rf : File) (hf : M.Files.get? id = some f)
    (hk : M.SHA512Lookup (sha (disk path)) = some rid) (hr : M.Files.get? rid = some rf) :
    makeBigFile sha disk M id size path false
      = some { M with
               Files := M.Files.set id
                 { f with SHA512 := sha (disk path), Storage := rf.Storage, Inode := rf.Inode } } := by
  have hid := lt_length_of_get? hf
  have h1 : (M.Files.set id { f with SHA512 := sha (disk path) }).get? id
      = some { f with SHA512 := sha (disk path) } := get?_set_self _ _ _ hid
  obtain ⟨rf', h2, h3, h4⟩ : ∃ rf', (M.Files.set id { f with SHA512 := sha (disk path) }).get? rid
      = some rf' ∧ rf'.Storage = rf.Storage ∧ rf'.Inode = rf.Inode := by
    by_cases e : id = rid
    · subst e
      rw [hf] at hr
      injection hr with hr
      subst hr
      exact ⟨_, h1, rfl, rfl⟩
    · exact ⟨rf, by rw [get?_set_ne' _ _ _ _ e, hr], rfl, rfl⟩
  have hl := linkExistsFile_of_key
    { M with Files := M.Files.set id { f with SHA512 := sha (disk path) } } id rid _ rf' h1 hk h2
  simp only [makeBigFile, hf, Bool.false_eq_true, if_false, hl, List.set_set, h3, h4]

theorem makeFilesLoop_all_linked (sha disk : List Nat → List Nat) (force : Bool) :
    ∀ (batch : List NewFile) (M : FS), (batch.map (·.Id)).Nodup →
      (∀ x ∈ batch, ∃ f rid rf, M.Files.get? x.Id = some f
        ∧ M.SHA512Lookup (sha (disk x.Path)) = some rid ∧ M.Files.get? rid = some rf
        ∧ ∀ y ∈ batch, y.Id ≠ rid) →
      ∃ M', makeFilesLoop sha disk force false batch M [] [] = some (M', [])
        ∧ M'.Nodes = M.Nodes ∧ M'.SHA512Lookup = M.SHA512Lookup
        ∧ (∀ j, (∀ y ∈ batch, y.Id ≠ j) → M'.Files.get? j = M.Files.get? j)
        ∧ ∀ x ∈ batch, ∀ f rid rf, M.Files.get? x.Id = some f →
            M.SHA512Lookup (sha (disk x.Path)) = some rid → M.Files.get? rid = some rf →
            M'.Files.get? x.Id = some { f with SHA512 := sha (disk x.Path),
                                               Storage := rf.Storage, Inode := rf.Inode } := by
  intro batch
  induction batch with
  | nil =>
    intro M _ _
    exact ⟨M, rfl, rfl, rfl, fun _ _ => rfl, fun x hx => absurd hx (List.not_mem_nil x)⟩
  | cons x rest ih =>
    intro M hnd hall
    rw [List.map_cons, List.nodup_cons] at hnd
    obtain ⟨hx, hnd⟩ := hnd
    obtain ⟨f, rid, rf, hf, hk, hr, hfresh⟩ := hall x (List.mem_cons_self _ _)
    have hid := lt_length_of_get? hf
    have hxr : x.Id ≠ rid := hfresh x (List.mem_cons_self _ _)
    have h1 : (M.Files.set x.Id { f with SHA512 := sha (disk x.Path) }).get? x.Id
        = some { f with SHA512 := sha (disk x.Path) } := get?_set_self _ _ _ hid
    have h2 : (M.Files.set x.Id { f with SHA512 := sha (disk x.Path) }).get? rid = some rf := by
      rw [get?_set_ne' _ _ _ _ hxr, hr]
    have hl := linkExistsFile_of_key
      { M with Files := M.Files.set x.Id { f with SHA512 := sha (disk x.Path) } } x.Id rid _ rf
      h1 hk h2
    have hne : ∀ y ∈ rest, x.Id ≠ y.Id := by
      intro y hy e
      exact hx (List.mem_map.2 ⟨y, hy, e.symm⟩)
    have hmin : ¬ (MIN_BLOCK_SIZE ≤ ([] : List Nat).length
        ∨ (rest = [] ∧ force = true ∧ 0 < ([] : List NewFile).length)) := by
      simp [MIN_BLOCK_SIZE]
    obtain ⟨M', r1, r2, r3, r4, r5⟩ := ih
      { M with
        Files := M.Files.set x.Id
          { f with SHA512 := sha (disk x.Path), Storage := rf.Storage, Inode := rf.Inode } }
      hnd (by
        intro y hy
        obtain ⟨fy, ridy, rfy, a1, a2, a3, a4⟩ := hall y (List.mem_cons_of_mem _ hy)
        refine ⟨fy, ridy, rfy, ?_, a2, ?_, fun z hz => a4 z (List.mem_cons_of_mem _ hz)⟩
        · show (M.Files.set x.Id _).get? y.Id = _
          rw [get?_set_ne' _ _ _ _ (hne y hy), a1]
        · show (M.Files.set x.Id _).get? ridy = _
          rw [get?_set_ne' _ _ _ _ (a4 x (List.mem_cons_self _ _)), a3])
    refine ⟨M', ?_, r2, r3, ?_, ?_⟩
    · simp only [makeFilesLoop, hf, Bool.false_eq_true, if_false, hl, List.set_set, if_true, hmin]
      exact r1
    · intro j hj
      rw [r4 j (fun y hy => hj y (List.mem_cons_of_mem _ hy))]
      show (M.Files.set x.Id _).get? j = _
      rw [get?_set_ne' _ _ _ _ (hj x (List.mem_cons_self _ _))]
    · intro y hy fy ridy rfy a1 a2 a3
      rcases List.mem_cons.1 hy with rfl | hy
      · rw [hf] at a1
        rw [hk] at a2
        injection a1 with a1
        injection a2 with a2
        subst a1 a2
        rw [hr] at a3
        injection a3 with a3
        subst a3
        rw [r4 y.Id (fun z hz => (hne z hz).symm)]
        exact get?_set_self _ _ _ hid
      · obtain ⟨_, _, _, _, b2, _, b4⟩ := hall y (List.mem_cons_of_mem _ hy)
        rw [a2] at b2
        injection b2 with b2
        subst b2
        exact r5 y hy fy ridy rfy
          (by show (M.Files.set x.Id _).get? y.Id = _
              rw [get?_set_ne' _ _ _ _ (hne y hy), a1]) a2
          (by show (M.Files.set x.Id _).get? ridy = _
              rw [get?_set_ne' _ _ _ _ (b4 x (List.mem_cons_self _ _)), a3])

theorem makeFilesLoop_linked_step (sha disk : List Nat → List Nat) (force : Bool) (M : FS)
    (x : NewFile) (rid : Nat) (f rf : File) (rest : List NewFile) (buf : List Nat)
    (pending : List NewFile) (hf : M.Files.get? x.Id = some f)
    (hk : M.SHA512Lookup (sha (disk x.Path)) = some rid) (hr : M.Files.get? rid = some rf) :
    makeFilesLoop sha disk force false (x :: rest) M buf pending
      = (if MIN_BLOCK_SIZE ≤ buf.length ∨ (rest = [] ∧ force = true ∧ 0 < pending.length) then
          match flushPending { M with
              Files := M.Files.set x.Id
                { f with SHA512 := sha (disk x.Path), Storage := rf.Storage, Inode := rf.Inode } }
            buf pending with
          | none => none
          | some M3 => makeFilesLoop sha disk force false rest M3 [] []
        else makeFilesLoop sha disk force false rest { M with
              Files := M.Files.set x.Id
                { f with SHA512 := sha (disk x.Path), Storage := rf.Storage, Inode := rf.Inode } }
            buf pending) := by
  have hid := lt_length_of_get? hf
  have h1 : (M.Files.set x.Id { f with SHA512 := sha (disk x.Path) }).get? x.Id
      = some { f with SHA512 := sha (disk x.Path) } := get?_set_self _ _ _ hid
  obtain ⟨rf', h2, h3, h4⟩ : ∃ rf', (M.Files.set x.Id { f with SHA512 := sha (disk x.Path) }).get? rid
      = some rf' ∧ rf'.Storage = rf.Storage ∧ rf'.Inode = rf.Inode := by
    by_cases e : x.Id = rid
    · rw [← e, hf] at hr
      injection hr with hr
      subst hr
      exact ⟨{ f with SHA512 := sha (disk x.Path) }, by rw [← e]; exact h1, rfl, rfl⟩
    · exact ⟨rf, by rw [get?_set_ne' _ _ _ _ e, hr], rfl, rfl⟩
  have hl := linkExistsFile_of_key
    { M with Files := M.Files.set x.Id { f with SHA512 := sha (disk x.Path) } } x.Id rid _ rf'
    h1 hk h2
  simp only [makeFilesLoop, hf, Bool.false_eq_true, if_false, hl, List.set_set, if_true, h3, h4]

/-- C7: with `skipLink` not set, a file whose hash is already a key of the hash index is
linked.  `makeBigFile` returns the state in which only the file's record changed: it has the
new hash and the storage and inode of the indexed file, while `Nodes` and the hash index are
as before.  In `makeFiles` such a file is neither appended to the buffer nor to `pending`, so
no block is written for it; for a batch in which every file is already indexed (distinct
records, none of them an indexed one) `makeFiles` creates no block at all, leaves the hash
index as it was and gives every file the storage and inode of its indexed file. -/
theorem dedup_creates_no_block (sha disk : List Nat → List Nat) (M : FS) (id size rid : Nat)
    (path : List Nat) (f rf : File) (batch : List NewFile) (force : Bool)
    (hf : M.Files.get? id = some f) (hk : M.SHA512Lookup (sha (disk path)) = some rid)
    (hr : M.Files.get? rid = some rf) (hnd : (batch.map (·.Id)).Nodup)
    (hall : ∀ x ∈ batch, ∃ f rid rf, M.Files.get? x.Id = some f
      ∧ M.SHA512Lookup (sha (disk x.Path)) = some rid ∧ M.Files.get? rid = some rf
      ∧ ∀ y ∈ batch, y.Id ≠ rid) :
    (∃ M', makeBigFile sha disk M id size path false = some M'
      ∧ M'.Nodes = M.Nodes ∧ M'.SHA512Lookup = M.SHA512Lookup
      ∧ M'.Files = M.Files.set id
          { f with SHA512 := sha (disk path), Storage := rf.Storage, Inode := rf.Inode })
    ∧ (∀ (rest : List NewFile) (buf : List Nat) (pending : List NewFile),
        makeFilesLoop sha disk force false ({ Id := id, Size := size, Path := path } :: rest) M
            buf pending
          = (if MIN_BLOCK_SIZE ≤ buf.length ∨ (rest = [] ∧ force = true ∧ 0 < pending.length) then
              match flushPending { M with
                  Files := M.Files.set id
                    { f with SHA512 := sha (disk path), Storage := rf.Storage, Inode := rf.Inode } }
                buf pending with
              | none => none
              | some M3 => makeFilesLoop sha disk force false rest M3 [] []
            else makeFilesLoop sha disk force false rest { M with
                  Files := M.Files.set id
                    { f with SHA512 := sha (disk path), Storage := rf.Storage, Inode := rf.Inode } }
                buf pending))
    ∧ (∃ M', makeFilesLoop sha disk force false batch M [] [] = some (M', [])
      ∧ M'.Nodes = M.Nodes ∧ M'.SHA512Lookup = M.SHA512Lookup
      ∧ (∀ j, (∀ y ∈ batch, y.Id ≠ j) → M'.Files.get? j = M.Files.get? j)
      ∧ ∀ x ∈ batch, ∀ f rid rf, M.Files.get? x.Id = some f →
          M.SHA512Lookup (sha (disk x.Path)) = some rid → M.Files.get? rid = some rf →
          M'.Files.get? x.Id = some { f with SHA512 := sha (disk x.Path),
                                             Storage := rf.Storage, Inode := rf.Inode }) :=
  ⟨⟨_, makeBigFile_linked sha disk M id size rid path f rf hf hk hr, rfl, rfl, rfl⟩,
    fun rest buf pending =>
      makeFilesLoop_linked_step sha disk force M { Id := id, Size := size, Path := path } rid f rf
        rest buf pending hf hk hr,
    makeFilesLoop_all_linked sha disk force batch M hnd hall⟩

/-- Instance of `dedup_creates_no_block`: the second ingest of the content `[1, 2, 3]`, as a
large file and as the batch of one small file, creates no block. -/
theorem dedup_creates_no_block_witness :
    (∃ M', makeBigFile toyHash diskTwins secondIngestState 1 3 [0x62] false = some M'
      ∧ M'.Nodes = secondIngestState.Nodes)
    ∧ (∃ M', makeFilesLoop toyHash diskTwins true false [{ Id := 1, Size := 3, Path := [0x62] }]
          secondIngestState [] [] = some (M', [])
      ∧ M'.Nodes = secondIngestState.Nodes ∧ secondIngestState.Nodes.length = 1) := by
  have h := dedup_creates_no_block toyHash diskTwins secondIngestState 1 3 0 [0x62] twinB twinA
    [{ Id := 1, Size := 3, Path := [0x62] }] true (by decide) (by decide) (by decide) (by decide)
    (by
      intro x hx
      rw [List.mem_singleton] at hx
      subst hx
      exact ⟨twinB, 0, twinA, by decide, by decide, by decide, by decide⟩)
  obtain ⟨⟨M1, a1, a2, -, -⟩, -, ⟨M2, b1, b2, -, -, -⟩⟩ := h
  exact ⟨⟨M1, a1, a2⟩, ⟨M2, b1, b2, by decide⟩⟩

/-! ## Inodes -/

example : relinkedState.Files.map (fun f => (f.Name, f.Inode, f.Storage))
    = [([0x61], 2, { NodeId := 0, NodePos := 0, Nodes := [] }),
       ([0x62], 2, { NodeId := 0, NodePos := 0, Nodes := [] })] := by decide

theorem SameInodes.refl (M : FS) : SameInodes M M :=
  ⟨rfl, rfl, rfl, fun f hf => ⟨f, hf, rfl⟩⟩

theorem SameInodes.trans {A B C : FS} (h1 : SameInodes A B) (h2 : SameInodes B C) :
    SameInodes A C := by
  obtain ⟨a1, a2, a3, a4⟩ := h1
  obtain ⟨b1, b2, b3, b4⟩ := h2
  refine ⟨b1.trans a1, b2.trans a2, b3.trans a3, fun f hf => ?_⟩
  obtain ⟨g, hg, e1⟩ := b4 f hf
  obtain ⟨k, hk, e2⟩ := a4 g hg
  exact ⟨k, hk, e1.trans e2⟩

theorem sameInodes_of_set (M M' : FS) (id : Nat) (g : File) (hd : M'.Dirs = M.Dirs)
    (hi : M'.Inodes = M.Inodes) (hfiles : M'.Files = M.Files.set id g)
    (hg : ∃ f ∈ M.Files, g.Inode = f.Inode) : SameInodes M M' := by
  refine ⟨hd, hi, by rw [hfiles, List.length_set], fun f' hf' => ?_⟩
  rw [hfiles] at hf'
  rcases List.mem_or_eq_of_mem_set hf' with h | h
  · exact ⟨f', h, rfl⟩
  · rw [h]; exact hg

theorem linkExistsFile_sameInodes (M M' : FS) (id : Nat) (b : Bool)
    (h : linkExistsFile M id = some (M', b)) : SameInodes M M' := by
  unfold linkExistsFile at h
  cases hf : M.Files.get? id with
  | none => rw [hf] at h; exact Option.noConfusion h
  | some f =>
    simp only [hf] at h
    cases hk : M.SHA512Lookup f.SHA512 with
    | none =>
      simp only [hk, Option.some.injEq, Prod.mk.injEq] at h
      rw [← h.1]
      exact SameInodes.refl M
    | some rid =>
      simp only [hk] at h
      cases hr : M.Files.get? rid with
      | none => rw [hr] at h; exact Option.noConfusion h
      | some rf =>
        simp only [hr, Option.some.injEq, Prod.mk.injEq] at h
        rw [← h.1]
        exact sameInodes_of_set M _ id _ rfl rfl rfl ⟨rf, List.get?_mem hr, rfl⟩

theorem assignPending_sameInodes (n : Nat) : ∀ (ps : List NewFile) (pos : Nat) (M M' : FS),
    assignPending n ps pos M = some M' → SameInodes M M' := by
  intro ps
  induction ps with
  | nil =>
    intro pos M M' h
    simp only [assignPending, Option.some.injEq] at h
    rw [← h]; exact SameInodes.refl M
  | cons p ps ih =>
    intro pos M M' h
    unfold assignPending at h
    cases hf : M.Files.get? p.Id with
    | none => rw [hf] at h; exact Option.noConfusion h
    | some f =>
      simp only [hf] at h
      refine SameInodes.trans ?_ (ih _ _ _ h)
      exact sameInodes_of_set M _ p.Id _ rfl rfl rfl ⟨f, List.get?_mem hf, rfl⟩

theorem flushPending_sameInodes (M M' : FS) (buf : List Nat) (pending : List NewFile)
    (h : flushPending M buf pending = some M') : SameInodes M M' := by
  unfold flushPending at h
  cases ha : assignPending M.Nodes.length pending 0 M with
  | none => rw [ha] at h; exact Option.noConfusion h
  | some M1 =>
    simp only [ha, Option.some.injEq] at h
    rw [← h]
    exact SameInodes.trans (assignPending_sameInodes _ _ _ _ _ ha) ⟨rfl, rfl, rfl, fun f hf => ⟨f, hf, rfl⟩⟩

theorem hashed_sameInodes (M : FS) (id : Nat) (f : File) (h : List Nat)
    (hf : M.Files.get? id = some f) :
    SameInodes M { M with Files := M.Files.set id { f with SHA512 := h } } :=
  sameInodes_of_set M _ id _ rfl rfl rfl ⟨f, List.get?_mem hf, rfl⟩

theorem linkOrSkip_sameInodes (M M2 : FS) (id : Nat) (skipLink linked : Bool)
    (h : (if skipLink then some (M, false) else linkExistsFile M id) = some (M2, linked)) :
    SameInodes M M2 := by
  cases skipLink with
  | true =>
    simp only [if_true, Option.some.injEq, Prod.mk.injEq] at h
    rw [← h.1]; exact SameInodes.refl M
  | false =>
    simp only [Bool.false_eq_true, if_false] at h
    exact linkExistsFile_sameInodes M M2 id linked h

theorem makeFilesLoop_sameInodes (sha disk : List Nat → List Nat) (force skipLink : Bool) :
    ∀ (st : List NewFile) (M : FS) (buf : List Nat) (pending : List NewFile)
      (r : FS × List NewFile),
      makeFilesLoop sha disk force skipLink st M buf pending = some r → SameInodes M r.1 := by
  intro st
  induction st with
  | nil =>
    intro M buf pending r h
    simp only [makeFilesLoop, Option.some.injEq] at h
    rw [← h]; exact SameInodes.refl M
  | cons x rest ih =>
    intro M buf pending r h
    unfold makeFilesLoop at h
    cases hf : M.Files.get? x.Id with
    | none => rw [hf] at h; exact Option.noConfusion h
    | some f =>
      simp only [hf] at h
      have s1 := hashed_sameInodes M x.Id f (sha (disk x.Path)) hf
      cases hl : (if skipLink then
          some ({ M with Files := M.Files.set x.Id { f with SHA512 := sha (disk x.Path) } }, false)
        else linkExistsFile
          { M with Files := M.Files.set x.Id { f with SHA512 := sha (disk x.Path) } } x.Id) with
      | none => rw [hl] at h; exact Option.noConfusion h
      | some p =>
        obtain ⟨M2, linked⟩ := p
        have s2 := linkOrSkip_sameInodes _ M2 x.Id skipLink linked hl
        simp only [hl] at h
        have key : ∀ (b : List Nat) (q : List NewFile),
            (if MIN_BLOCK_SIZE ≤ b.length ∨ (rest = [] ∧ force = true ∧ 0 < q.length) then
              match flushPending M2 b q with
              | none => none
              | some M3 => makeFilesLoop sha disk force skipLink rest M3 [] []
            else makeFilesLoop sha disk force skipLink rest M2 b q) = some r →
            SameInodes M r.1 := by
          intro b q hq
          split at hq
          · split at hq
            · exact Option.noConfusion hq
            · rename_i M3 hfl
              exact (s1.trans s2).trans
                ((flushPending_sameInodes _ _ _ _ hfl).trans (ih _ _ _ _ hq))
          · exact (s1.trans s2).trans (ih _ _ _ _ hq)
        exact key _ _ h

theorem makeBigFile_sameInodes (sha disk : List Nat → List Nat) (M M' : FS) (id size : Nat)
    (path : List Nat) (skipLink : Bool)
    (h : makeBigFile sha disk M id size path skipLink = some M') : SameInodes M M' := by
  unfold makeBigFile at h
  cases hf : M.Files.get? id with
  | none => rw [hf] at h; exact Option.noConfusion h
  | some f0 =>
    simp only [hf] at h
    have s1 := hashed_sameInodes M id f0 (sha (disk path)) hf
    cases hl : (if skipLink then
        some ({ M with Files := M.Files.set id { f0 with SHA512 := sha (disk path) } }, false)
      else linkExistsFile
        { M with Files := M.Files.set id { f0 with SHA512 := sha (disk path) } } id) with
    | none => rw [hl] at h; exact Option.noConfusion h
    | some p =>
      obtain ⟨M2, linked⟩ := p
      have s2 := linkOrSkip_sameInodes _ M2 id skipLink linked hl
      simp only [hl] at h
      cases linked with
      | true =>
        simp only [Option.some.injEq] at h
        rw [← h]; exact s1.trans s2
      | false =>
        simp only at h
        cases hf2 : M2.Files.get? id with
        | none => rw [hf2] at h; exact Option.noConfusion h
        | some f =>
          simp only [hf2, Option.some.injEq] at h
          rw [← h]
          refine (s1.trans s2).trans ?_
          exact sameInodes_of_set M2 _ id _ rfl rfl rfl ⟨f, List.get?_mem hf2, rfl⟩

theorem inodeInv_clear (old : FS) : InodeInv (clear old) := by
  simp [InodeInv, clear]

theorem inodeInv_sameInodes {M M' : FS} (h : InodeInv M) (hs : SameInodes M M') : InodeInv M' := by
  obtain ⟨h1, h2, h3, h4, h5⟩ := h
  obtain ⟨s1, s2, s3, s4⟩ := hs
  have hsub : ∀ v ∈ M'.Files.map (·.Inode), v ∈ M.Files.map (·.Inode) := by
    intro v hv
    obtain ⟨f', hf', rfl⟩ := List.mem_map.1 hv
    obtain ⟨f, hf, e⟩ := s4 f' hf'
    exact List.mem_map.2 ⟨f, hf, e.symm⟩
  refine ⟨by rw [s1, s2, s3]; exact h1, by rw [s1]; exact h2, by rw [s1, s2]; exact h3,
    fun v hv => by rw [s2]; exact h4 v (hsub v hv), fun v hv hv' => ?_⟩
  rw [s1] at hv
  exact h5 v hv (hsub v hv')

theorem set_eq_self_of_get? {α : Type} : ∀ (l : List α) (i : Nat) (a : α),
    l.get? i = some a → l.set i a = l := by
  intro l
  induction l with
  | nil => intro i a h; simp at h
  | cons b l ih =>
    intro i a h
    cases i with
    | zero => simp at h; simp [h]
    | succ i => simp at h; simp [List.set, ih i a (by simpa using h)]

theorem set_length_append {α : Type} (l : List α) (a b : α) :
    (l ++ [a]).set l.length b = l ++ [b] := by
  induction l with
  | nil => rfl
  | cons c l ih => simp [List.set, ih]

theorem addChild_inodes (M M' : FS) (x n : Nat) (name : List Nat)
    (h : addChild M x name = some (M', n)) :
    M'.Dirs.map (·.Inode) = M.Dirs.map (·.Inode) ++ [(M.Inodes + 1) % U64]
      ∧ M'.Files = M.Files ∧ M'.Inodes = (M.Inodes + 1) % U64 := by
  unfold addChild at h
  cases hx : M.Dirs.get? x with
  | none => rw [hx] at h; exact Option.noConfusion h
  | some dx =>
    simp only [hx] at h
    have hxlt := lt_length_of_get? hx
    have hlen : M.Dirs.length < ((M.Dirs ++ [Dir.zero]).set x
        { dx with Child := dx.Child ++ [M.Dirs.length],
                  ChildMap := dx.ChildMap.insert name M.Dirs.length }).length := by
      simp
    rw [List.get?_eq_get hlen] at h
    simp only [Option.some.injEq, Prod.mk.injEq] at h
    rw [← h.1]
    refine ⟨?_, rfl, rfl⟩
    have hgx : (M.Dirs.map (·.Inode) ++ [Dir.zero.Inode]).get? x = some dx.Inode := by
      rw [List.get?_eq_getElem?, List.getElem?_append_left (by simpa using hxlt),
        List.getElem?_map, ← List.get?_eq_getElem?, hx]
      rfl
    simp only [List.map_set, List.map_append, List.map_cons, List.map_nil]
    rw [set_eq_self_of_get? _ _ _ hgx]
    have := set_length_append (M.Dirs.map (·.Inode)) Dir.zero.Inode ((M.Inodes + 1) % U64)
    rw [List.length_map] at this
    exact this

theorem addChildFile_inodes (M M' : FS) (x n : Nat) (name : List Nat)
    (h : addChildFile M x name = some (M', n)) :
    M'.Files.map (·.Inode) = M.Files.map (·.Inode) ++ [(M.Inodes + 1) % U64]
      ∧ M'.Dirs.map (·.Inode) = M.Dirs.map (·.Inode) ∧ M'.Dirs.length = M.Dirs.length
      ∧ M'.Inodes = (M.Inodes + 1) % U64 := by
  unfold addChildFile at h
  cases hx : M.Dirs.get? x with
  | none => rw [hx] at h; exact Option.noConfusion h
  | some dx =>
    simp only [hx] at h
    have hlen : M.Files.length < (M.Files ++ [File.zero]).length := by simp
    rw [List.get?_eq_get hlen] at h
    simp only [Option.some.injEq, Prod.mk.injEq] at h
    rw [← h.1]
    have hgx : (M.Dirs.map (·.Inode)).get? x = some dx.Inode := by
      rw [List.get?_eq_getElem?, List.getElem?_map, ← List.get?_eq_getElem?, hx]; rfl
    refine ⟨?_, ?_, by simp, rfl⟩
    · simp only [List.map_set, List.map_append, List.map_cons, List.map_nil]
      have := set_length_append (M.Files.map (·.Inode)) File.zero.Inode ((M.Inodes + 1) % U64)
      rw [List.length_map] at this
      exact this
    · simp only [List.map_set]
      exact set_eq_self_of_get? _ _ _ hgx

theorem inodeInv_append_dir {M M' : FS} (h : InodeInv M)
    (hd : M'.Dirs.map (·.Inode) = M.Dirs.map (·.Inode) ++ [(M.Inodes + 1) % U64])
    (hf : M'.Files = M.Files) (hi : M'.Inodes = (M.Inodes + 1) % U64)
    (hlen : M'.Dirs.length + M'.Files.length < U64) : InodeInv M' := by
  obtain ⟨h1, h2, h3, h4, h5⟩ := h
  have hl : M'.Dirs.length = M.Dirs.length + 1 := by
    have := congrArg List.length hd
    simpa using this
  have hmod : (M.Inodes + 1) % U64 = M.Inodes + 1 := by
    apply Nat.mod_eq_of_lt
    rw [hl, hf] at hlen
    omega
  rw [hmod] at hd hi
  refine ⟨by rw [hi, hl, hf]; omega, ?_, ?_, ?_, ?_⟩
  · rw [hd]
    refine List.Nodup.append h2 (List.nodup_singleton _) ?_
    intro v hv hv'
    rw [List.mem_singleton] at hv'
    have := (h3 v hv).2
    omega
  · intro v hv
    rw [hd, List.mem_append, List.mem_singleton] at hv
    rw [hi]
    rcases hv with hv | hv
    · have := h3 v hv; omega
    · omega
  · intro v hv
    rw [hf] at hv
    rw [hi]
    have := h4 v hv; omega
  · intro v hv hv'
    rw [hd, List.mem_append, List.mem_singleton] at hv
    rw [hf] at hv'
    rcases hv with hv | hv
    · exact h5 v hv hv'
    · have := (h4 v hv').2; omega

theorem inodeInv_append_file {M M' : FS} (h : InodeInv M)
    (hf : M'.Files.map (·.Inode) = M.Files.map (·.Inode) ++ [(M.Inodes + 1) % U64])
    (hd : M'.Dirs.map (·.Inode) = M.Dirs.map (·.Inode)) (hdl : M'.Dirs.length = M.Dirs.length)
    (hi : M'.Inodes = (M.Inodes + 1) % U64)
    (hlen : M'.Dirs.length + M'.Files.length < U64) : InodeInv M' := by
  obtain ⟨h1, h2, h3, h4, h5⟩ := h
  have hl : M'.Files.length = M.Files.length + 1 := by
    have := congrArg List.length hf
    simpa using this
  have hmod : (M.Inodes + 1) % U64 = M.Inodes + 1 := by
    apply Nat.mod_eq_of_lt
    rw [hl, hdl] at hlen
    omega
  rw [hmod] at hf hi
  refine ⟨by rw [hi, hl, hdl]; omega, by rw [hd]; exact h2, ?_, ?_, ?_⟩
  · intro v hv
    rw [hd] at hv
    rw [hi]
    have := h3 v hv; omega
  · intro v hv
    rw [hf, List.mem_append, List.mem_singleton] at hv
    rw [hi]
    rcases hv with hv | hv
    · have := h4 v hv; omega
    · omega
  · intro v hv hv'
    rw [hd] at hv
    rw [hf, List.mem_append, List.mem_singleton] at hv'
    rcases hv' with hv' | hv'
    · exact h5 v hv hv'
    · have := (h3 v hv).2; omega

theorem ingestStep_size_le (sha disk : List Nat → List Nat) (M M' : FS)
    (h : IngestStep sha disk M M') :
    M.Dirs.length + M.Files.length ≤ M'.Dirs.length + M'.Files.length := by
  cases h with
  | addChild x n name h =>
    obtain ⟨a, b, -⟩ := addChild_inodes M M' x n name h
    have := congrArg List.length a
    simp only [List.length_map, List.length_append, List.length_singleton] at this
    rw [b]; omega
  | addChildFile x n name h =>
    obtain ⟨a, -, c, -⟩ := addChildFile_inodes M M' x n name h
    have := congrArg List.length a
    simp only [List.length_map, List.length_append, List.length_singleton] at this
    omega
  | linkExistsFile id b h =>
    obtain ⟨a, -, c, -⟩ := linkExistsFile_sameInodes M M' id b h
    rw [a, c]
  | makeFiles st pending force skipLink h =>
    obtain ⟨a, -, c, -⟩ := makeFilesLoop_sameInodes sha disk force skipLink st M [] [] _ h
    simp only at a c
    rw [a, c]
  | makeBigFile id size path skipLink h =>
    obtain ⟨a, -, c, -⟩ := makeBigFile_sameInodes sha disk M M' id size path skipLink h
    rw [a, c]

theorem reachable_inodeInv (sha disk : List Nat → List Nat) (M : FS) (h : Reachable sha disk M) :
    M.Dirs.length + M.Files.length < U64 → InodeInv M := by
  induction h with
  | clear old => intro _; exact inodeInv_clear old
  | step M M' _ hstep ih =>
    intro hlen
    have hle := ingestStep_size_le sha disk M M' hstep
    have hM := ih (by omega)
    cases hstep with
    | addChild x n name h =>
      obtain ⟨a, b, c⟩ := addChild_inodes M M' x n name h
      exact inodeInv_append_dir hM a b c hlen
    | addChildFile x n name h =>
      obtain ⟨a, b, c, d⟩ := addChildFile_inodes M M' x n name h
      exact inodeInv_append_file hM a b c d hlen
    | linkExistsFile id b h => exact inodeInv_sameInodes hM (linkExistsFile_sameInodes M M' id b h)
    | makeFiles st pending force skipLink h =>
      exact inodeInv_sameInodes hM (makeFilesLoop_sameInodes sha disk force skipLink st M [] [] _ h)
    | makeBigFile id size path skipLink h =>
      exact inodeInv_sameInodes hM (makeBigFile_sameInodes sha disk M M' id size path skipLink h)

theorem relinkedState_reachable : Reachable toyHash diskTwins relinkedState := by
  unfold relinkedState
  have h0 : Reachable toyHash diskTwins (clear FS.init) := Reachable.clear _
  split
  · exact h0
  · rename_i r1 h1
    have g1 := Reachable.step _ _ h0 (IngestStep.addChildFile _ r1.1 0 r1.2 [0x61] h1)
    split
    · exact h0
    · rename_i r2 h2
      have g2 := Reachable.step _ _ g1 (IngestStep.makeFiles _ r2.1 _ r2.2 true false h2)
      split
      · exact h0
      · rename_i r3 h3
        have g3 := Reachable.step _ _ g2 (IngestStep.addChildFile _ r3.1 0 r3.2 [0x62] h3)
        split
        · exact h0
        · rename_i r4 h4
          exact Reachable.step _ _ g3 (IngestStep.makeFiles _ r4.1 _ r4.2 true false h4)

/-- C8 (as amended): in every metadata state reachable from `clear()` by `addChild`,
`addChildFile`, `linkExistsFile`, `makeFiles` and `makeBigFile` (with fewer than `2^64`
records), the directories carry pairwise distinct inodes, no file carries the inode of a
directory, `Inodes` is the number of records and every inode in use lies in `[1, Inodes]`,
so the inode `Inodes + 1` that `addChild` and `addChildFile` assign is carried by no existing
record.  Two file records may carry the same inode: `linkExistsFile` gives a deduplicated
file the inode of the indexed file. -/
theorem reachable_inodes (sha disk : List Nat → List Nat) (M : FS) (h : Reachable sha disk M)
    (hlen : M.Dirs.length + M.Files.length < U64) :
    (M.Dirs.map (·.Inode)).Nodup
      ∧ (∀ d ∈ M.Dirs, ∀ f ∈ M.Files, d.Inode ≠ f.Inode)
      ∧ M.Inodes = M.Dirs.length + M.Files.length
      ∧ (∀ d ∈ M.Dirs, 1 ≤ d.Inode ∧ d.Inode ≤ M.Inodes)
      ∧ (∀ f ∈ M.Files, 1 ≤ f.Inode ∧ f.Inode ≤ M.Inodes) := by
  obtain ⟨h1, h2, h3, h4, h5⟩ := reachable_inodeInv sha disk M h hlen
  refine ⟨h2, fun d hd f hf e => ?_, h1, fun d hd => h3 _ (List.mem_map_of_mem _ hd),
    fun f hf => h4 _ (List.mem_map_of_mem _ hf)⟩
  exact h5 d.Inode (List.mem_map_of_mem _ hd) (e ▸ List.mem_map_of_mem _ hf)

/-- Instance of `reachable_inodes` at the state after two ingests of the same content. -/
theorem reachable_inodes_witness :
    (relinkedState.Dirs.map (·.Inode)).Nodup
      ∧ (∀ d ∈ relinkedState.Dirs, ∀ f ∈ relinkedState.Files, d.Inode ≠ f.Inode)
      ∧ relinkedState.Inodes = relinkedState.Dirs.length + relinkedState.Files.length
      ∧ (∀ d ∈ relinkedState.Dirs, 1 ≤ d.Inode ∧ d.Inode ≤ relinkedState.Inodes)
      ∧ (∀ f ∈ relinkedState.Files, 1 ≤ f.Inode ∧ f.Inode ≤ relinkedState.Inodes) :=
  reachable_inodes toyHash diskTwins relinkedState relinkedState_reachable (by decide)

/-- C8 (as stated) fails: `relinkedState` is reachable and its two file records `a` and `b`
both carry inode 2, because the second ingest linked `b` to `a`. -/
theorem reachable_inodes_not_unique :
    ¬ ∀ M, Reachable toyHash diskTwins M → InodesUnique M := by
  intro h
  exact absurd (h relinkedState relinkedState_reachable) (by decide)

/-! ## The block cache -/

example : (touchFirst 3 (uniformCache 3 549755813888)).map
    (fun M => (M.CachedNodes, M.CacheTotalSize, M.NodesOpenCnt))
    = some ([0, 1, 2], 1649267441664, [0, 0, 0]) := by decide

theorem Cand.unique {M : FS} {c la la' : Nat} (h : Cand M c la) (h' : Cand M c la') : la = la' := by
  have := h.2.symm.trans h'.2
  exact Option.some.inj this

theorem scanOldest_spec (M : FS) : ∀ (cs : List Nat) (i oldest : Nat) (pos r : Option Nat),
    scanOldest M cs i oldest pos = some r →
    ∃ old', old' ≤ oldest ∧ (∀ c ∈ cs, ∀ la, Cand M c la → old' ≤ la)
      ∧ ((r = pos ∧ old' = oldest)
        ∨ ∃ j c, r = some (i + j) ∧ cs.get? j = some c ∧ Cand M c old' ∧ old' < oldest) := by
  intro cs
  induction cs with
  | nil =>
    intro i oldest pos r h
    simp only [scanOldest, Option.some.injEq] at h
    exact ⟨oldest, le_refl _, fun c hc => absurd hc (List.not_mem_nil c), Or.inl ⟨h.symm, rfl⟩⟩
  | cons c cs ih =>
    intro i oldest pos r h
    unfold scanOldest at h
    cases hcnt : M.NodesOpenCnt.get? c with
    | none => rw [hcnt] at h; exact Option.noConfusion h
    | some cnt =>
      simp only [hcnt] at h
      by_cases h0 : cnt = 0
      · rw [if_pos h0] at h
        subst h0
        cases hla : M.NodesLastAccess.get? c with
        | none => rw [hla] at h; exact Option.noConfusion h
        | some la =>
          simp only [hla] at h
          have hcand : Cand M c la := ⟨hcnt, hla⟩
          by_cases hlt : la < oldest
          · rw [if_pos hlt] at h
            obtain ⟨old', a1, a2, a3⟩ := ih (i + 1) la (some i) r h
            refine ⟨old', by omega, ?_, ?_⟩
            · intro c' hc' la' hcand'
              rcases List.mem_cons.1 hc' with rfl | hc'
              · rw [hcand.unique hcand'] at a1; exact a1
              · exact a2 c' hc' la' hcand'
            · refine Or.inr ?_
              rcases a3 with ⟨b1, b2⟩ | ⟨j, c', b1, b2, b3, b4⟩
              · exact ⟨0, c, by rw [b1]; rfl, rfl, by rw [b2]; exact hcand, by omega⟩
              · exact ⟨j + 1, c', by rw [b1]; congr 1; omega, by simpa using b2, b3, by omega⟩
          · rw [if_neg hlt] at h
            obtain ⟨old', a1, a2, a3⟩ := ih (i + 1) oldest pos r h
            refine ⟨old', a1, ?_, ?_⟩
            · intro c' hc' la' hcand'
              rcases List.mem_cons.1 hc' with rfl | hc'
              · rw [← hcand.unique hcand']; omega
              · exact a2 c' hc' la' hcand'
            · rcases a3 with b | ⟨j, c', b1, b2, b3, b4⟩
              · exact Or.inl b
              · exact Or.inr ⟨j + 1, c', by rw [b1]; congr 1; omega, by simpa using b2, b3, b4⟩
      · rw [if_neg h0] at h
        obtain ⟨old', a1, a2, a3⟩ := ih (i + 1) oldest pos r h
        refine ⟨old', a1, ?_, ?_⟩
        · intro c' hc' la' hcand'
          rcases List.mem_cons.1 hc' with rfl | hc'
          · have := hcand'.1
            rw [hcnt] at this
            exact absurd (Option.some.inj this) h0
          · exact a2 c' hc' la' hcand'
        · rcases a3 with b | ⟨j, c', b1, b2, b3, b4⟩
          · exact Or.inl b
          · exact Or.inr ⟨j + 1, c', by rw [b1]; congr 1; omega, by simpa using b2, b3, b4⟩

theorem scanOldest_top (M : FS) (L : List Nat) (r : Option Nat)
    (h : scanOldest M L 0 NullId none = some r) :
    (r = none → ∀ c ∈ L, ∀ la, Cand M c la → NullId ≤ la)
      ∧ (∀ p, r = some p → ∃ c la, L.get? p = some c ∧ Cand M c la ∧ la < NullId
          ∧ ∀ c' ∈ L, ∀ la', Cand M c' la' → la ≤ la') := by
  obtain ⟨old', a1, a2, a3⟩ := scanOldest_spec M L 0 NullId none r h
  refine ⟨fun hr => ?_, fun p hp => ?_⟩
  · rcases a3 with ⟨_, b2⟩ | ⟨j, c, b1, _⟩
    · rw [← b2]; exact a2
    · rw [hr] at b1; exact Option.noConfusion b1
  · rcases a3 with ⟨b1, _⟩ | ⟨j, c, b1, b2, b3, b4⟩
    · rw [hp] at b1; exact Option.noConfusion b1
    · rw [hp, Nat.zero_add] at b1
      have : p = j := Option.some.inj b1
      subst this
      exact ⟨c, old', b2, b3, b4, a2⟩

theorem scanOldest_in_range (M : FS) : ∀ (cs : List Nat) (i oldest : Nat) (pos : Option Nat),
    (∀ c ∈ cs, c < M.NodesOpenCnt.length ∧ c < M.NodesLastAccess.length) →
    ∃ r, scanOldest M cs i oldest pos = some r := by
  intro cs
  induction cs with
  | nil => intro i oldest pos _; exact ⟨pos, rfl⟩
  | cons c cs ih =>
    intro i oldest pos h
    obtain ⟨h1, h2⟩ := h c (List.mem_cons_self _ _)
    have hrest : ∀ c' ∈ cs, c' < M.NodesOpenCnt.length ∧ c' < M.NodesLastAccess.length :=
      fun c' hc' => h c' (List.mem_cons_of_mem _ hc')
    unfold scanOldest
    rw [List.get?_eq_get h1, List.get?_eq_get h2]
    simp only
    split
    · split
      · exact ih _ _ _ hrest
      · exact ih _ _ _ hrest
    · exact ih _ _ _ hrest

theorem perm_set_cons {α : Type} : ∀ (T : List α) (pos : Nat) (a b : α),
    T.get? pos = some a → (a :: T.set pos b).Perm (b :: T) := by
  intro T
  induction T with
  | nil => intro pos a b h; simp at h
  | cons x T ih =>
    intro pos a b h
    cases pos with
    | zero =>
      simp only [List.get?_cons_zero, Option.some.injEq] at h
      subst h
      exact List.Perm.swap _ _ _
    | succ pos =>
      simp only [List.get?_cons_succ] at h
      simp only [List.set_cons_succ]
      exact (List.Perm.swap _ _ _).trans (((ih pos a b h).cons x).trans (List.Perm.swap _ _ _))

theorem perm_take_last {α : Type} (L : List α) (b : α)
    (hb : L.get? (L.length - 1) = some b) : L.Perm (b :: L.take (L.length - 1)) := by
  have hlt : L.length - 1 < L.length := lt_length_of_get? hb
  have hdrop : L.drop (L.length - 1) = [b] := by
    rw [List.drop_eq_getElem_cons hlt, List.drop_eq_nil_of_le (by omega)]
    rw [List.get?_eq_getElem?, List.getElem?_eq_getElem hlt] at hb
    rw [Option.some.inj hb]
  have hsplit := List.take_append_drop (L.length - 1) L
  rw [hdrop] at hsplit
  have hp := List.perm_append_singleton b (L.take (L.length - 1))
  rw [hsplit] at hp
  exact hp

theorem removeAt_spec (M M' : FS) (pos rid : Nat) (h : removeAt M pos = some (M', rid)) :
    M.CachedNodes.get? pos = some rid ∧ M.CachedNodes.Perm (rid :: M'.CachedNodes)
      ∧ rid < M.NodesCached.length ∧ rid < M.NodesRealCached.length
      ∧ (∃ nd, M.Nodes.get? rid = some nd
          ∧ M'.CacheTotalSize = (M.CacheTotalSize + U64 - nd.Size % U64) % U64)
      ∧ M'.NodesCached = M.NodesCached.set rid false
      ∧ M'.NodesRealCached = M.NodesRealCached.set rid false
      ∧ M'.Nodes = M.Nodes ∧ M'.NodesOpenCnt = M.NodesOpenCnt
      ∧ M'.NodesLastAccess = M.NodesLastAccess := by
  unfold removeAt at h
  cases ha : M.CachedNodes.get? pos with
  | none => rw [ha] at h; exact Option.noConfusion h
  | some a =>
    cases hb : M.CachedNodes.get? (M.CachedNodes.length - 1) with
    | none => simp only [ha, hb, reduceCtorEq] at h
    | some b =>
      have hposlt := lt_length_of_get? ha
      have hlast := lt_length_of_get? hb
      have hswap : ∃ L', (if pos ≠ M.CachedNodes.length - 1
            then (M.CachedNodes.set pos b).set (M.CachedNodes.length - 1) a else M.CachedNodes) = L'
          ∧ L'.get? (M.CachedNodes.length - 1) = some a
          ∧ M.CachedNodes.Perm (a :: L'.take (M.CachedNodes.length - 1)) := by
        by_cases hp : pos = M.CachedNodes.length - 1
        · refine ⟨M.CachedNodes, by rw [if_neg (by simpa using hp)], ?_, ?_⟩
          · rw [← hp]; exact ha
          · have e : a = b := by
              rw [hp, hb] at ha; exact (Option.some.inj ha).symm
            rw [e]; exact perm_take_last _ _ hb
        · refine ⟨_, by rw [if_pos hp], ?_, ?_⟩
          · exact get?_set_self _ _ _ (by simpa using hlast)
          · rw [List.set_take, List.set_take,
              List.set_eq_of_length_le (by simp only [List.length_set, List.length_take]; omega)]
            have hT : (M.CachedNodes.take (M.CachedNodes.length - 1)).get? pos = some a := by
              rw [List.get?_eq_getElem?, List.getElem?_take_of_lt (by omega),
                ← List.get?_eq_getElem?, ha]
            exact (perm_take_last _ _ hb).trans (perm_set_cons _ pos a b hT).symm
      obtain ⟨L', e1, e2, e3⟩ := hswap
      simp only [ha, hb, e1, e2] at h
      split at h
      · rename_i hr
        cases hn : M.Nodes.get? a with
        | none => rw [hn] at h; exact Option.noConfusion h
        | some nd =>
          simp only [hn, Option.some.injEq, Prod.mk.injEq] at h
          obtain ⟨h1, h2⟩ := h
          subst h2
          rw [← h1]
          exact ⟨rfl, e3, hr.1, hr.2, ⟨nd, hn, rfl⟩, rfl, rfl, rfl, rfl, rfl⟩
      · exact Option.noConfusion h

theorem evictOne_removed (M M' : FS) (rid : Nat) (h : evictOne M = some (some (M', rid))) :
    (∃ la, Cand M rid la ∧ la < NullId ∧ ∀ c' ∈ M.CachedNodes, ∀ la', Cand M c' la' → la ≤ la')
      ∧ M.CachedNodes.Perm (rid :: M'.CachedNodes)
      ∧ rid < M.NodesCached.length ∧ rid < M.NodesRealCached.length
      ∧ (∃ nd, M.Nodes.get? rid = some nd
          ∧ M'.CacheTotalSize = (M.CacheTotalSize + U64 - nd.Size % U64) % U64)
      ∧ M'.NodesCached = M.NodesCached.set rid false
      ∧ M'.NodesRealCached = M.NodesRealCached.set rid false
      ∧ M'.Nodes = M.Nodes ∧ M'.NodesOpenCnt = M.NodesOpenCnt
      ∧ M'.NodesLastAccess = M.NodesLastAccess := by
  unfold evictOne at h
  cases hs : scanOldest M M.CachedNodes 0 NullId none with
  | none => simp only [hs, reduceCtorEq] at h
  | some r =>
    cases r with
    | none => simp only [hs, Option.some.injEq, reduceCtorEq] at h
    | some pos =>
      simp only [hs] at h
      cases hr : removeAt M pos with
      | none => simp only [hr, reduceCtorEq] at h
      | some q =>
        simp only [hr, Option.some.injEq] at h
        subst h
        obtain ⟨c, la, a1, a2, a3, a4⟩ := (scanOldest_top M _ _ hs).2 pos rfl
        obtain ⟨b1, b2⟩ := removeAt_spec M M' pos rid hr
        rw [a1] at b1
        have e : c = rid := Option.some.inj b1
        subst e
        exact ⟨⟨la, a2, a3, a4⟩, b2⟩

theorem evictOne_break (M : FS) (h : evictOne M = some none) :
    ∀ c ∈ M.CachedNodes, ∀ la, Cand M c la → NullId ≤ la := by
  unfold evictOne at h
  cases hs : scanOldest M M.CachedNodes 0 NullId none with
  | none => simp only [hs, reduceCtorEq] at h
  | some r =>
    cases r with
    | none => exact (scanOldest_top M _ _ hs).1 rfl
    | some pos =>
      simp only [hs] at h
      cases hr : removeAt M pos with
      | none => simp only [hr, reduceCtorEq] at h
      | some q => simp only [hr, Option.some.injEq, reduceCtorEq] at h

theorem evictLoop_run : ∀ (fuel : Nat) (M M' : FS) (rids : List Nat),
    evictLoop fuel M = some (M', rids) →
    EvictRun M rids M'
      ∧ (M.CachedNodes.length < fuel →
          M'.CacheTotalSize ≤ CACHE_LIMIT
            ∨ ∀ c ∈ M'.CachedNodes, ∀ la, Cand M' c la → NullId ≤ la) := by
  intro fuel
  induction fuel with
  | zero =>
    intro M M' rids h
    simp only [evictLoop, Option.some.injEq, Prod.mk.injEq] at h
    obtain ⟨h1, h2⟩ := h
    subst h1 h2
    exact ⟨EvictRun.done M, fun hlt => absurd hlt (Nat.not_lt_zero _)⟩
  | succ fuel ih =>
    intro M M' rids h
    unfold evictLoop at h
    by_cases hc : CACHE_LIMIT < M.CacheTotalSize
    · rw [if_pos hc] at h
      cases ho : evictOne M with
      | none => simp only [ho, reduceCtorEq] at h
      | some r =>
        cases r with
        | none =>
          simp only [ho, Option.some.injEq, Prod.mk.injEq] at h
          obtain ⟨h1, h2⟩ := h
          subst h1 h2
          exact ⟨EvictRun.done M, fun _ => Or.inr (evictOne_break M ho)⟩
        | some q =>
          obtain ⟨M1, rid⟩ := q
          simp only [ho] at h
          cases hl : evictLoop fuel M1 with
          | none => simp only [hl, reduceCtorEq] at h
          | some q2 =>
            obtain ⟨M2, rids2⟩ := q2
            simp only [hl, Option.some.injEq, Prod.mk.injEq] at h
            obtain ⟨h1, h2⟩ := h
            subst h1 h2
            obtain ⟨r1, r2⟩ := ih M1 M2 rids2 hl
            refine ⟨EvictRun.step M M1 M2 rid rids2 hc ho r1, fun hlt => r2 ?_⟩
            have hp := (evictOne_removed M M1 rid ho).2.1.length_eq
            simp only [List.length_cons] at hp
            omega
    · rw [if_neg hc] at h
      simp only [Option.some.injEq, Prod.mk.injEq] at h
      obtain ⟨h1, h2⟩ := h
      subst h1 h2
      exact ⟨EvictRun.done M, fun _ => Or.inl (by omega)⟩

theorem cand_congr {M M' : FS} (h1 : M'.NodesOpenCnt = M.NodesOpenCnt)
    (h2 : M'.NodesLastAccess = M.NodesLastAccess) (c la : Nat) : Cand M' c la ↔ Cand M c la := by
  unfold Cand; rw [h1, h2]

theorem nodeSize_congr {M M' : FS} (h : M'.Nodes = M.Nodes) : nodeSize M' = nodeSize M := by
  funext c; unfold nodeSize; rw [h]

theorem cacheInv_evictOne (M M' : FS) (rid : Nat) (h : evictOne M = some (some (M', rid)))
    (hinv : CacheInv M) : CacheInv M' := by
  obtain ⟨-, hperm, -, -, ⟨nd, hnd, htot⟩, hc, hrc, hn, ho, hl⟩ := evictOne_removed M M' rid h
  obtain ⟨i1, i2, i3, i4, i5, i6⟩ := hinv
  refine ⟨by rw [hc, hn, List.length_set]; exact i1, by rw [hrc, hn, List.length_set]; exact i2,
    by rw [ho, hn]; exact i3, by rw [hl, hn]; exact i4, ?_, ?_⟩
  · intro c hc'
    rw [hn]
    exact i5 c (hperm.mem_iff.2 (List.mem_cons_of_mem _ hc'))
  · have hsum := (hperm.map (nodeSize M)).sum_eq
    simp only [List.map_cons, List.sum_cons] at hsum
    have hsz : nodeSize M rid = nd.Size := by unfold nodeSize; rw [hnd]
    rw [htot, i6, nodeSize_congr hn, hsum, hsz]
    have hU : U64 = 18446744073709551616 := by decide
    rw [hU]
    omega

theorem evictRun_spec (M M' : FS) (rids : List Nat) (h : EvictRun M rids M') :
    M'.Nodes = M.Nodes ∧ M'.NodesOpenCnt = M.NodesOpenCnt
      ∧ M'.NodesLastAccess = M.NodesLastAccess
      ∧ M.CachedNodes.Perm (rids ++ M'.CachedNodes)
      ∧ (∀ before r after, rids = before ++ r :: after →
          ∃ la, Cand M r la ∧ la < NullId
            ∧ ∀ c ∈ M.CachedNodes, c ∉ before → ∀ la', Cand M c la' → la ≤ la')
      ∧ (∀ c, c ∉ rids → M'.NodesCached.get? c = M.NodesCached.get? c
          ∧ M'.NodesRealCached.get? c = M.NodesRealCached.get? c)
      ∧ (CacheInv M → CacheInv M') := by
  induction h with
  | done M =>
    refine ⟨rfl, rfl, rfl, List.Perm.refl _, ?_, fun c _ => ⟨rfl, rfl⟩, fun hi => hi⟩
    intro before r after hsplit
    have := congrArg List.length hsplit
    simp only [List.length_nil, List.length_append, List.length_cons] at this
    omega
  | step M M1 M' rid rids _ ho _ ih =>
    obtain ⟨⟨la, hcand, hla, hmin⟩, hperm, -, -, -, hcset, hrc, hn, hoc, hl⟩ :=
      evictOne_removed M M1 rid ho
    obtain ⟨j1, j2, j3, j4, j5, j6, j7⟩ := ih
    refine ⟨j1.trans hn, j2.trans hoc, j3.trans hl, ?_, ?_, ?_,
      fun hi => j7 (cacheInv_evictOne M M1 rid ho hi)⟩
    · exact hperm.trans (by simpa using j4.cons rid)
    · intro before r after hsplit
      cases before with
      | nil =>
        simp only [List.nil_append, List.cons.injEq] at hsplit
        rw [← hsplit.1]
        exact ⟨la, hcand, hla, fun c hc _ la' hc' => hmin c hc la' hc'⟩
      | cons b before =>
        simp only [List.cons_append, List.cons.injEq] at hsplit
        obtain ⟨la1, c1, c2, c3⟩ := j5 before r after hsplit.2
        refine ⟨la1, (cand_congr hoc hl r la1).1 c1, c2, fun c hc hnb la' hc' => ?_⟩
        have hcb : c ≠ rid := by
          intro e
          exact hnb (by rw [e, hsplit.1]; exact List.mem_cons_self _ _)
        have hc1 : c ∈ M1.CachedNodes := by
          rcases List.mem_cons.1 (hperm.mem_iff.1 hc) with e | e
          · exact absurd e hcb
          · exact e
        exact c3 c hc1 (fun hb => hnb (List.mem_cons_of_mem _ hb)) la'
          ((cand_congr hoc hl c la').2 hc')
    · intro c hc
      have hcr : rid ≠ c := fun e => hc (by rw [e]; exact List.mem_cons_self _ _)
      obtain ⟨k1, k2⟩ := j6 c (fun hm => hc (List.mem_cons_of_mem _ hm))
      rw [k1, k2, hcset, hrc]
      exact ⟨get?_set_ne' _ _ _ _ hcr, get?_set_ne' _ _ _ _ hcr⟩

theorem cacheTrace_cases (now : Nat) (M : FS) (id : Nat) (r : FS × List Nat × Bool)
    (h : cacheTrace now M id = some r) :
    (M.NodesCached.get? id = some true ∧ r.2.1 = [] ∧ r.2.2 = false
        ∧ id < M.NodesLastAccess.length
        ∧ r.1 = { M with NodesLastAccess := M.NodesLastAccess.set id (now % U64) })
      ∨ (M.NodesCached.get? id = some false ∧ r.2.2 = true
        ∧ ∃ M1 nd, evictLoop (M.CachedNodes.length + 1) M = some (M1, r.2.1)
          ∧ M1.Nodes.get? id = some nd ∧ id < M1.NodesCached.length
          ∧ id < M1.NodesLastAccess.length
          ∧ r.1 = { M1 with
                    NodesCached := M1.NodesCached.set id true
                    CachedNodes := M1.CachedNodes ++ [id]
                    CacheTotalSize := (M1.CacheTotalSize + nd.Size) % U64
                    NodesLastAccess := M1.NodesLastAccess.set id (now % U64) }) := by
  unfold cacheTrace at h
  cases hc : M.NodesCached.get? id with
  | none => simp only [hc, reduceCtorEq] at h
  | some b =>
    cases b with
    | true =>
      by_cases hlt : id < M.NodesLastAccess.length
      · simp only [hc, setLastAccess, hlt, if_true, Option.some.injEq] at h
        rw [← h]
        exact Or.inl ⟨rfl, rfl, rfl, hlt, rfl⟩
      · simp only [hc, setLastAccess, hlt, if_false, reduceCtorEq] at h
    | false =>
      simp only [hc] at h
      cases hl : evictLoop (M.CachedNodes.length + 1) M with
      | none => simp only [hl, reduceCtorEq] at h
      | some q =>
        obtain ⟨M1, rids⟩ := q
        simp only [hl] at h
        cases hn : M1.Nodes.get? id with
        | none => simp only [hn, reduceCtorEq] at h
        | some nd =>
          by_cases hlt : id < M1.NodesCached.length
          · by_cases hlt2 : id < M1.NodesLastAccess.length
            · simp only [hn, setLastAccess, hlt, hlt2, if_true, Option.some.injEq] at h
              rw [← h]
              exact Or.inr ⟨rfl, rfl, M1, nd, rfl, hn, hlt, hlt2, rfl⟩
            · simp only [hn, setLastAccess, hlt, hlt2, if_true, if_false, reduceCtorEq] at h
          · simp only [hn, hlt, if_false, reduceCtorEq] at h

/-- C10: whenever `cache` removes entries, each removed block was in `CachedNodes` with open
count 0 and, at the moment of its removal, its last access was no later than that of every
cached block with open count 0 that was still in the cache; a block whose open count is not
0 is not removed, stays in `CachedNodes` and keeps its two cached flags; `cache` does not
change any open count; when no cached block has open count 0 nothing is removed. -/
theorem eviction_safety (now : Nat) (M : FS) (id : Nat) (r : FS × List Nat × Bool)
    (h : cacheTrace now M id = some r) :
    r.1.NodesOpenCnt = M.NodesOpenCnt
      ∧ (∀ before x after, r.2.1 = before ++ x :: after →
          x ∈ M.CachedNodes ∧ M.NodesOpenCnt.get? x = some 0
            ∧ ∃ la, M.NodesLastAccess.get? x = some la
              ∧ ∀ c ∈ M.CachedNodes, c ∉ before → M.NodesOpenCnt.get? c = some 0 →
                  ∀ la', M.NodesLastAccess.get? c = some la' → la ≤ la')
      ∧ (∀ c, M.NodesOpenCnt.get? c ≠ some 0 →
          c ∉ r.2.1 ∧ (c ∈ M.CachedNodes → c ∈ r.1.CachedNodes)
            ∧ (M.NodesCached.get? c = some true → r.1.NodesCached.get? c = some true)
            ∧ (M.NodesRealCached.get? c = some true → r.1.NodesRealCached.get? c = some true))
      ∧ ((∀ c ∈ M.CachedNodes, M.NodesOpenCnt.get? c ≠ some 0) → r.2.1 = []) := by
  rcases cacheTrace_cases now M id r h with ⟨-, h2, -, -, h5⟩ | ⟨-, -, M1, nd, hl, -, hlt, -, h5⟩
  · rw [h2, h5]
    refine ⟨rfl, ?_, fun c _ => ⟨List.not_mem_nil c, fun hc => hc, fun hc => hc, fun hc => hc⟩,
      fun _ => rfl⟩
    intro before x after hsplit
    have := congrArg List.length hsplit
    simp only [List.length_nil, List.length_append, List.length_cons] at this
    omega
  · obtain ⟨hrun, -⟩ := evictLoop_run _ M M1 r.2.1 hl
    obtain ⟨j1, j2, j3, j4, j5, j6, -⟩ := evictRun_spec M M1 r.2.1 hrun
    have hrem : ∀ x ∈ r.2.1, x ∈ M.CachedNodes ∧ M.NodesOpenCnt.get? x = some 0 := by
      intro x hx
      obtain ⟨before, after, hsplit⟩ := List.append_of_mem hx
      obtain ⟨la, hc, -, -⟩ := j5 before x after hsplit
      exact ⟨j4.mem_iff.2 (List.mem_append_left _ hx), hc.1⟩
    rw [h5]
    refine ⟨j2, ?_, ?_, ?_⟩
    · intro before x after hsplit
      obtain ⟨la, hc, -, hmin⟩ := j5 before x after hsplit
      refine ⟨(hrem x (by rw [hsplit]; simp)).1, hc.1, la, hc.2, ?_⟩
      intro c hc1 hc2 hc3 la' hc4
      exact hmin c hc1 hc2 la' ⟨hc3, hc4⟩
    · intro c hpin
      have hnot : c ∉ r.2.1 := fun hx => hpin (hrem c hx).2
      obtain ⟨k1, k2⟩ := j6 c hnot
      refine ⟨hnot, fun hc => ?_, fun hc => ?_, fun hc => ?_⟩
      · rcases List.mem_append.1 (j4.mem_iff.1 hc) with e | e
        · exact absurd e hnot
        · exact List.mem_append_left _ e
      · show (M1.NodesCached.set id true).get? c = some true
        by_cases e : id = c
        · rw [← e]; exact get?_set_self _ _ _ hlt
        · rw [get?_set_ne' _ _ _ _ e, k1, hc]
      · show M1.NodesRealCached.get? c = some true
        rw [k2, hc]
    · intro hall
      cases hr : r.2.1 with
      | nil => rfl
      | cons x xs =>
        have hx := hrem x (by rw [hr]; exact List.mem_cons_self _ _)
        exact absurd hx.2 (hall x hx.1)

theorem cacheTrace_pinnedCache : cacheTrace 4 pinnedCache 3 = some evictedTrace := by
  have h : (cacheTrace 4 pinnedCache 3).isSome = true := by decide
  unfold evictedTrace
  cases hc : cacheTrace 4 pinnedCache 3 with
  | none => rw [hc] at h; exact absurd h (by decide)
  | some r => rfl

/-- Instance of `eviction_safety` at `cache(3)` in `pinnedCache`, where the total is 1.5 TiB
and block 0 is open: block 1, the least recently used of the others, is the one removed. -/
theorem eviction_safety_witness :
    cacheTrace 4 pinnedCache 3 = some evictedTrace ∧ evictedTrace.2.1 = [1]
      ∧ pinnedCache.NodesOpenCnt = [1, 0, 0, 0] ∧ pinnedCache.CachedNodes = [0, 1, 2]
      ∧ evictedTrace.1.CachedNodes = [0, 2, 3]
      ∧ evictedTrace.1.NodesOpenCnt = pinnedCache.NodesOpenCnt
      ∧ (∀ before x after, evictedTrace.2.1 = before ++ x :: after →
          x ∈ pinnedCache.CachedNodes ∧ pinnedCache.NodesOpenCnt.get? x = some 0
            ∧ ∃ la, pinnedCache.NodesLastAccess.get? x = some la
              ∧ ∀ c ∈ pinnedCache.CachedNodes, c ∉ before →
                  pinnedCache.NodesOpenCnt.get? c = some 0 →
                  ∀ la', pinnedCache.NodesLastAccess.get? c = some la' → la ≤ la')
      ∧ (∀ c, pinnedCache.NodesOpenCnt.get? c ≠ some 0 →
          c ∉ evictedTrace.2.1 ∧ (c ∈ pinnedCache.CachedNodes → c ∈ evictedTrace.1.CachedNodes)
            ∧ (pinnedCache.NodesCached.get? c = some true →
                evictedTrace.1.NodesCached.get? c = some true)
            ∧ (pinnedCache.NodesRealCached.get? c = some true →
                evictedTrace.1.NodesRealCached.get? c = some true))
      ∧ ((∀ c ∈ pinnedCache.CachedNodes, pinnedCache.NodesOpenCnt.get? c ≠ some 0) →
          evictedTrace.2.1 = []) :=
  ⟨cacheTrace_pinnedCache, by decide, by decide, by decide, by decide,
    eviction_safety 4 pinnedCache 3 evictedTrace cacheTrace_pinnedCache⟩

theorem emptyCache_inv (M : FS) (h : EmptyCache M) : CacheInv M := by
  obtain ⟨h1, h2, h3, h4, h5, h6⟩ := h
  refine ⟨by rw [h3, List.length_replicate], by rw [h4, List.length_replicate],
    by rw [h5, List.length_replicate], h6, ?_, ?_⟩
  · intro c hc
    rw [h1] at hc
    exact absurd hc (List.not_mem_nil c)
  · rw [h1, h2]
    rfl

theorem cacheInv_cacheTrace (now : Nat) (M : FS) (id : Nat) (r : FS × List Nat × Bool)
    (h : cacheTrace now M id = some r) (hinv : CacheInv M) : CacheInv r.1 := by
  rcases cacheTrace_cases now M id r h with ⟨-, -, -, -, h5⟩ | ⟨-, -, M1, nd, hl, hn, -, -, h5⟩
  · obtain ⟨i1, i2, i3, i4, i5, i6⟩ := hinv
    rw [h5]
    exact ⟨i1, i2, i3, by rw [← i4]; exact List.length_set _ _ _, i5, i6⟩
  · obtain ⟨hrun, -⟩ := evictLoop_run _ M M1 r.2.1 hl
    obtain ⟨-, -, -, -, -, -, j7⟩ := evictRun_spec M M1 r.2.1 hrun
    obtain ⟨i1, i2, i3, i4, i5, i6⟩ := j7 hinv
    have hid : id < M1.Nodes.length := lt_length_of_get? hn
    have hsz : nodeSize M1 id = nd.Size := by unfold nodeSize; rw [hn]
    rw [h5]
    refine ⟨by rw [← i1]; exact List.length_set _ _ _, i2, i3,
      by rw [← i4]; exact List.length_set _ _ _, ?_, ?_⟩
    · intro c hc
      rcases List.mem_append.1 hc with e | e
      · exact i5 c e
      · rw [List.mem_singleton.1 e]; exact hid
    · show (M1.CacheTotalSize + nd.Size) % U64
        = ((M1.CachedNodes ++ [id]).map (nodeSize M1)).sum % U64
      rw [List.map_append, List.sum_append, i6, List.map_singleton, List.sum_singleton, hsz,
        Nat.mod_add_mod]

theorem cacheInv_step (M M' : FS) (h : CacheStep M M') (hinv : CacheInv M) : CacheInv M' := by
  cases h with
  | touch now id h =>
    unfold cache at h
    cases hc : cacheTrace now M id with
    | none => rw [hc] at h; exact Option.noConfusion h
    | some r =>
      rw [hc] at h
      have e : r.1 = M' := Option.some.inj h
      rw [← e]
      exact cacheInv_cacheTrace now M id r hc hinv
  | «open» now id h =>
    unfold getNodeFile cache at h
    cases hc : cacheTrace now M id with
    | none => rw [hc] at h; exact Option.noConfusion h
    | some r =>
      rw [hc] at h
      obtain ⟨i1, i2, i3, i4, i5, i6⟩ := cacheInv_cacheTrace now M id r hc hinv
      cases ho : r.1.NodesOpenCnt.get? id with
      | none => simp only [Option.map_some', ho, reduceCtorEq] at h
      | some cnt =>
        simp only [Option.map_some', ho, Option.some.injEq] at h
        rw [← h]
        exact ⟨i1, i2, by rw [← i3]; exact List.length_set _ _ _, i4, i5, i6⟩
  | close id h =>
    unfold closeNodeFile at h
    obtain ⟨i1, i2, i3, i4, i5, i6⟩ := hinv
    cases ho : M.NodesOpenCnt.get? id with
    | none => simp only [ho, reduceCtorEq] at h
    | some cnt =>
      simp only [ho, Option.some.injEq] at h
      rw [← h]
      exact ⟨i1, i2, by rw [← i3]; exact List.length_set _ _ _, i4, i5, i6⟩
  | downloaded id h =>
    unfold realCacheDone at h
    obtain ⟨i1, i2, i3, i4, i5, i6⟩ := hinv
    by_cases hlt : id < M.NodesRealCached.length
    · simp only [hlt, if_true, Option.some.injEq] at h
      rw [← h]
      exact ⟨i1, by rw [← i2]; exact List.length_set _ _ _, i3, i4, i5, i6⟩
    · simp only [hlt, if_false, reduceCtorEq] at h

theorem cacheReachable_inv (M : FS) (h : CacheReachable M) : CacheInv M := by
  induction h with
  | empty M h => exact emptyCache_inv M h
  | step M M' _ hs ih => exact cacheInv_step M M' hs ih

theorem map_range_set {α : Type} (f g : Nat → α) (n j : Nat) (a : α) (hj : g j = a)
    (hg : ∀ i, i ≠ j → g i = f i) :
    ((List.range n).map f).set j a = (List.range n).map g := by
  apply List.ext_getElem?
  intro i
  by_cases e : j = i
  · subst e
    by_cases hlt : j < n
    · rw [List.getElem?_set_self (by simpa using hlt), List.getElem?_map,
        List.getElem?_range hlt, Option.map_some', hj]
    · have h1 : ((List.range n).map f).set j a = (List.range n).map f := by
        apply List.set_eq_of_length_le
        simpa using Nat.le_of_not_lt hlt
      rw [h1, List.getElem?_eq_none (by simpa using Nat.le_of_not_lt hlt),
        List.getElem?_eq_none (by simpa using Nat.le_of_not_lt hlt)]
  · rw [List.getElem?_set_ne e, List.getElem?_map, List.getElem?_map]
    by_cases hlt : i < n
    · rw [List.getElem?_range hlt, Option.map_some', Option.map_some', hg i (Ne.symm e)]
    · rw [List.getElem?_eq_none (by simpa using Nat.le_of_not_lt hlt)]
      rfl

theorem get?_mem_of_lt {α : Type} (l : List α) (i : Nat) (h : i < l.length) :
    ∃ a, l.get? i = some a ∧ a ∈ l :=
  ⟨l.get ⟨i, h⟩, List.get?_eq_get h, List.get_mem l i h⟩

theorem evictLoop_below (fuel : Nat) (M : FS) (h : M.CacheTotalSize ≤ CACHE_LIMIT) :
    evictLoop fuel M = some (M, []) := by
  cases fuel with
  | zero => rfl
  | succ k =>
    unfold evictLoop
    rw [if_neg (Nat.not_lt.2 h)]

theorem cache_touchedCache (n size j : Nat) (hj : j < n) (hlim : j * size ≤ CACHE_LIMIT)
    (hsz : (j + 1) * size < U64) (hnow : j + 1 < U64) :
    cache (j + 1) (touchedCache n size j) j = some (touchedCache n size (j + 1)) := by
  have h1 : (touchedCache n size j).NodesCached.get? j = some false := by
    show ((List.range n).map (fun i => decide (i < j))).get? j = some false
    rw [List.get?_eq_getElem?, List.getElem?_map, List.getElem?_range hj, Option.map_some']
    simp
  have h2 : evictLoop ((touchedCache n size j).CachedNodes.length + 1) (touchedCache n size j)
      = some (touchedCache n size j, []) := evictLoop_below _ _ hlim
  have h3 : (touchedCache n size j).Nodes.get? j = some { Size := size, Source := [0x73] } := by
    show (List.replicate n (Node.mk size [0x73])).get? j = some _
    rw [List.get?_eq_getElem?, List.getElem?_replicate, if_pos hj]
  have h4 : j < (touchedCache n size j).NodesCached.length := by
    show j < ((List.range n).map (fun i => decide (i < j))).length
    rw [List.length_map, List.length_range]; exact hj
  have h5 : j < (touchedCache n size j).NodesLastAccess.length := by
    show j < ((List.range n).map (fun i => if i < j then i + 1 else 0)).length
    rw [List.length_map, List.length_range]; exact hj
  have e1 : ((List.range n).map (fun i => decide (i < j))).set j true
      = (List.range n).map (fun i => decide (i < j + 1)) :=
    map_range_set _ _ n j true (by simp) (fun i hi => by
      have : (i < j + 1) = (i < j) := propext ⟨fun h => by omega, fun h => by omega⟩
      simp only [this])
  have e2 : ((List.range n).map (fun i => if i < j then i + 1 else 0)).set j ((j + 1) % U64)
      = (List.range n).map (fun i => if i < j + 1 then i + 1 else 0) :=
    map_range_set _ _ n j _ (by rw [if_pos (Nat.lt_succ_self j), Nat.mod_eq_of_lt hnow])
      (fun i hi => by
        by_cases c : i < j
        · rw [if_pos c, if_pos (by omega)]
        · rw [if_neg c, if_neg (by omega)])
  have e3 : (j * size + size) % U64 = (j + 1) * size := by
    rw [← Nat.succ_mul]; exact Nat.mod_eq_of_lt hsz
  unfold cache cacheTrace
  rw [h1]
  simp only [h2, h3, h4, if_true, setLastAccess]
  rw [if_pos h5]
  simp only [Option.map_some', touchedCache, e1, e2, e3, List.range_succ]

theorem touchedCache_zero (n size : Nat) : touchedCache n size 0 = uniformCache n size := by
  have e1 : (List.range n).map (fun i => decide (i < 0)) = List.replicate n false := by
    apply List.ext_getElem?
    intro i
    by_cases h : i < n
    · rw [List.getElem?_map, List.getElem?_range h, List.getElem?_replicate, if_pos h]
      simp
    · rw [List.getElem?_eq_none (by simpa using Nat.le_of_not_lt h),
        List.getElem?_eq_none (by simpa using Nat.le_of_not_lt h)]
  have e2 : (List.range n).map (fun i => if i < 0 then i + 1 else 0) = List.replicate n 0 := by
    apply List.ext_getElem?
    intro i
    by_cases h : i < n
    · rw [List.getElem?_map, List.getElem?_range h, List.getElem?_replicate, if_pos h]
      simp
    · rw [List.getElem?_eq_none (by simpa using Nat.le_of_not_lt h),
        List.getElem?_eq_none (by simpa using Nat.le_of_not_lt h)]
  simp only [touchedCache, e1, e2, List.range_zero, Nat.zero_mul]
  rfl

theorem touchFirst_uniform (n size : Nat) : ∀ j : Nat, j ≤ n → j * size < U64 → j < U64 →
    (∀ i, i < j → i * size ≤ CACHE_LIMIT) →
    touchFirst j (uniformCache n size) = some (touchedCache n size j) := by
  intro j
  induction j with
  | zero =>
    intro _ _ _ _
    rw [touchedCache_zero]
    rfl
  | succ k ih =>
    intro hk hsz hnow hlim
    have hle : k * size ≤ (k + 1) * size := Nat.mul_le_mul_right _ (Nat.le_succ k)
    have hprev := ih (Nat.le_of_succ_le hk) (Nat.lt_of_le_of_lt hle hsz)
      (Nat.lt_of_succ_lt hnow) (fun i hi => hlim i (Nat.lt_succ_of_lt hi))
    unfold touchFirst
    rw [hprev]
    exact cache_touchedCache n size k hk (hlim k (Nat.lt_succ_self k)) hsz hnow

theorem touchFirst_reachable : ∀ (k : Nat) (M M' : FS), CacheReachable M →
    touchFirst k M = some M' → CacheReachable M' := by
  intro k
  induction k with
  | zero =>
    intro M M' hr h
    have e : M = M' := Option.some.inj h
    rw [← e]; exact hr
  | succ k ih =>
    intro M M' hr h
    unfold touchFirst at h
    cases hp : touchFirst k M with
    | none => rw [hp] at h; exact Option.noConfusion h
    | some M1 =>
      rw [hp] at h
      exact CacheReachable.step M1 M' (ih M M1 hr hp) (CacheStep.touch M1 M' (k + 1) k h)

theorem uniformCache_empty (n size : Nat) : EmptyCache (uniformCache n size) := by
  refine ⟨rfl, rfl, ?_, ?_, ?_, ?_⟩
  · show List.replicate n false = List.replicate (List.replicate n _).length false
    rw [List.length_replicate]
  · show List.replicate n false = List.replicate (List.replicate n _).length false
    rw [List.length_replicate]
  · show List.replicate n 0 = List.replicate (List.replicate n _).length 0
    rw [List.length_replicate]
  · show (List.replicate n 0).length = (List.replicate n _).length
    rw [List.length_replicate, List.length_replicate]

theorem touchedCache_reachable (n size j : Nat) (hj : j ≤ n) (hsz : j * size < U64)
    (hnow : j < U64) (hlim : ∀ i, i < j → i * size ≤ CACHE_LIMIT) :
    CacheReachable (touchedCache n size j) :=
  touchFirst_reachable j _ _ (CacheReachable.empty _ (uniformCache_empty n size))
    (touchFirst_uniform n size j hj hsz hnow hlim)

theorem touchedCache_total (n size j : Nat) : (touchedCache n size j).CacheTotalSize = j * size :=
  rfl

theorem touchedCache_openCnt (n size j : Nat) :
    (touchedCache n size j).NodesOpenCnt = List.replicate n 0 :=
  rfl

/-- C9 (as stated) fails: after `preCache(0)`, ..., `preCache(2048)` on 2049 blocks of
`MAX_BLOCK_SIZE` bytes no block is open, nothing was removed (the loop of `cache` runs before
the new block is counted) and `CacheTotalSize` is `CACHE_LIMIT + MAX_BLOCK_SIZE`. -/
theorem cache_total_exceeds_limit :
    ¬ ∀ M, CacheReachable M → (∀ cnt ∈ M.NodesOpenCnt, cnt = 0) →
        M.CacheTotalSize ≤ CACHE_LIMIT := by
  intro h
  have hreach : CacheReachable (touchedCache 2049 MAX_BLOCK_SIZE 2049) := by
    apply touchedCache_reachable 2049 MAX_BLOCK_SIZE 2049 (Nat.le_refl _)
    · unfold MAX_BLOCK_SIZE U64; norm_num
    · unfold U64; norm_num
    · intro i hi
      unfold MAX_BLOCK_SIZE CACHE_LIMIT
      omega
  have hq : ∀ cnt ∈ (touchedCache 2049 MAX_BLOCK_SIZE 2049).NodesOpenCnt, cnt = 0 := by
    intro cnt hc
    rw [touchedCache_openCnt] at hc
    exact List.eq_of_mem_replicate hc
  have hle := h _ hreach hq
  rw [touchedCache_total] at hle
  unfold MAX_BLOCK_SIZE CACHE_LIMIT at hle
  omega

/-- C9 (amended): in a cache state reachable from the empty cache in which every open count
is 0 and every last-access stamp is below `NullId`, a `cache(id)` of a block that is not
cached leaves `CacheTotalSize` at most `CACHE_LIMIT` plus the size of block `id`; the new
total is the sum of the sizes of the cached blocks (as a `uint64`) and every open count is
still 0. -/
theorem cache_bound_after_touch (now : Nat) (M M' : FS) (id : Nat)
    (hreach : CacheReachable M)
    (hq : ∀ cnt ∈ M.NodesOpenCnt, cnt = 0)
    (hla : ∀ la ∈ M.NodesLastAccess, la < NullId)
    (hnc : M.NodesCached.get? id = some false)
    (h : cache now M id = some M') :
    M'.CacheTotalSize ≤ CACHE_LIMIT + nodeSize M id
      ∧ M'.CacheTotalSize = (M'.CachedNodes.map (nodeSize M')).sum % U64
      ∧ (∀ cnt ∈ M'.NodesOpenCnt, cnt = 0) := by
  have hinv := cacheReachable_inv M hreach
  unfold cache at h
  cases hc : cacheTrace now M id with
  | none => rw [hc] at h; exact Option.noConfusion h
  | some r =>
    rw [hc] at h
    have e : r.1 = M' := Option.some.inj h
    have hinv' := cacheInv_cacheTrace now M id r hc hinv
    rw [e] at hinv'
    rcases cacheTrace_cases now M id r hc with ⟨h1, -⟩ | ⟨-, -, M1, nd, hl, hn, -, -, h5⟩
    · rw [h1] at hnc
      exact absurd (Option.some.inj hnc) (by decide)
    · obtain ⟨hrun, hexit⟩ := evictLoop_run _ M M1 r.2.1 hl
      obtain ⟨j1, j2, j3, -, -, -, j7⟩ := evictRun_spec M M1 r.2.1 hrun
      obtain ⟨-, -, i3, i4, i5, i6⟩ := j7 hinv
      have hsz : nodeSize M id = nd.Size := by unfold nodeSize; rw [← j1, hn]
      have hM1 : M1.CacheTotalSize ≤ CACHE_LIMIT := by
        rcases hexit (Nat.lt_succ_self _) with hle | hnone
        · exact hle
        · cases hcn : M1.CachedNodes with
          | nil =>
            rw [i6, hcn]
            exact Nat.zero_le _
          | cons c cs =>
            have hmem : c ∈ M1.CachedNodes := by rw [hcn]; exact List.mem_cons_self _ _
            have hlt := i5 c hmem
            obtain ⟨cnt, g1, g2⟩ := get?_mem_of_lt M1.NodesOpenCnt c (by rw [i3]; exact hlt)
            obtain ⟨la, g3, g4⟩ := get?_mem_of_lt M1.NodesLastAccess c (by rw [i4]; exact hlt)
            rw [j2] at g2
            rw [j3] at g4
            have hcand : Cand M1 c la := ⟨by rw [g1, hq cnt g2], g3⟩
            exact absurd (hla la g4) (Nat.not_lt.2 (hnone c hmem la hcand))
      have htot : M'.CacheTotalSize = (M1.CacheTotalSize + nd.Size) % U64 := by
        rw [← e, h5]
      have hoc : M'.NodesOpenCnt = M.NodesOpenCnt := by
        rw [← e, h5]; exact j2
      refine ⟨?_, hinv'.2.2.2.2.2, by rw [hoc]; exact hq⟩
      rw [htot, hsz]
      exact Nat.le_trans (Nat.mod_le _ _) (Nat.add_le_add_right hM1 _)

theorem cache_fourth_touch :
    cache 4 (touchedCache 4 549755813888 3) 3 = some afterFourthTouch := by
  have h : (cache 4 (touchedCache 4 549755813888 3) 3).isSome = true := by decide
  unfold afterFourthTouch
  cases hc : cache 4 (touchedCache 4 549755813888 3) 3 with
  | none => rw [hc] at h; exact absurd h (by decide)
  | some r => rfl

/-- Instance of `cache_bound_after_touch`: with three blocks of 512 GiB cached (1.5 TiB) and
none open, `cache(3)` removes block 0 and the total is again 1.5 TiB, which is `CACHE_LIMIT`
plus the size of block 3. -/
theorem cache_bound_after_touch_witness :
    cache 4 (touchedCache 4 549755813888 3) 3 = some afterFourthTouch
      ∧ (touchedCache 4 549755813888 3).CacheTotalSize = 1649267441664
      ∧ afterFourthTouch.CachedNodes = [2, 1, 3]
      ∧ afterFourthTouch.CacheTotalSize ≤ CACHE_LIMIT + nodeSize (touchedCache 4 549755813888 3) 3
      ∧ afterFourthTouch.CacheTotalSize
          = (afterFourthTouch.CachedNodes.map (nodeSize afterFourthTouch)).sum % U64
      ∧ (∀ cnt ∈ afterFourthTouch.NodesOpenCnt, cnt = 0) :=
  ⟨cache_fourth_touch, by decide, by decide,
    cache_bound_after_touch 4 (touchedCache 4 549755813888 3) afterFourthTouch 3
      (touchedCache_reachable 4 549755813888 3 (by decide) (by unfold U64; norm_num)
        (by unfold U64; norm_num) (fun i hi => by unfold CACHE_LIMIT; omega))
      (by decide) (by decide) (by decide) cache_fourth_touch⟩

/-! ## Single fetch -/

theorem cacheTrace_flags (now : Nat) (M : FS) (id : Nat) (r : FS × List Nat × Bool)
    (h : cacheTrace now M id = some r) :
    (r.2.2 = true ↔ M.NodesCached.get? id = some false)
      ∧ r.1.NodesCached.get? id = some true
      ∧ (M.NodesCached.get? id = some true →
          r.2.1 = [] ∧ r.1 = { M with NodesLastAccess := M.NodesLastAccess.set id (now % U64) })
      ∧ (∀ c, c ∉ r.2.1 → M.NodesCached.get? c = some true →
          r.1.NodesCached.get? c = some true) := by
  rcases cacheTrace_cases now M id r h with
    ⟨h1, h2, h3, -, h5⟩ | ⟨h1, h2, M1, nd, hl, -, hlt, -, h5⟩
  · refine ⟨?_, by rw [h5]; exact h1, fun _ => ⟨h2, h5⟩, fun c _ hc => by rw [h5]; exact hc⟩
    rw [h3, h1]
    exact ⟨fun e => Bool.noConfusion e, fun e => Bool.noConfusion (Option.some.inj e)⟩
  · obtain ⟨hrun, -⟩ := evictLoop_run _ M M1 r.2.1 hl
    obtain ⟨-, -, -, -, -, j6, -⟩ := evictRun_spec M M1 r.2.1 hrun
    refine ⟨⟨fun _ => h1, fun _ => h2⟩, ?_, ?_, ?_⟩
    · rw [h5]; exact get?_set_self _ _ _ hlt
    · intro hc
      rw [h1] at hc
      exact Bool.noConfusion (Option.some.inj hc)
    · intro c hc hct
      rw [h5]
      show (M1.NodesCached.set id true).get? c = some true
      by_cases e : id = c
      · rw [← e]; exact get?_set_self _ _ _ hlt
      · rw [get?_set_ne' _ _ _ _ e, (j6 c hc).1, hct]

theorem opTrace_flags (M M1 : FS) (op : CacheOp) (e : CacheEvent) (id : Nat)
    (h : opTrace M op = some (M1, e)) :
    (e.started = some id →
        M.NodesCached.get? id = some false ∧ M1.NodesCached.get? id = some true)
      ∧ (id ∉ e.removed → M.NodesCached.get? id = some true →
          M1.NodesCached.get? id = some true) := by
  cases op with
  | preCache now x =>
    simp only [opTrace] at h
    cases hc : cacheTrace now M x with
    | none => rw [hc] at h; exact Option.noConfusion h
    | some r =>
      rw [hc] at h
      obtain ⟨f1, f2, -, f4⟩ := cacheTrace_flags now M x r hc
      have hh := Option.some.inj h
      have hM : r.1 = M1 := congrArg Prod.fst hh
      have he : e = { removed := r.2.1, started := if r.2.2 then some x else none } :=
        (congrArg Prod.snd hh).symm
      rw [he, ← hM]
      refine ⟨fun hs => ?_, fun hr hc' => f4 id hr hc'⟩
      cases hd : r.2.2 with
      | false => rw [hd] at hs; exact Option.noConfusion hs
      | true =>
        rw [hd] at hs
        have hx : x = id := Option.some.inj hs
        rw [← hx]
        exact ⟨f1.1 hd, f2⟩
  | getNodeFile now x =>
    simp only [opTrace] at h
    cases hc : cacheTrace now M x with
    | none => rw [hc] at h; exact Option.noConfusion h
    | some r =>
      rw [hc] at h
      obtain ⟨f1, f2, -, f4⟩ := cacheTrace_flags now M x r hc
      cases ho : r.1.NodesOpenCnt.get? x with
      | none => simp only [ho, reduceCtorEq] at h
      | some cnt =>
        simp only [ho] at h
        have hh := Option.some.inj h
        have hM : M1.NodesCached = r.1.NodesCached :=
          (congrArg (fun q => q.1.NodesCached) hh).symm
        have he : e = { removed := r.2.1, started := if r.2.2 then some x else none } :=
          (congrArg Prod.snd hh).symm
        rw [he, hM]
        refine ⟨fun hs => ?_, fun hr hc' => f4 id hr hc'⟩
        cases hd : r.2.2 with
        | false => rw [hd] at hs; exact Option.noConfusion hs
        | true =>
          rw [hd] at hs
          have hx : x = id := Option.some.inj hs
          rw [← hx]
          exact ⟨f1.1 hd, f2⟩
  | closeNodeFile x =>
    simp only [opTrace, closeNodeFile] at h
    cases ho : M.NodesOpenCnt.get? x with
    | none => simp only [ho, reduceCtorEq] at h
    | some cnt =>
      simp only [ho] at h
      have hh := Option.some.inj h
      have hM : M1.NodesCached = M.NodesCached :=
          (congrArg (fun q => q.1.NodesCached) hh).symm
      have he : e = { removed := [], started := none } := (congrArg Prod.snd hh).symm
      rw [he, hM]
      exact ⟨fun hs => Option.noConfusion hs, fun _ hc' => hc'⟩
  | realCacheDone x =>
    simp only [opTrace, realCacheDone] at h
    by_cases hlt : x < M.NodesRealCached.length
    · simp only [hlt, if_true] at h
      have hh := Option.some.inj h
      have hM : M1.NodesCached = M.NodesCached :=
          (congrArg (fun q => q.1.NodesCached) hh).symm
      have he : e = { removed := [], started := none } := (congrArg Prod.snd hh).symm
      rw [he, hM]
      exact ⟨fun hs => Option.noConfusion hs, fun _ hc' => hc'⟩
    · simp only [hlt, if_false, reduceCtorEq] at h

theorem runOps_cons (M M' : FS) (op : CacheOp) (ops : List CacheOp) (es : List CacheEvent)
    (h : runOps M (op :: ops) = some (M', es)) :
    ∃ M1 e es1, opTrace M op = some (M1, e) ∧ runOps M1 ops = some (M', es1)
      ∧ es = e :: es1 := by
  unfold runOps at h
  cases h1 : opTrace M op with
  | none => rw [h1] at h; exact Option.noConfusion h
  | some q =>
    obtain ⟨M1, e⟩ := q
    rw [h1] at h
    cases h2 : runOps M1 ops with
    | none => simp only [h2, reduceCtorEq] at h
    | some q2 =>
      obtain ⟨M2, es1⟩ := q2
      simp only [h2] at h
      have hh := Option.some.inj h
      have e1 : M2 = M' := congrArg Prod.fst hh
      exact ⟨M1, e, es1, rfl, by rw [← e1]; exact h2, (congrArg Prod.snd hh).symm⟩

theorem runOps_cached (id : Nat) : ∀ (ops : List CacheOp) (M M' : FS) (es : List CacheEvent),
    runOps M ops = some (M', es) → M.NodesCached.get? id = some true →
    (∀ e ∈ es, id ∉ e.removed) → downloadsOf id es = 0 := by
  intro ops
  induction ops with
  | nil =>
    intro M M' es h _ _
    have hh : ([] : List CacheEvent) = es := congrArg Prod.snd (Option.some.inj h)
    rw [← hh]
    rfl
  | cons op ops ih =>
    intro M M' es h hc hrem
    obtain ⟨M1, e, es1, h1, h2, h3⟩ := runOps_cons M M' op ops es h
    obtain ⟨f1, f2⟩ := opTrace_flags M M1 op e id h1
    rw [h3] at hrem ⊢
    have hne : e.started ≠ some id := by
      intro hs
      have := (f1 hs).1
      rw [hc] at this
      exact Bool.noConfusion (Option.some.inj this)
    have hrest := ih M1 M' es1 h2 (f2 (hrem e (List.mem_cons_self _ _)) hc)
      (fun e' he' => hrem e' (List.mem_cons_of_mem _ he'))
    unfold downloadsOf at hrest ⊢
    rw [List.filter_cons_of_neg (by simpa using hne)]
    exact hrest

theorem runOps_single (id : Nat) : ∀ (ops : List CacheOp) (M M' : FS) (es : List CacheEvent),
    runOps M ops = some (M', es) → (∀ e ∈ es, id ∉ e.removed) → downloadsOf id es ≤ 1 := by
  intro ops
  induction ops with
  | nil =>
    intro M M' es h _
    have hh : ([] : List CacheEvent) = es := congrArg Prod.snd (Option.some.inj h)
    rw [← hh]
    exact Nat.zero_le _
  | cons op ops ih =>
    intro M M' es h hrem
    obtain ⟨M1, e, es1, h1, h2, h3⟩ := runOps_cons M M' op ops es h
    obtain ⟨f1, -⟩ := opTrace_flags M M1 op e id h1
    rw [h3] at hrem ⊢
    have hrem1 : ∀ e' ∈ es1, id ∉ e'.removed :=
      fun e' he' => hrem e' (List.mem_cons_of_mem _ he')
    by_cases hs : e.started = some id
    · have h0 := runOps_cached id ops M1 M' es1 h2 (f1 hs).2 hrem1
      unfold downloadsOf at h0 ⊢
      rw [List.filter_cons_of_pos (by simpa using hs), List.length_cons, h0]
    · have h1' := ih M1 M' es1 h2 hrem1
      unfold downloadsOf at h1' ⊢
      rw [List.filter_cons_of_neg (by simpa using hs)]
      exact h1'

/-- C11: `cache(id)` starts a download of `id` exactly when `NodesCached[id]` was false, and
it leaves `NodesCached[id]` true; when the flag was already true nothing is removed and the
state changes in `NodesLastAccess[id]` only.  After the call, any sequence of `preCache`,
`getNodeFile`, `closeNodeFile` and download-complete operations that does not remove `id`
from the cache starts no download of `id`; and from any state, a sequence that does not
remove `id` starts at most one download of `id`. -/
theorem touch_single_fetch (now : Nat) (M : FS) (id : Nat) (r : FS × List Nat × Bool)
    (h : cacheTrace now M id = some r) :
    (r.2.2 = true ↔ M.NodesCached.get? id = some false)
      ∧ r.1.NodesCached.get? id = some true
      ∧ (M.NodesCached.get? id = some true →
          r.2.1 = [] ∧ r.2.2 = false
            ∧ r.1 = { M with NodesLastAccess := M.NodesLastAccess.set id (now % U64) })
      ∧ (∀ (ops : List CacheOp) (M' : FS) (es : List CacheEvent),
          runOps r.1 ops = some (M', es) → (∀ e ∈ es, id ∉ e.removed) → downloadsOf id es = 0)
      ∧ (∀ (ops : List CacheOp) (M0 M' : FS) (es : List CacheEvent),
          runOps M0 ops = some (M', es) → (∀ e ∈ es, id ∉ e.removed) →
          downloadsOf id es ≤ 1) := by
  obtain ⟨f1, f2, f3, -⟩ := cacheTrace_flags now M id r h
  refine ⟨f1, f2, fun hc => ⟨(f3 hc).1, ?_, (f3 hc).2⟩,
    fun ops M' es hr hrem => runOps_cached id ops r.1 M' es hr f2 hrem,
    fun ops M0 M' es hr hrem => runOps_single id ops M0 M' es hr hrem⟩
  cases hd : r.2.2 with
  | false => rfl
  | true =>
    have := f1.1 hd
    rw [hc] at this
    exact Bool.noConfusion (Option.some.inj this)

/-- Instance of `touch_single_fetch` at `cache(3)` in `pinnedCache`, where block 3 is not
cached and a download starts; and a run on two blocks in which block 0 is opened, touched
and opened again with one download. -/
theorem touch_single_fetch_witness :
    cacheTrace 4 pinnedCache 3 = some evictedTrace
      ∧ pinnedCache.NodesCached.get? 3 = some false ∧ evictedTrace.2.2 = true
      ∧ (runOps (uniformCache 2 5)
            [CacheOp.getNodeFile 1 0, CacheOp.preCache 2 0, CacheOp.getNodeFile 3 0]).map
          (fun q => q.2) = some [⟨[], some 0⟩, ⟨[], none⟩, ⟨[], none⟩]
      ∧ (evictedTrace.2.2 = true ↔ pinnedCache.NodesCached.get? 3 = some false)
      ∧ evictedTrace.1.NodesCached.get? 3 = some true
      ∧ (pinnedCache.NodesCached.get? 3 = some true →
          evictedTrace.2.1 = [] ∧ evictedTrace.2.2 = false
            ∧ evictedTrace.1
              = { pinnedCache with
                  NodesLastAccess := pinnedCache.NodesLastAccess.set 3 (4 % U64) })
      ∧ (∀ (ops : List CacheOp) (M' : FS) (es : List CacheEvent),
          runOps evictedTrace.1 ops = some (M', es) → (∀ e ∈ es, 3 ∉ e.removed) →
          downloadsOf 3 es = 0)
      ∧ (∀ (ops : List CacheOp) (M0 M' : FS) (es : List CacheEvent),
          runOps M0 ops = some (M', es) → (∀ e ∈ es, 3 ∉ e.removed) →
          downloadsOf 3 es ≤ 1) :=
  ⟨cacheTrace_pinnedCache, by decide, by decide, by decide,
    touch_single_fetch 4 pinnedCache 3 evictedTrace cacheTrace_pinnedCache⟩

/-! ## Prefetch in `switchFile` -/

theorem prefetched_append (a b : List CacheCall) :
    prefetched (a ++ b) = prefetched a ++ prefetched b := by
  induction a with
  | nil => rfl
  | cons c cs ih =>
    cases c with
    | closeNodeFile id => exact ih
    | getNodeFile id => exact ih
    | preCache id => exact congrArg (List.cons id) ih

theorem switchFile_same (blocks : Nat → List Nat) (f : FuseFileHandle) :
    switchFile blocks f f.Cur = (f, []) := by
  unfold switchFile
  rw [if_pos rfl]

theorem switchFile_prefetched (blocks : Nat → List Nat) (f : FuseFileHandle) (id : Nat)
    (h : f.Cur ≠ id) :
    prefetched (switchFile blocks f id).2
      = (match f.Storage.Nodes.get? ((id + 1) % U64) with
         | some nxt => [nxt]
         | none => []) := by
  unfold switchFile
  rw [if_neg h]
  simp only [prefetched_append]
  have h1 : prefetched (if f.Cur ≠ NullId then [CacheCall.closeNodeFile f.Cur] else []) = [] := by
    by_cases c : f.Cur = NullId
    · rw [if_neg (not_not.2 c)]; rfl
    · rw [if_pos c]; rfl
  rw [h1]
  cases f.Storage.Nodes.get? ((id + 1) % U64) with
  | none => rfl
  | some nxt => rfl

/-- C12 (the code at the failing input): on a handle whose block list is `[1, 2, 3]`,
`switchFile(1)` (position 0) prefetches block 3 and not block 2, and `switchFile(2)`
(position 1, block 3 follows) prefetches nothing: the test `id + 1 < len(Nodes)` and the
index `Nodes[id + 1]` use the block id where the position in the list is meant.  A read of
the whole file never prefetches block 2. -/
theorem switchFile_prefetch_by_block_id :
    laterSplitHandle.Storage.Nodes = [1, 2, 3] ∧ laterSplitHandle.Cur ≠ 1
      ∧ (switchFile twoBlocks laterSplitHandle 1).2
          = [CacheCall.getNodeFile 1, CacheCall.preCache 3]
      ∧ (switchFile twoBlocks (switchFile twoBlocks laterSplitHandle 1).1 2).2
          = [CacheCall.closeNodeFile 1, CacheCall.getNodeFile 2]
      ∧ (readBytes twoBlocks laterSplitHandle 0 9).map (fun q => q.2.2)
          = some [CacheCall.getNodeFile 1, CacheCall.preCache 3, CacheCall.closeNodeFile 1,
              CacheCall.getNodeFile 2, CacheCall.closeNodeFile 2, CacheCall.getNodeFile 3] := by
  decide

/-! ## Path lookup -/

theorem splitSlash_append_slash : ∀ (seg rest : List Nat), 0x2F ∉ seg →
    splitSlash (seg ++ 0x2F :: rest) = seg :: splitSlash rest := by
  intro seg
  induction seg with
  | nil => intro rest _; simp [splitSlash]
  | cons c seg ih =>
    intro rest h
    have hc : c ≠ 0x2F := fun e => h (by rw [e]; exact List.mem_cons_self _ _)
    have hs : 0x2F ∉ seg := fun e => h (List.mem_cons_of_mem _ e)
    rw [List.cons_append, splitSlash, if_neg hc, ih rest hs]

theorem splitSlash_noslash : ∀ (seg : List Nat), 0x2F ∉ seg → splitSlash seg = [seg] := by
  intro seg
  induction seg with
  | nil => intro _; rfl
  | cons c seg ih =>
    intro h
    have hc : c ≠ 0x2F := fun e => h (by rw [e]; exact List.mem_cons_self _ _)
    have hs : 0x2F ∉ seg := fun e => h (List.mem_cons_of_mem _ e)
    rw [splitSlash, if_neg hc, ih hs]

theorem splitSlash_pathOf_aux : ∀ (segs : List (List Nat)) (s : List Nat), 0x2F ∉ s →
    (∀ x ∈ segs, 0x2F ∉ x) → splitSlash (s ++ pathOf segs) = s :: segs := by
  intro segs
  induction segs with
  | nil =>
    intro s hs _
    show splitSlash (s ++ []) = [s]
    rw [List.append_nil]
    exact splitSlash_noslash s hs
  | cons t segs ih =>
    intro s hs h
    have e : pathOf (t :: segs) = 0x2F :: (t ++ pathOf segs) := by
      simp [pathOf]
    rw [e, splitSlash_append_slash s _ hs,
      ih t (h t (List.mem_cons_self _ _)) (fun x hx => h x (List.mem_cons_of_mem _ hx))]

theorem getPath_pathOf (M : FS) (segs : List (List Nat)) (h : ∀ x ∈ segs, 0x2F ∉ x) :
    getPath M (pathOf segs) = getPathLoop M segs 0 := by
  unfold getPath
  have e := splitSlash_pathOf_aux segs [] (List.not_mem_nil _) h
  rw [List.nil_append] at e
  rw [e]
  rfl

theorem getChildFile_of_names (M : FS) (c : Nat) (seg : List Nat) (h : NamesFile M c seg) :
    ∃ t, getChildFile M c seg = some t ∧ t ≠ NullId := by
  obtain ⟨d, t, h1, h2, h3⟩ := h
  exact ⟨t, by unfold getChildFile; rw [h1]; simp only [h2], h3⟩

theorem getChildFile_of_not_names (M : FS) (c : Nat) (seg : List Nat) (d : Dir)
    (hd : M.Dirs.get? c = some d) (h : ¬ NamesFile M c seg) :
    getChildFile M c seg = some NullId := by
  unfold getChildFile
  rw [hd]
  cases hf : d.FilesMap seg with
  | none => simp only [hf]
  | some t =>
    by_cases e : t = NullId
    · simp only [hf, e]
    · exact absurd ⟨d, t, hd, hf, e⟩ h

theorem getChild_of_names (M : FS) (c : Nat) (seg : List Nat) (t : Nat)
    (h : NamesDir M c seg t) : getChild M c seg = some t := by
  obtain ⟨d, h1, h2, -⟩ := h
  unfold getChild
  rw [h1]
  simp only [h2]

theorem getChild_of_not_names (M : FS) (c : Nat) (seg : List Nat) (d : Dir)
    (hd : M.Dirs.get? c = some d) (h : ∀ t, ¬ NamesDir M c seg t) :
    getChild M c seg = some NullId := by
  unfold getChild
  rw [hd]
  cases hf : d.ChildMap seg with
  | none => simp only [hf]
  | some t =>
    by_cases e : t = NullId
    · simp only [hf, e]
    · exact absurd ⟨d, hd, hf, e⟩ (h t)

theorem getPathLoop_descends (M : FS) (c d : Nat) (pre : List (List Nat))
    (h : Descends M c pre d) (rest : List (List Nat)) :
    getPathLoop M (pre ++ rest) c = getPathLoop M rest d := by
  induction h with
  | nil c => rfl
  | cons c seg tl t d hnf hnd _ ih =>
    have h2 := getChild_of_names M c seg t hnd
    obtain ⟨dc, hdc, -, hne⟩ := hnd
    have h1 := getChildFile_of_not_names M c seg dc hdc hnf
    rw [List.cons_append, getPathLoop, h1]
    simp only [ne_eq, not_true_eq_false, if_false, h2, if_neg hne]
    exact ih

theorem resolves_descends (M : FS) (hno : NoClash M) (c d : Nat) (segs : List (List Nat))
    (h : Resolves M c segs d) : Descends M c segs d := by
  induction h with
  | nil c => exact Descends.nil c
  | cons c seg rest t d hnd _ ih => exact Descends.cons c seg rest t d (hno c seg t hnd) hnd ih

theorem namesDir_of_map (M : FS) (c : Nat) (seg : List Nat) (t : Nat)
    (h : (M.Dirs.get? c).map (fun d => d.ChildMap seg) = some (some t)) (hne : t ≠ NullId) :
    NamesDir M c seg t := by
  cases hd : M.Dirs.get? c with
  | none => rw [hd] at h; exact Option.noConfusion h
  | some d =>
    rw [hd] at h
    exact ⟨d, hd, Option.some.inj h, hne⟩

theorem not_namesFile_of_map (M : FS) (c : Nat) (seg : List Nat)
    (h : (M.Dirs.get? c).map (fun d => d.FilesMap seg) = some none) : ¬ NamesFile M c seg := by
  rintro ⟨d, t, h1, h2, -⟩
  rw [h1] at h
  have e : d.FilesMap seg = none := Option.some.inj h
  rw [h2] at e
  exact Option.noConfusion e

/-- C13 (amended): `getPath` looks a segment up among the files first.  If the segments
`pre` of a path lead from the root to the directory `c`, each naming a child directory and
none naming a file, then `getPath` returns `(c, 0)` for `/pre`; for a path that goes on with
a segment naming a file of `c` it returns `(NullId, 2)`, also when that segment names a child
directory as well; for a path that goes on with a segment naming neither a file nor a child
directory of `c` it returns `(NullId, 1)`.  In a state where no name is both a file and a
child directory, a path whose segments in turn name child directories is such a path. -/
theorem getPath_status (M : FS) (pre : List (List Nat)) (c : Nat)
    (hpre : ∀ s ∈ pre, 0x2F ∉ s) (hd : Descends M 0 pre c) :
    getPath M (pathOf pre) = some (c, 0)
      ∧ (∀ seg post, 0x2F ∉ seg → (∀ s ∈ post, 0x2F ∉ s) → NamesFile M c seg →
          getPath M (pathOf (pre ++ seg :: post)) = some (NullId, 2))
      ∧ (∀ seg post, 0x2F ∉ seg → (∀ s ∈ post, 0x2F ∉ s) → c < M.Dirs.length →
          ¬ NamesFile M c seg → (∀ t, ¬ NamesDir M c seg t) →
          getPath M (pathOf (pre ++ seg :: post)) = some (NullId, 1))
      ∧ (NoClash M → ∀ segs d, Resolves M 0 segs d → Descends M 0 segs d) := by
  have hall : ∀ seg post, 0x2F ∉ seg → (∀ s ∈ post, 0x2F ∉ s) →
      ∀ s ∈ pre ++ seg :: post, 0x2F ∉ s := by
    intro seg post h1 h2 s hs
    rcases List.mem_append.1 hs with e | e
    · exact hpre s e
    · rcases List.mem_cons.1 e with e | e
      · rw [e]; exact h1
      · exact h2 s e
  refine ⟨?_, ?_, ?_, fun hno segs d h => resolves_descends M hno 0 d segs h⟩
  · rw [getPath_pathOf M pre hpre]
    have := getPathLoop_descends M 0 c pre hd []
    rw [List.append_nil] at this
    rw [this]
    rfl
  · intro seg post h1 h2 hf
    rw [getPath_pathOf M _ (hall seg post h1 h2), getPathLoop_descends M 0 c pre hd]
    obtain ⟨t, ht, hne⟩ := getChildFile_of_names M c seg hf
    rw [getPathLoop, ht]
    simp only [ne_eq, hne, not_false_eq_true, if_true]
  · intro seg post h1 h2 hc hnf hnd
    obtain ⟨dc, hdc, -⟩ := get?_mem_of_lt M.Dirs c hc
    rw [getPath_pathOf M _ (hall seg post h1 h2), getPathLoop_descends M 0 c pre hd]
    rw [getPathLoop, getChildFile_of_not_names M c seg dc hdc hnf]
    simp only [ne_eq, not_true_eq_false, if_false, getChild_of_not_names M c seg dc hdc hnd,
      if_true]

theorem treeState_descends : Descends treeState 0 [[0x64]] 1 :=
  Descends.cons 0 [0x64] [] 1 1 (not_namesFile_of_map treeState 0 [0x64] (by decide))
    (namesDir_of_map treeState 0 [0x64] 1 (by decide) (by decide)) (Descends.nil 1)

/-- Instance of `getPath_status` in the tree `/d/f`: `/d` is the directory 1, `/d/f` and
`/d/f/g` stop at the file `f`, `/d/g` is missing. -/
theorem getPath_status_witness :
    getPath treeState (pathOf [[0x64]]) = some (1, 0)
      ∧ getPath treeState [0x2F, 0x64, 0x2F, 0x66] = some (NullId, 2)
      ∧ getPath treeState [0x2F, 0x64, 0x2F, 0x66, 0x2F, 0x67] = some (NullId, 2)
      ∧ getPath treeState [0x2F, 0x64, 0x2F, 0x67] = some (NullId, 1)
      ∧ (∀ seg post, 0x2F ∉ seg → (∀ s ∈ post, 0x2F ∉ s) → NamesFile treeState 1 seg →
          getPath treeState (pathOf ([[0x64]] ++ seg :: post)) = some (NullId, 2))
      ∧ (∀ seg post, 0x2F ∉ seg → (∀ s ∈ post, 0x2F ∉ s) → 1 < treeState.Dirs.length →
          ¬ NamesFile treeState 1 seg → (∀ t, ¬ NamesDir treeState 1 seg t) →
          getPath treeState (pathOf ([[0x64]] ++ seg :: post)) = some (NullId, 1))
      ∧ (NoClash treeState → ∀ segs d, Resolves treeState 0 segs d →
          Descends treeState 0 segs d) :=
  ⟨(getPath_status treeState [[0x64]] 1 (by decide) treeState_descends).1,
    by decide, by decide, by decide,
    (getPath_status treeState [[0x64]] 1 (by decide) treeState_descends).2⟩

/-- C13 (as stated) fails: in `clashState` the segment `x` names the child directory 1 of
the root, so every segment of `/x` names a child directory, but `x` names a file of the root
as well and `getPath("/x")` returns `(NullId, 2)`. -/
theorem getPath_file_before_dir :
    ¬ ∀ (M : FS) (segs : List (List Nat)) (d : Nat), (∀ s ∈ segs, 0x2F ∉ s) →
        Resolves M 0 segs d → getPath M (pathOf segs) = some (d, 0) := by
  intro h
  have hr : Resolves clashState 0 [[0x78]] 1 :=
    Resolves.cons 0 [0x78] [] 1 1 (namesDir_of_map clashState 0 [0x78] 1 (by decide) (by decide))
      (Resolves.nil 1)
  have h1 := h clashState [[0x78]] 1 (by decide) hr
  have h2 : getPath clashState (pathOf [[0x78]]) = some (NullId, 2) := by decide
  rw [h2] at h1
  exact absurd h1 (by decide)

/-! ## The varint format -/

set_option maxRecDepth 100000 in
theorem byte_or_high : ∀ y, y < 256 → y ||| 0x80 = y % 128 + 128 := by
  decide

theorem putUvarintLoop_leb128 : ∀ (room x : Nat), 0 < room → x < 2 ^ (7 * room) →
    putUvarintLoop room x = leb128 x := by
  intro room
  induction room with
  | zero => intro x h _; omega
  | succ r ih =>
    intro x _ hx
    rw [putUvarintLoop, leb128]
    by_cases h : x < 128
    · rw [if_neg (by omega), if_pos h]
      congr 1
      omega
    · rw [if_pos (by omega), if_neg h]
      have hb := byte_or_high (x % 256) (Nat.mod_lt _ (by norm_num))
      have hm : x % 256 % 128 = x % 128 := by omega
      have h7 : (2 : Nat) ^ 7 = 128 := by norm_num
      rw [hb, hm, Nat.shiftRight_eq_div_pow, h7]
      have hr : 0 < r := by
        cases r with
        | zero => simp at hx; omega
        | succ k => omega
      have hdiv : x / 128 < 2 ^ (7 * r) := by
        rw [Nat.div_lt_iff_lt_mul (by norm_num)]
        have : 2 ^ (7 * (r + 1)) = 2 ^ (7 * r) * 128 := by
          rw [Nat.mul_add, Nat.pow_add, Nat.mul_one, h7]
        omega
      rw [ih (x / 128) hr hdiv]

theorem leb128_shape (x : Nat) :
    ∃ init l, leb128 x = init ++ [l] ∧ l < 128 ∧ (∀ b ∈ init, 128 ≤ b ∧ b < 256) := by
  induction x using Nat.strong_induction_on with
  | _ x ih =>
    rw [leb128]
    by_cases h : x < 128
    · rw [if_pos h]
      exact ⟨[], x, rfl, h, fun b hb => absurd hb (List.not_mem_nil b)⟩
    · rw [if_neg h]
      obtain ⟨init, l, e, hl, hall⟩ := ih (x / 128) (by omega)
      refine ⟨(x % 128 + 128) :: init, l, by rw [e]; rfl, hl, ?_⟩
      intro b hb
      rcases List.mem_cons.1 hb with e' | e'
      · rw [e']; omega
      · exact hall b e'

theorem leb128Value_leb128 (x : Nat) : leb128Value (leb128 x) = x := by
  induction x using Nat.strong_induction_on with
  | _ x ih =>
    rw [leb128]
    by_cases h : x < 128
    · rw [if_pos h]
      show x % 128 + 128 * 0 = x
      omega
    · rw [if_neg h]
      show (x % 128 + 128) % 128 + 128 * leb128Value (leb128 (x / 128)) = x
      rw [ih (x / 128) (by omega)]
      omega

/-- C14: for `x < 2^64`, `appendUvarint(s, x)` is `s` followed by the little-endian base-128
encoding `leb128 x` of `x`, which has 1 to 10 bytes, every byte but the last in `[128, 256)`
and the last below 128, and whose 7-bit groups give `x` back; `getUvarint` applied to that
encoding followed by any bytes `t` returns `x` and the number of bytes of the encoding. -/
theorem appendUvarint_leb128 (x : Nat) (s t : List Nat) (hx : x < U64) :
    appendUvarint s x = s ++ leb128 x
      ∧ 1 ≤ (leb128 x).length ∧ (leb128 x).length ≤ 10
      ∧ (∃ init l, leb128 x = init ++ [l] ∧ l < 128 ∧ (∀ b ∈ init, 128 ≤ b ∧ b < 256))
      ∧ leb128Value (leb128 x) = x
      ∧ getUvarint (leb128 x ++ t) = (x, (leb128 x).length) := by
  have hx70 : x < 2 ^ (7 * MaxVarintLen64) := by
    have h1 : U64 ≤ 2 ^ (7 * MaxVarintLen64) := by
      unfold U64 MaxVarintLen64; norm_num
    omega
  have e : putUvarintLoop MaxVarintLen64 x = leb128 x :=
    putUvarintLoop_leb128 MaxVarintLen64 x (by unfold MaxVarintLen64; norm_num) hx70
  have e0 : appendUvarint [] x = leb128 x := by
    unfold appendUvarint; rw [e]; rfl
  refine ⟨by unfold appendUvarint; rw [e], ?_, ?_, leb128_shape x, leb128Value_leb128 x, ?_⟩
  · rw [← e0]; exact appendUvarint_length_pos x
  · rw [← e]; exact putUvarintLoop_length_le MaxVarintLen64 x
  · rw [← e0]; exact getUvarint_appendUvarint x t hx

/-- Instance of `appendUvarint_leb128` at `x = 300`, whose encoding is the two bytes
`[172, 2]`. -/
theorem appendUvarint_leb128_witness :
    appendUvarint [7] 300 = [7, 172, 2] ∧ getUvarint [172, 2, 9] = (300, 2)
      ∧ appendUvarint [7] 300 = [7] ++ leb128 300
      ∧ 1 ≤ (leb128 300).length ∧ (leb128 300).length ≤ 10
      ∧ (∃ init l, leb128 300 = init ++ [l] ∧ l < 128 ∧ (∀ b ∈ init, 128 ≤ b ∧ b < 256))
      ∧ leb128Value (leb128 300) = 300
      ∧ getUvarint (leb128 300 ++ [9]) = (300, (leb128 300).length) :=
  ⟨by decide, by decide, appendUvarint_leb128 300 [7] [9] (by unfold U64; norm_num)⟩

/-! ## The upload check -/

theorem int64_int64_add (a b : Int) : int64 (int64 a + b) = int64 (a + b) := by
  unfold int64
  omega

theorem int64_of_small (c : Nat) (h : c < 2 ^ 63) : int64 (c : Int) = (c : Int) := by
  have h1 : (2 : Nat) ^ 63 = 9223372036854775808 := by norm_num
  rw [h1] at h
  unfold int64
  omega

theorem references_iff (f : File) (i : Nat) : References f i ↔ i ∈ fileRefs f := by
  unfold References fileRefs
  by_cases h : f.Storage.Nodes.length = 0
  · have hn : f.Storage.Nodes = [] := List.length_eq_zero.1 h
    rw [if_pos h, hn]
    simp only [true_and, List.not_mem_nil, or_false, List.mem_singleton]
    exact eq_comm
  · have hn : f.Storage.Nodes ≠ [] := fun e => h (by rw [e]; rfl)
    rw [if_neg h]
    simp only [hn, false_and, false_or]

theorem bumpAll_spec : ∀ (ids : List Nat) (used : List Int),
    (∀ id ∈ ids, id < used.length) →
    ∃ u, bumpAll ids used = some u ∧ u.length = used.length
      ∧ ∀ i w, used.get? i = some (int64 w) →
          u.get? i = some (int64 (w + (ids.count i : Nat))) := by
  intro ids
  induction ids with
  | nil =>
    intro used _
    refine ⟨used, rfl, rfl, fun i w hw => ?_⟩
    rw [hw, List.count_nil]
    simp only [Nat.cast_zero, Int.add_zero]
  | cons id ids ih =>
    intro used h
    have hid : id < used.length := h id (List.mem_cons_self _ _)
    obtain ⟨v0, hv0, -⟩ := get?_mem_of_lt used id hid
    have hb : bump used id = some (used.set id (int64 (v0 + 1))) := by
      unfold bump; rw [hv0]
    obtain ⟨u, hu, hlen, hget⟩ := ih (used.set id (int64 (v0 + 1)))
      (fun x hx => by rw [List.length_set]; exact h x (List.mem_cons_of_mem _ hx))
    refine ⟨u, by rw [bumpAll, hb]; exact hu, by rw [hlen, List.length_set], ?_⟩
    intro i w hw
    by_cases e : id = i
    · subst e
      rw [hv0] at hw
      have hv : v0 = int64 w := Option.some.inj hw
      have h1 := hget id (w + 1) (by
        rw [get?_set_self _ _ _ hid, hv, int64_int64_add])
      rw [h1, List.count_cons_self]
      congr 2
      push_cast
      omega
    · have h1 := hget i w (by rw [get?_set_ne' _ _ _ _ e]; exact hw)
      rw [h1, List.count_cons_of_ne (Ne.symm e)]

theorem countRefs_spec : ∀ (files : List File) (used : List Int),
    (∀ f ∈ files, ∀ id ∈ fileRefs f, id < used.length) →
    ∃ u, countRefs files used = some u ∧ u.length = used.length
      ∧ ∀ i w, used.get? i = some (int64 w) →
          u.get? i = some (int64 (w + (((files.map fileRefs).flatten.count i : Nat) : Int))) := by
  intro files
  induction files with
  | nil =>
    intro used _
    refine ⟨used, rfl, rfl, fun i w hw => ?_⟩
    rw [hw]
    simp
  | cons f fs ih =>
    intro used h
    have hstep : (if f.Storage.Nodes.length = 0 then bump used f.Storage.NodeId
        else bumpAll f.Storage.Nodes used) = bumpAll (fileRefs f) used := by
      unfold fileRefs
      by_cases c : f.Storage.Nodes.length = 0
      · rw [if_pos c, if_pos c]
        unfold bumpAll
        cases bump used f.Storage.NodeId with
        | none => rfl
        | some u => rfl
      · rw [if_neg c, if_neg c]
    obtain ⟨u1, hu1, hlen1, hget1⟩ := bumpAll_spec (fileRefs f) used
      (h f (List.mem_cons_self _ _))
    obtain ⟨u, hu, hlen, hget⟩ := ih u1
      (fun g hg id hid => by rw [hlen1]; exact h g (List.mem_cons_of_mem _ hg) id hid)
    refine ⟨u, by rw [countRefs, hstep, hu1]; exact hu, by rw [hlen, hlen1], ?_⟩
    intro i w hw
    have h1 := hget i _ (hget1 i w hw)
    rw [h1, List.map_cons, List.flatten_cons, List.count_append]
    congr 2
    push_cast
    omega

theorem scanNodes_spec (used : List Int) : ∀ (nodes : List Node) (i : Nat) (res : Bool),
    (∀ k, k < nodes.length → i + k < used.length) →
    ∃ b, scanNodes used nodes i res = some b
      ∧ (b = true ↔ res = true ∧ ∀ k nd v, nodes.get? k = some nd → nd.Source = [] →
          used.get? (i + k) = some v → ¬ 0 < v) := by
  intro nodes
  induction nodes with
  | nil =>
    intro i res _
    refine ⟨res, rfl, fun hb => ⟨hb, fun k nd v hk => ?_⟩, fun hb => hb.1⟩
    exact Option.noConfusion hk
  | cons nd rest ih =>
    intro i res hlen
    have hlen' : ∀ k, k < rest.length → (i + 1) + k < used.length := by
      intro k hk
      have := hlen (k + 1) (by rw [List.length_cons]; omega)
      omega
    by_cases hsrc : nd.Source = []
    · obtain ⟨v, hv, -⟩ := get?_mem_of_lt used i (by
        have := hlen 0 (by rw [List.length_cons]; omega)
        omega)
      obtain ⟨b, hb, hiff⟩ := ih (i + 1) (if 0 < v then false else res) hlen'
      refine ⟨b, by rw [scanNodes, if_pos hsrc, hv]; exact hb, ?_⟩
      rw [hiff]
      constructor
      · rintro ⟨h1, h2⟩
        have hv0 : ¬ 0 < v := by
          intro c
          rw [if_pos c] at h1
          exact Bool.noConfusion h1
        rw [if_neg hv0] at h1
        refine ⟨h1, ?_⟩
        intro k nd' v' hk
        cases k with
        | zero =>
          intro _ hv'
          rw [Nat.add_zero, hv] at hv'
          rw [← Option.some.inj hv']
          exact hv0
        | succ k =>
          intro hs hv'
          exact h2 k nd' v' hk hs (by rw [Nat.add_assoc, Nat.add_comm 1 k]; exact hv')
      · rintro ⟨h1, h2⟩
        have hv0 : ¬ 0 < v := h2 0 nd v rfl hsrc hv
        rw [if_neg hv0]
        refine ⟨h1, fun k nd' v' hk hs hv' => ?_⟩
        exact h2 (k + 1) nd' v' hk hs (by
          rw [Nat.add_assoc, Nat.add_comm 1 k] at hv'; exact hv')
    · obtain ⟨b, hb, hiff⟩ := ih (i + 1) res hlen'
      refine ⟨b, by rw [scanNodes, if_neg hsrc]; exact hb, ?_⟩
      rw [hiff]
      constructor
      · rintro ⟨h1, h2⟩
        refine ⟨h1, ?_⟩
        intro k nd' v' hk
        cases k with
        | zero =>
          intro hs _
          have e : nd = nd' := Option.some.inj hk
          rw [← e] at hs
          exact absurd hs hsrc
        | succ k =>
          intro hs hv'
          exact h2 k nd' v' hk hs (by rw [Nat.add_assoc, Nat.add_comm 1 k]; exact hv')
      · rintro ⟨h1, h2⟩
        refine ⟨h1, fun k nd' v' hk hs hv' => ?_⟩
        exact h2 (k + 1) nd' v' hk hs (by
          rw [Nat.add_assoc, Nat.add_comm 1 k] at hv'; exact hv')

theorem count_flatten_eq_zero (files : List File) (i : Nat) :
    (files.map fileRefs).flatten.count i = 0 ↔ ∀ f ∈ files, ¬ References f i := by
  rw [List.count_eq_zero]
  constructor
  · intro h f hf hr
    exact h (List.mem_flatten.2 ⟨fileRefs f, List.mem_map_of_mem _ hf, (references_iff f i).1 hr⟩)
  · intro h hm
    obtain ⟨l, hl, hi⟩ := List.mem_flatten.1 hm
    obtain ⟨f, hf, e⟩ := List.mem_map.1 hl
    rw [← e] at hi
    exact h f hf ((references_iff f i).2 hi)

/-- C15: in a state where every block reference of a file is a valid index (and there are
fewer than `2^63` references in all, so that the `int` counters do not wrap),
`checkUploaded(st)` returns, and it returns true exactly when every block with index `≥ st`
whose source is empty is referenced by no file; so when it returns true, every block with
index `≥ st` that some file references has a non-empty source. -/
theorem checkUploaded_iff (M : FS) (st : Nat)
    (hvalid : ∀ f ∈ M.Files, ∀ i, References f i → i < M.Nodes.length)
    (htotal : ((M.Files.map fileRefs).flatten).length < 2 ^ 63) :
    ∃ b, checkUploaded M (st : Int) = some b
      ∧ (b = true ↔ ∀ i nd, st ≤ i → M.Nodes.get? i = some nd → nd.Source = [] →
            ∀ f ∈ M.Files, ¬ References f i)
      ∧ (b = true → ∀ i, st ≤ i → ∀ f ∈ M.Files, References f i →
            ∃ nd, M.Nodes.get? i = some nd ∧ nd.Source ≠ []) := by
  obtain ⟨u, hu, hlen, hget⟩ := countRefs_spec M.Files (List.replicate M.Nodes.length 0)
    (fun f hf id hid => by
      rw [List.length_replicate]
      exact hvalid f hf id ((references_iff f id).2 hid))
  rw [List.length_replicate] at hlen
  have hz : int64 0 = 0 := by unfold int64; norm_num
  have hcnt : ∀ i, i < M.Nodes.length →
      u.get? i = some (((M.Files.map fileRefs).flatten.count i : Nat) : Int) := by
    intro i hi
    have h0 : (List.replicate M.Nodes.length (0 : Int)).get? i = some (int64 0) := by
      rw [hz, List.get?_eq_getElem?, List.getElem?_replicate, if_pos hi]
    have h1 := hget i 0 h0
    rw [Int.zero_add, int64_of_small _ (Nat.lt_of_le_of_lt (List.count_le_length _ _) htotal)] at h1
    exact h1
  obtain ⟨b, hb, hiff⟩ := scanNodes_spec u (M.Nodes.drop st) st true (by
    intro k hk
    rw [List.length_drop] at hk
    omega)
  have hdrop : ∀ k, (M.Nodes.drop st).get? k = M.Nodes.get? (st + k) := by
    intro k
    rw [List.get?_eq_getElem?, List.get?_eq_getElem?, List.getElem?_drop]
  have hmain : b = true ↔ ∀ i nd, st ≤ i → M.Nodes.get? i = some nd → nd.Source = [] →
      ∀ f ∈ M.Files, ¬ References f i := by
    rw [hiff]
    constructor
    · rintro ⟨-, h2⟩ i nd hi hnd hsrc
      have hil : i < M.Nodes.length := lt_length_of_get? hnd
      have hk : st + (i - st) = i := by omega
      have := h2 (i - st) nd _ (by rw [hdrop, hk]; exact hnd) hsrc (by rw [hk]; exact hcnt i hil)
      apply (count_flatten_eq_zero M.Files i).1
      omega
    · intro h
      refine ⟨rfl, fun k nd v hk hsrc hv => ?_⟩
      rw [hdrop] at hk
      have hil : st + k < M.Nodes.length := lt_length_of_get? hk
      rw [hcnt _ hil] at hv
      have h0 := (count_flatten_eq_zero M.Files (st + k)).2
        (h (st + k) nd (Nat.le_add_right _ _) hk hsrc)
      rw [← Option.some.inj hv, h0]
      exact Int.lt_irrefl 0
  refine ⟨b, ?_, hmain, ?_⟩
  · unfold checkUploaded
    rw [hu]
    simp only [Int.toNat_ofNat]
    rw [if_neg (by omega)]
    exact hb
  · intro hbt i hi f hf hr
    obtain ⟨nd, hnd, -⟩ := get?_mem_of_lt M.Nodes i (hvalid f hf i hr)
    refine ⟨nd, hnd, fun hsrc => ?_⟩
    exact hmain.1 hbt i nd hi hnd hsrc f hf hr

/-- Instance of `checkUploaded_iff` at `uploadState`: with the file `b` packed into the
uploaded block 0 the check returns true, with `b` in block 1, which has no source yet, it
returns false. -/
theorem checkUploaded_iff_witness :
    checkUploaded (uploadState { NodeId := 0, NodePos := 3, Nodes := [] }) 0 = some true
      ∧ checkUploaded (uploadState { NodeId := 1, NodePos := 0, Nodes := [] }) 0 = some false
      ∧ ∃ b, checkUploaded (uploadState { NodeId := 1, NodePos := 0, Nodes := [] })
            ((0 : Nat) : Int) = some b
          ∧ (b = true ↔ ∀ i nd, 0 ≤ i →
              (uploadState { NodeId := 1, NodePos := 0, Nodes := [] }).Nodes.get? i = some nd →
              nd.Source = [] →
              ∀ f ∈ (uploadState { NodeId := 1, NodePos := 0, Nodes := [] }).Files,
                ¬ References f i)
          ∧ (b = true → ∀ i, 0 ≤ i →
              ∀ f ∈ (uploadState { NodeId := 1, NodePos := 0, Nodes := [] }).Files,
              References f i →
              ∃ nd, (uploadState { NodeId := 1, NodePos := 0, Nodes := [] }).Nodes.get? i
                  = some nd ∧ nd.Source ≠ []) :=
  ⟨by decide, by decide,
    checkUploaded_iff (uploadState { NodeId := 1, NodePos := 0, Nodes := [] }) 0
      (fun f hf i hr =>
        (by decide : ∀ f ∈ (uploadState { NodeId := 1, NodePos := 0, Nodes := [] }).Files,
          ∀ i ∈ fileRefs f,
            i < (uploadState { NodeId := 1, NodePos := 0, Nodes := [] }).Nodes.length)
          f hf i ((references_iff f i).1 hr))
      (by decide)⟩

/-! ## New files on the fix path -/

theorem addChildFile_length (M M' : FS) (x n : Nat) (name : List Nat)
    (h : addChildFile M x name = some (M', n)) :
    n = M.Files.length ∧ M'.Files.length = M.Files.length + 1 := by
  unfold addChildFile at h
  cases hd : M.Dirs.get? x with
  | none => simp only [hd, reduceCtorEq] at h
  | some dx =>
    simp only [hd] at h
    cases hf : (M.Files ++ [File.zero]).get? M.Files.length with
    | none => simp only [hf, reduceCtorEq] at h
    | some fn =>
      simp only [hf, Option.some.injEq, Prod.mk.injEq] at h
      obtain ⟨h1, h2⟩ := h
      refine ⟨h2.symm, ?_⟩
      rw [← h1]
      simp

theorem dfsCheckFile_new (sha disk : List Nat → List Nat) (M : FS) (id : Nat) (fn : List Nat)
    (sz : Nat) (pathA pathB : List Nat) (hnew : getChildFile M id fn = some NullId) :
    (sz < MIN_BLOCK_SIZE → ∀ r, dfsCheckFile sha disk M id fn sz pathA pathB = some r →
        r.2 = [{ Id := NullId, Size := sz, Path := pathB }]
          ∧ r.1.Files.length = M.Files.length + 1)
      ∧ (MIN_BLOCK_SIZE ≤ sz → M.Files.length < NullId →
          dfsCheckFile sha disk M id fn sz pathA pathB = none) := by
  unfold dfsCheckFile
  rw [hnew]
  simp only [if_true]
  cases ha : addChildFile M id fn with
  | none =>
    simp only [reduceCtorEq, false_implies, implies_true, and_self]
  | some q =>
    obtain ⟨M1, t1⟩ := q
    obtain ⟨ht1, hlen1⟩ := addChildFile_length M M1 id t1 fn ha
    simp only []
    cases hs : setSize M1 t1 sz with
    | none => simp only [reduceCtorEq, false_implies, implies_true, and_self]
    | some M2 =>
      have hlen2 : M2.Files.length = M.Files.length + 1 := by
        unfold setSize at hs
        cases hf : M1.Files.get? t1 with
        | none => simp only [hf, reduceCtorEq] at hs
        | some f =>
          simp only [hf, Option.some.injEq] at hs
          rw [← hs]
          simp only [List.length_set]
          exact hlen1
      simp only [if_true]
      constructor
      · intro hsz r hr
        rw [if_neg (Nat.not_le.2 hsz)] at hr
        have e := Option.some.inj hr
        rw [← e]
        exact ⟨rfl, hlen2⟩
      · intro hsz hlt
        rw [if_pos hsz]
        have hnone : M2.Files.get? NullId = none := by
          rw [List.get?_eq_none]
          omega
        unfold makeBigFile
        rw [hnone]

/-- C16 (the code at the failing input): the destination root has no file `a` and the source
directory has a file `a` of 3 bytes.  `dfsCheck` adds the file record 0 with size 3, but the
entry it queues carries `Id = NullId`, not 0, and `makeFiles` panics on it (`Files[NullId]`);
for a file of `MIN_BLOCK_SIZE` bytes `makeBigFile(NullId, ...)` panics inside `dfsCheck`. -/
theorem dfsCheck_new_file_null_id :
    getChildFile (clear FS.init) 0 [0x61] = some NullId
      ∧ (dfsCheckFile toyHash diskTwins (clear FS.init) 0 [0x61] 3 [0x6D, 0x2F, 0x61]
            [0x73, 0x2F, 0x61]).map
          (fun r => (r.2, r.1.Files.map (fun f => (f.Name, f.Size))))
        = some ([{ Id := NullId, Size := 3, Path := [0x73, 0x2F, 0x61] }], [([0x61], 3)])
      ∧ ((dfsCheckFile toyHash diskTwins (clear FS.init) 0 [0x61] 3 [0x6D, 0x2F, 0x61]
            [0x73, 0x2F, 0x61]).bind
          (fun r => makeFiles toyHash diskTwins r.1 r.2 true true)).isSome = false
      ∧ (dfsCheckFile toyHash diskTwins (clear FS.init) 0 [0x61] MIN_BLOCK_SIZE
            [0x6D, 0x2F, 0x61] [0x73, 0x2F, 0x61]).isSome = false := by
  decide

/-! ## The backend slot pool -/

theorem findSlot_free (used : List Bool) : ∀ (perm : List Nat) (sid : Nat),
    findSlot used perm = some (some sid) → used.get? sid = some false := by
  intro perm
  induction perm with
  | nil => intro sid h; simp only [findSlot, Option.some.injEq, reduceCtorEq] at h
  | cons t ts ih =>
    intro sid h
    unfold findSlot at h
    cases hu : used.get? t with
    | none => simp only [hu, reduceCtorEq] at h
    | some b =>
      cases b with
      | false =>
        simp only [hu, Option.some.injEq] at h
        rw [← h]; exact hu
      | true =>
        simp only [hu] at h
        exact ih sid h

theorem set_set_restore (used : List Bool) (sid : Nat) (h : used.get? sid = some false) :
    (used.set sid true).set sid false = used := by
  rw [List.set_set]
  exact set_eq_self_of_get? used sid false h

theorem MoveFile_restores (perm : List Nat) (used used' : List Bool)
    (h : MoveFile perm used = SlotResult.returned used') : used' = used := by
  unfold MoveFile at h
  cases hf : findSlot used perm with
  | none => simp only [hf, reduceCtorEq] at h
  | some o =>
    cases o with
    | none => simp only [hf, reduceCtorEq] at h
    | some sid =>
      simp only [hf, SlotResult.returned.injEq] at h
      rw [← h]
      exact set_set_restore used sid (findSlot_free used perm sid hf)

theorem CacheFile_restores (perm : List Nat) (used used' : List Bool) (src : List Nat)
    (hsrc : src ≠ []) (h : CacheFile perm used src = SlotResult.returned used') :
    used' = used := by
  unfold CacheFile at h
  cases hf : findSlot used perm with
  | none => simp only [hf, reduceCtorEq] at h
  | some o =>
    cases o with
    | none => simp only [hf, reduceCtorEq] at h
    | some sid =>
      simp only [hf, if_neg hsrc] at h
      by_cases hb : 0x7C ∈ src
      · simp only [hb, if_true, SlotResult.returned.injEq] at h
        rw [← h]
        exact set_set_restore used sid (findSlot_free used perm sid hf)
      · simp only [hb, if_false, reduceCtorEq] at h

theorem CacheFile_empty_leaks (perm : List Nat) (used used' : List Bool)
    (h : CacheFile perm used [] = SlotResult.returned used') :
    ∃ sid, used.get? sid = some false ∧ used'.get? sid = some true ∧ used' ≠ used
      ∧ WaitAllDone used' = false := by
  unfold CacheFile at h
  cases hf : findSlot used perm with
  | none => simp only [hf, reduceCtorEq] at h
  | some o =>
    cases o with
    | none => simp only [hf, reduceCtorEq] at h
    | some sid =>
      simp only [hf, if_true, SlotResult.returned.injEq] at h
      have hfree := findSlot_free used perm sid hf
      have hset : used'.get? sid = some true := by
        rw [← h]; exact get?_set_self _ _ _ (lt_length_of_get? hfree)
      refine ⟨sid, hfree, hset, ?_, ?_⟩
      · intro e
        rw [e, hfree] at hset
        exact Bool.noConfusion (Option.some.inj hset)
      · unfold WaitAllDone
        have hm : true ∈ used' := by
          rw [List.get?_eq_some] at hset
          obtain ⟨hl, hg⟩ := hset
          rw [← hg]
          exact List.get_mem _ _ _
        have hany : used'.any (fun b => b) = true := List.any_eq_true.2 ⟨true, hm, rfl⟩
        rw [hany]
        rfl

/-- C17 (the code at the failing input): on a pool of two free slots, `CacheFile` with the
empty source handle returns with the slot it took still marked as used, so the exit
condition of `WaitAll` does not hold although no call is running; a second such call takes
the other slot, and after it `CacheFile` and `MoveFile` find no slot and wait.  With a
non-empty source the same call leaves the pool as it was. -/
theorem CacheFile_null_source_keeps_slot :
    CacheFile [0, 1] [false, false] [] = SlotResult.returned [true, false]
      ∧ WaitAllDone [false, false] = true ∧ WaitAllDone [true, false] = false
      ∧ CacheFile [1, 0] [true, false] [] = SlotResult.returned [true, true]
      ∧ CacheFile [0, 1] [true, true] [0x61, 0x7C, 0x62] = SlotResult.waiting
      ∧ MoveFile [0, 1] [true, true] = SlotResult.waiting
      ∧ CacheFile [0, 1] [false, false] [0x61, 0x7C, 0x62] = SlotResult.returned [false, false]
      ∧ MoveFile [0, 1] [false, false] = SlotResult.returned [false, false] := by
  decide

end Seeefs
